import Mathlib

/-!
# MojoSetup: the tar decoder and its gzip adapter (`archive_tar.c`)

A shallow embedding of `archive_tar.c`.  Bytes are natural numbers, C strings and
blocks are lists of bytes, `int64` values are integers kept in range by `toInt64`,
`uint64` values are naturals kept in range by `toUInt64`.  A read outside an array
(the digit scan of `octal_convert` past a header block, `filename[-1]`) ends a call
in `Outcome.undefined`.  The last part embeds `cleanup_gui_option_list` of
`lua_glue.c`, with a sibling list as a list of records.
-/

namespace MojoSetup

/-! ## Machine integers -/

/-- Conversion of an integer to `uint64` (reduction modulo `2^64`). -/
def toUInt64 (x : Int) : Nat := (x % 18446744073709551616).toNat

/-- Conversion of an integer to `int64` (two's complement wrap-around). -/
def toInt64 (x : Int) : Int :=
  (x + 9223372036854775808) % 18446744073709551616 - 9223372036854775808

/-- Conversion of an integer to `uint32`. -/
def toUInt32 (x : Int) : Nat := (x % 4294967296).toNat

/-- Conversion of an integer to `uint16`. -/
def toUInt16 (x : Int) : Nat := (x % 65536).toNat

/-! ## `octal_convert` -/

/-- The loop test of the forward scan: `(*ptr >= '0') && (*ptr <= '7')`. -/
def isOctalDigit (c : Nat) : Bool := decide (48 ≤ c) && decide (c ≤ 55)

/-- The forward scan `while ((*ptr >= '0') && (*ptr <= '7')) ptr++;`: the bytes
between `str` and the final `ptr`. -/
def octalScan : List Nat → List Nat
  | [] => []
  | c :: rest => if isOctalDigit c then c :: octalScan rest else []

/-- The backward walk `while (--ptr >= str)`: the argument lists the bytes still
to visit, the one under `ptr` first; `retval` and `multiplier` are `int64`,
`val` is `uint64`. -/
def octalWalk : List Nat → Int → Int → Int
  | [], retval, _ => retval
  | c :: rest, retval, multiplier =>
      let val : Int := toUInt64 ((c : Int) - 48)
      octalWalk rest (toInt64 (retval + val * multiplier)) (toInt64 (multiplier * 8))

/-- The function `octal_convert(str)`; `str` is the memory from the pointer on. -/
def octal_convert (str : List Nat) : Int :=
  octalWalk (octalScan str).reverse 0 1

/-- The base-8 value of a digit string, most significant digit first:
the sum of `(d_i - '0') * 8^(k-i)`. -/
def octalValue : List Nat → Int
  | [] => 0
  | d :: ds => ((d : Int) - 48) * 8 ^ ds.length + octalValue ds

/-! ## The stream underneath the decoder -/

/-- Modelled from the spec: the `MojoInput` stream interface comes from `fileio.h`,
which is not among the sources.  This is a seekable stream over a finite byte
sequence obeying the Stream contract: `read` returns the bytes under the cursor, at
most the number asked for, and none at the end of data; `seek` fails when the offset
is out of range; `tell` is the cursor; `length` is the total size. -/
structure MojoInput where
  data : List Nat
  pos : Nat
deriving DecidableEq

/-- The `read` operation of the stream: the bytes delivered and the stream after. -/
def MojoInput.read (s : MojoInput) (n : Nat) : List Nat × MojoInput :=
  ((s.data.drop s.pos).take n, { s with pos := s.pos + ((s.data.drop s.pos).take n).length })

/-- The `seek` operation of the stream: success flag and the stream after. -/
def MojoInput.seek (s : MojoInput) (off : Nat) : Bool × MojoInput :=
  if off ≤ s.data.length then (true, { s with pos := off }) else (false, s)

/-- The `tell` operation of the stream. -/
def MojoInput.tell (s : MojoInput) : Int := s.pos

/-- The `length` operation of the stream. -/
def MojoInput.length (s : MojoInput) : Int := s.data.length

/-! ## Archive data -/

/-- Modelled from the spec: the entry types of `MojoArchiveEntry` (declared in
`fileio.h`): file, directory, symlink, unknown. -/
inductive MojoArchiveEntryType where
  | MOJOARCHIVE_ENTRY_UNKNOWN
  | MOJOARCHIVE_ENTRY_FILE
  | MOJOARCHIVE_ENTRY_DIR
  | MOJOARCHIVE_ENTRY_SYMLINK
deriving DecidableEq

open MojoArchiveEntryType

/-- Modelled from the spec: the entry metadata `MojoArchiveEntry` (declared in
`fileio.h`); a `NULL` string is `none`. -/
structure MojoArchiveEntry where
  filename : Option (List Nat)
  linkdest : Option (List Nat)
  type : MojoArchiveEntryType
  perms : Nat
  filesize : Int
deriving DecidableEq

/-- Modelled from the spec: `MojoArchive_resetEntry` (defined outside the sources)
clears the current entry metadata. -/
def MojoArchive_resetEntry : MojoArchiveEntry :=
  { filename := none, linkdest := none, type := MOJOARCHIVE_ENTRY_UNKNOWN, perms := 0,
    filesize := 0 }

/-- The struct `TARinput` (the archive pointer `ar` is passed alongside). -/
structure TARinput where
  fsize : Int
  offset : Int
deriving DecidableEq

/-- The struct `TARinfo`; `input` is the open-entry slot. -/
structure TARinfo where
  input : Option TARinput
  nextEnumPos : Nat
deriving DecidableEq

/-- The fields of `MojoArchive` the tar decoder uses: the stream `io`, the current
entry `prevEnum` and the `TARinfo` behind `opaque`. -/
structure MojoArchive where
  io : MojoInput
  prevEnum : MojoArchiveEntry
  info : TARinfo
deriving DecidableEq

/-- How a call ends: in `fatal()` (no return), in undefined behaviour of the C code
(an access outside an object), without end, or by returning a value. -/
inductive Outcome (α : Type) where
  | fatal
  | undefined
  | diverges
  | ok (val : α)
deriving DecidableEq

/-! ## Header fields -/

abbrev TAR_FNAME : Nat := 0
abbrev TAR_FNAMELEN : Nat := 100
abbrev TAR_MODE : Nat := 100
abbrev TAR_SIZE : Nat := 124
abbrev TAR_TYPE : Nat := 156
abbrev TAR_LINKNAME : Nat := 157
abbrev TAR_LINKNAMELEN : Nat := 100
abbrev TAR_MAGIC : Nat := 257
abbrev TAR_MAGICLEN : Nat := 6
abbrev TAR_FNAMEPRE : Nat := 345
abbrev TAR_FNAMEPRELEN : Nat := 155
abbrev TAR_TYPE_FILE : Nat := 48
abbrev TAR_TYPE_SYMLINK : Nat := 50
abbrev TAR_TYPE_DIRECTORY : Nat := 53

/-- The buffer `scratch` after `memset(scratch, '\0', sizeof (scratch))`: 512 zero
bytes. -/
def zeroBlock : List Nat := List.replicate 512 0

/-- The bytes `buf[off .. off+len)`. -/
def slice (buf : List Nat) (off len : Nat) : List Nat := (buf.drop off).take len

/-- The C string that starts a buffer: its bytes before the first NUL. -/
def cstr (buf : List Nat) : List Nat := buf.takeWhile (fun c => c != 0)

/-- The function `strlen` on a buffer. -/
def strlen (buf : List Nat) : Nat := (cstr buf).length

/-- The call `memcpy(&buf[off], src, src.length)`. -/
def memcpy (buf : List Nat) (off : Nat) (src : List Nat) : List Nat :=
  buf.take off ++ src ++ buf.drop (off + src.length)

/-- The function `is_ustar`: the magic field is `"ustar "` or `"ustar\0"`. -/
def is_ustar (block : List Nat) : Bool :=
  decide (slice block TAR_MAGIC TAR_MAGICLEN = [117, 115, 116, 97, 114, 32]) ||
  decide (slice block TAR_MAGIC TAR_MAGICLEN = [117, 115, 116, 97, 114, 0])

/-- The 512-byte `scratch` buffer of `enumNext` after the file name was assembled in
it: zeroed, then the prefix field copied in for a ustar block, then the name field
copied to where the prefix text ends. -/
def filenameScratch (block : List Nat) : List Nat :=
  let scratch0 := zeroBlock
  let scratch1 :=
    if is_ustar block then memcpy scratch0 0 (slice block TAR_FNAMEPRE TAR_FNAMEPRELEN)
    else scratch0
  memcpy scratch1 (strlen scratch1) (slice block TAR_FNAME TAR_FNAMELEN)

/-- The value of `fnamelen` after the file name was assembled. -/
def filenameLen (block : List Nat) : Nat :=
  let scratch0 := zeroBlock
  let scratch1 :=
    if is_ustar block then memcpy scratch0 0 (slice block TAR_FNAMEPRE TAR_FNAMEPRELEN)
    else scratch0
  strlen scratch1 + strlen ((filenameScratch block).drop (strlen scratch1))

/-- The loop `while (filename[fnamelen-1] == '/') filename[--fnamelen] = '\0';`
started with the given `fnamelen`: the buffer after the loop, or `none` when the loop
reads `filename[-1]`. -/
def stripSlashes (filename : List Nat) : Nat → Option (List Nat)
  | 0 => none
  | n + 1 =>
      if filename.getD n 0 = 47 then stripSlashes (filename.set n 0) n else some filename

/-- The block `if (filename[fnamelen-1] == '/') { ... }` of `enumNext`: the file name
after it and whether the branch was taken; `none` when `filename[-1]` is read. -/
def trailingSlash (filename : List Nat) (fnamelen : Nat) : Option (List Nat × Bool) :=
  match fnamelen with
  | 0 => none
  | n + 1 =>
      if filename.getD n 0 = 47 then
        (stripSlashes filename (n + 1)).map (fun buf => (cstr buf, true))
      else some (filename, false)

/-- The index of the byte at which the forward scan of `octal_convert(&block[off])`
stops: the first byte from `off` on that fails the loop test (the last byte the scan
reads). -/
def octalScanEnd (block : List Nat) (off : Nat) : Nat :=
  off + (octalScan (block.drop off)).length

/-- The two digit scans of `enumNext`, `octal_convert(&block[TAR_MODE])` and
`octal_convert(&block[TAR_SIZE])`, both stop at a byte of `block`: neither goes on to
read the byte after the last one of the array. -/
def scanInBlock (block : List Nat) : Bool :=
  decide (octalScanEnd block TAR_MODE < block.length) &&
    decide (octalScanEnd block TAR_SIZE < block.length)

/-- The fields `enumNext` stores in `prevEnum` from a non-zero header block whose
digit scans stop inside the block: `none` when the code reads outside the file
name. -/
def decodeHeader (block : List Nat) : Option MojoArchiveEntry :=
  let ustar := is_ustar block
  let perms := toUInt16 (octal_convert (block.drop TAR_MODE))
  let filesize := octal_convert (block.drop TAR_SIZE)
  let filename := cstr (filenameScratch block)
  let fnamelen := filenameLen block
  let type0 := block.getD TAR_TYPE 0
  let type1 := if type0 = 0 then TAR_TYPE_FILE else type0
  match trailingSlash filename fnamelen with
  | none => none
  | some (fname, slashed) =>
      let type2 :=
        if slashed && !ustar && decide (type1 = TAR_TYPE_FILE) then TAR_TYPE_DIRECTORY
        else type1
      if type2 = TAR_TYPE_FILE then
        some { filename := some fname, linkdest := none, type := MOJOARCHIVE_ENTRY_FILE,
               perms := perms, filesize := filesize }
      else if type2 = TAR_TYPE_DIRECTORY then
        some { filename := some fname, linkdest := none, type := MOJOARCHIVE_ENTRY_DIR,
               perms := perms, filesize := filesize }
      else if type2 = TAR_TYPE_SYMLINK then
        some { filename := some fname,
               linkdest := some (cstr ((memcpy (filenameScratch block) 0
                 (slice block TAR_LINKNAME TAR_LINKNAMELEN)).set TAR_LINKNAMELEN 0)),
               type := MOJOARCHIVE_ENTRY_SYMLINK, perms := perms, filesize := filesize }
      else
        some { filename := some fname, linkdest := none, type := MOJOARCHIVE_ENTRY_UNKNOWN,
               perms := perms, filesize := filesize }

/-- The part of `enumNext` that fills `prevEnum` from a non-zero header block:
`none` when the code reads outside the block (a digit scan that finds no byte other
than a digit up to the end of the block) or outside the file name. -/
def parseHeader (block : List Nat) : Option MojoArchiveEntry :=
  if scanInBlock block then decodeHeader block else none

/-- The statements `nextEnumPos += 512 + filesize; if (filesize % 512)
nextEnumPos += 512 - (filesize % 512);` in `uint64` arithmetic. -/
def advanceEnumPos (nextEnumPos : Nat) (filesize : Int) : Nat :=
  let pos1 := toUInt64 ((nextEnumPos : Int) + toInt64 (512 + filesize))
  if filesize.tmod 512 ≠ 0 then toUInt64 ((pos1 : Int) + (512 - filesize.tmod 512)) else pos1

/-- The loop `while (zeroes)` of `enumNext`: reads 512-byte blocks until one is not
all zero (`some block`) or a read comes up short (`none`, the function returns
`NULL`); the outer `none` means the iteration budget ran out. -/
def skipZeroBlocks : Nat → MojoInput → Option (Option (List Nat) × MojoInput)
  | 0, _ => none
  | fuel + 1, s =>
      if (s.read 512).1.length ≠ 512 then some (none, (s.read 512).2)
      else if (s.read 512).1 = zeroBlock then skipZeroBlocks fuel (s.read 512).2
      else some (some (s.read 512).1, (s.read 512).2)

/-! ## The archive operations -/

/-- The function `MojoArchive_tar_enumerate`. -/
def MojoArchive_tar_enumerate (ar : MojoArchive) : Outcome (Bool × MojoArchive) :=
  if ar.info.input.isSome then Outcome.fatal
  else Outcome.ok (true, { ar with prevEnum := MojoArchive_resetEntry,
                                   info := { ar.info with nextEnumPos := 0 } })

/-- The function `MojoArchive_tar_enumNext`: the entry returned (`none` for `NULL`)
and the archive after the call. -/
def MojoArchive_tar_enumNext (ar : MojoArchive) :
    Outcome (Option MojoArchiveEntry × MojoArchive) :=
  if ar.info.input.isSome then Outcome.fatal
  else if (ar.io.seek ar.info.nextEnumPos).1 = false then
    Outcome.ok (none, { ar with prevEnum := MojoArchive_resetEntry,
                                io := (ar.io.seek ar.info.nextEnumPos).2 })
  else
    match skipZeroBlocks (ar.io.data.length + 1) (ar.io.seek ar.info.nextEnumPos).2 with
    | none => Outcome.diverges
    | some (none, s) => Outcome.ok (none, { ar with prevEnum := MojoArchive_resetEntry, io := s })
    | some (some block, s) =>
        match parseHeader block with
        | none => Outcome.undefined
        | some e =>
            Outcome.ok (some e,
              { io := s, prevEnum := e,
                info := { ar.info with
                  nextEnumPos := advanceEnumPos ar.info.nextEnumPos e.filesize } })

/-- The offset `openCurrentEntry` gives the entry stream:
`offset = nextEnumPos - fsize; if (offset % 512) offset -= 512 - (offset % 512);`
(the difference is taken in `uint64` and stored in an `int64`). -/
def entryOffset (nextEnumPos : Nat) (fsize : Int) : Int :=
  let offset0 := toInt64 (toUInt64 ((nextEnumPos : Int) - fsize))
  if offset0.tmod 512 ≠ 0 then toInt64 (offset0 - (512 - offset0.tmod 512)) else offset0

/-- The function `MojoArchive_tar_openCurrentEntry`: the entry stream made and the
archive after the call. -/
def MojoArchive_tar_openCurrentEntry (ar : MojoArchive) : Outcome (TARinput × MojoArchive) :=
  if ar.info.input.isSome then Outcome.fatal
  else
    Outcome.ok
      ({ fsize := ar.prevEnum.filesize,
         offset := entryOffset ar.info.nextEnumPos ar.prevEnum.filesize },
       { ar with info := { ar.info with
           input := some { fsize := ar.prevEnum.filesize,
                           offset := entryOffset ar.info.nextEnumPos ar.prevEnum.filesize } } })

/-! ## The entry stream -/

/-- The function `MojoInput_tar_tell`. -/
def MojoInput_tar_tell (input : TARinput) (ar : MojoArchive) : Int :=
  toInt64 (ar.io.tell - input.offset)

/-- The byte count `MojoInput_tar_read` asks the underlying stream for:
`if ((pos + bufsize) > fsize) bufsize = fsize - pos;` with `pos` an `int64` and
`bufsize` a `uint32`. -/
def tarReadSize (pos fsize : Int) (bufsize : Nat) : Nat :=
  if toInt64 (pos + bufsize) > fsize then toUInt32 (fsize - pos) else bufsize

/-- The function `MojoInput_tar_read`: the bytes delivered and the archive after. -/
def MojoInput_tar_read (input : TARinput) (ar : MojoArchive) (bufsize : Nat) :
    List Nat × MojoArchive :=
  ((ar.io.read (tarReadSize (MojoInput_tar_tell input ar) input.fsize bufsize)).1,
   { ar with io := (ar.io.read (tarReadSize (MojoInput_tar_tell input ar) input.fsize bufsize)).2 })

/-- The function `MojoInput_tar_length`. -/
def MojoInput_tar_length (input : TARinput) : Int := input.fsize

/-- The function `MojoInput_tar_close`: empties the open-entry slot. -/
def MojoInput_tar_close (ar : MojoArchive) : MojoArchive :=
  { ar with info := { ar.info with input := none } }

/-- A caller that reads an entry stream with a buffer of `bufsize` bytes until a
read returns 0: the bytes collected; `none` when the iteration budget ran out. -/
def readUntilZero : Nat → TARinput → MojoArchive → Nat → Option (List Nat)
  | 0, _, _, _ => none
  | fuel + 1, input, ar, bufsize =>
      if (MojoInput_tar_read input ar bufsize).1.length = 0 then some []
      else
        (readUntilZero fuel input (MojoInput_tar_read input ar bufsize).2 bufsize).map
          (fun rest => (MojoInput_tar_read input ar bufsize).1 ++ rest)

/-- The function `MojoInput_tar_seek`: the test `pos < input->fsize` compares a
`uint64` with an `int64`, so `fsize` is converted to `uint64`; the target
`input->offset + pos` is taken in `uint64` too. -/
def MojoInput_tar_seek (input : TARinput) (ar : MojoArchive) (pos : Nat) :
    Bool × MojoArchive :=
  if pos < toUInt64 input.fsize then
    ((ar.io.seek (toUInt64 (input.offset + pos))).1,
     { ar with io := (ar.io.seek (toUInt64 (input.offset + pos))).2 })
  else (false, ar)

/-! ## Archive layouts used to state the properties -/

/-- A run of `k` all-zero blocks. -/
def zeroBlocks : Nat → List Nat
  | 0 => []
  | k + 1 => zeroBlock ++ zeroBlocks k

/-- The size rounded up to the next multiple of 512. -/
def roundUp512 (s : Nat) : Nat := (s + 511) / 512 * 512

/-- A caller that calls `enumNext` until it returns `NULL`: the entries returned, in
order, and the archive after the last call. -/
def enumAll : Nat → MojoArchive → Outcome (List MojoArchiveEntry × MojoArchive)
  | 0, _ => Outcome.diverges
  | fuel + 1, ar =>
      match MojoArchive_tar_enumNext ar with
      | Outcome.ok (none, ar1) => Outcome.ok ([], ar1)
      | Outcome.ok (some e, ar1) =>
          match enumAll fuel ar1 with
          | Outcome.ok (es, ar2) => Outcome.ok (e :: es, ar2)
          | Outcome.fatal => Outcome.fatal
          | Outcome.undefined => Outcome.undefined
          | Outcome.diverges => Outcome.diverges
      | Outcome.fatal => Outcome.fatal
      | Outcome.undefined => Outcome.undefined
      | Outcome.diverges => Outcome.diverges

/-- The file name assembled from a header block has a character other than `'/'`: it
is not empty and not made only of `'/'`. -/
def nameUsable (block : List Nat) : Prop :=
  ∃ ch ∈ cstr (filenameScratch block), ch ≠ 47

/-- One member of an archive as it lies in the stream: the header block and the data
area after it (content and padding). -/
structure Member where
  header : List Nat
  payload : List Nat

/-- The size a member's header declares: its size field as the decoder reads it. -/
def Member.size (m : Member) : Int := octal_convert (m.header.drop TAR_SIZE)

/-- The entry the decoder makes of a member's header. -/
def Member.entry (m : Member) : MojoArchiveEntry :=
  (parseHeader m.header).getD MojoArchive_resetEntry

/-- The bytes a member takes in the stream: `512 + roundUp(size, 512)`. -/
def Member.span (m : Member) : Nat := 512 + roundUp512 m.size.toNat

/-- A well-formed member: a 512-byte header that is not all zero, declares a size
`s ≥ 0`, carries a file name the decoder can take (not empty, not made only of
`'/'`) and has a byte other than a digit after the digits of its mode and of its size,
followed by `roundUp(s, 512)` data bytes. -/
def Member.WellFormed (m : Member) : Prop :=
  m.header.length = 512 ∧ m.header ≠ zeroBlock ∧ 0 ≤ m.size ∧
    m.payload.length = roundUp512 m.size.toNat ∧ nameUsable m.header ∧
    scanInBlock m.header = true

/-- The bytes of an archive: its members one after the other, then a trailer. -/
def archiveBytes : List Member → List Nat → List Nat
  | [], trailer => trailer
  | m :: rest, trailer => m.header ++ (m.payload ++ archiveBytes rest trailer)

/-- The sum of `512 + roundUp(size, 512)` over the members. -/
def spanSum : List Member → Nat
  | [] => 0
  | m :: rest => m.span + spanSum rest

/-- A header block laid out as a tar writer does: the name, the mode `0000644`, uid
and gid, the size digits, mtime and checksum, the type flag, an empty link name, the
magic, then version, owner names and device numbers, and the file name prefix; every
field is padded with NUL bytes. -/
def tarHeader (name size : List Nat) (typeflag : Nat) (magic fnamepre : List Nat) : List Nat :=
  name ++ List.replicate (100 - name.length) 0 ++ [48, 48, 48, 48, 54, 52, 52, 0] ++
    List.replicate 16 0 ++ size ++ List.replicate (12 - size.length) 0 ++ List.replicate 20 0 ++
    [typeflag] ++ List.replicate 100 0 ++ magic ++ List.replicate (88 - magic.length) 0 ++
    fnamepre ++ List.replicate (167 - fnamepre.length) 0

/-- The magic `"ustar\0"`. -/
def ustarMagic : List Nat := [117, 115, 116, 97, 114, 0]

/-- A sample member: the file `a`, one byte long (the byte 7), in a ustar header. -/
def memberA : Member :=
  { header := tarHeader [97] [49] 48 ustarMagic [], payload := 7 :: List.replicate 511 0 }

/-- A sample member: the empty file `b` in a ustar header. -/
def memberB : Member :=
  { header := tarHeader [98] [48] 48 ustarMagic [], payload := [] }

/-- The stream of C3: the archive of `memberA` closed by one zero block, followed by
the archive of `memberB`. -/
def concatStream : List Nat := archiveBytes [memberA] (zeroBlocks 1) ++ archiveBytes [memberB] []

/-- The stream of C1: the archive of `memberA` (one payload byte) and two zero blocks. -/
def oneByteStream : List Nat := archiveBytes [memberA] (zeroBlocks 2)

/-- A file name with all its trailing `'/'` characters removed. -/
def dropTrailingSlashes (name : List Nat) : List Nat :=
  name.rdropWhile (fun ch => ch == 47)

/-- A sample legacy header: the name `dir/`, typeflag `'0'`, no magic. -/
def legacyDirHeader : List Nat := tarHeader [100, 105, 114, 47] [48] 48 [] []

/-- The header of C6: ustar magic, a name field of 100 bytes `'b'` (no NUL), and a
prefix field that holds `"a"`, a NUL, and then 153 bytes `'X'`. -/
def garbledPrefixHeader : List Nat :=
  tarHeader (List.replicate 100 98) [48] 48 ustarMagic (97 :: 0 :: List.replicate 153 88)

/-- The archive together with the entry streams that `openCurrentEntry` has made and
that were not closed since. -/
structure Session where
  ar : MojoArchive
  live : List TARinput
deriving DecidableEq

/-- The calls a holder of the archive makes: the three archive operations and the
`close` of the `i`-th entry stream still open. -/
inductive Call where
  | enumerate
  | enumNext
  | openCurrentEntry
  | close (i : Nat)

/-- One call on a session; `none` when the call does not return (it ends in `fatal`
or in undefined behaviour) or names an entry stream that is not open. -/
def Session.step (s : Session) : Call → Option Session
  | Call.enumerate =>
      match MojoArchive_tar_enumerate s.ar with
      | Outcome.ok (_, ar1) => some ⟨ar1, s.live⟩
      | _ => none
  | Call.enumNext =>
      match MojoArchive_tar_enumNext s.ar with
      | Outcome.ok (_, ar1) => some ⟨ar1, s.live⟩
      | _ => none
  | Call.openCurrentEntry =>
      match MojoArchive_tar_openCurrentEntry s.ar with
      | Outcome.ok (inp, ar1) => some ⟨ar1, inp :: s.live⟩
      | _ => none
  | Call.close i =>
      if i < s.live.length then some ⟨MojoInput_tar_close s.ar, s.live.eraseIdx i⟩ else none

/-- A sequence of calls, each returning. -/
def Session.run (s : Session) : List Call → Option Session
  | [] => some s
  | c :: cs =>
      match s.step c with
      | some s1 => s1.run cs
      | none => none

/-- The open-entry slot and the open entry streams agree: both empty, or the slot
holds the one stream that is open. -/
def Session.Consistent (s : Session) : Prop :=
  (s.ar.info.input = none ∧ s.live = []) ∨ ∃ inp, s.ar.info.input = some inp ∧ s.live = [inp]

/-- What `MojoArchive_createTAR` does with a stream: returns `NULL`, returns an
archive over the stream itself, or (gzip magic, with `SUPPORT_TAR_GZ`) goes on with
the decompression adapter made over the stream. -/
inductive CreateResult where
  | null
  | archive (ar : MojoArchive)
  | gzip (origio : MojoInput)
deriving DecidableEq

/-- Modelled from the spec: `xmalloc` (defined outside the sources) hands out the
memory of a fresh decoder, from which enumeration begins cleanly: the open-entry slot
is empty and the cursor is 0. -/
def freshTARinfo : TARinfo := { input := none, nextEnumPos := 0 }

/-- The function `MojoArchive_createTAR` for a stream that is not wrapped into the
decompression adapter; when the gzip magic is found (and `SUPPORT_TAR_GZ` is set) the
result names the stream the adapter is made over, and the sniffing of the
decompressed bytes that follows is left out. -/
def MojoArchive_createTAR (SUPPORT_TAR_GZ : Bool) (s : MojoInput) : CreateResult :=
  let r4 := s.read 4
  let k0 := r4.2.seek 0
  if k0.1 = false ∨ r4.1.length ≠ 4 then CreateResult.null
  else if SUPPORT_TAR_GZ = true ∧ r4.1.getD 0 0 = 31 ∧ r4.1.getD 1 0 = 139 ∧
      r4.1.getD 2 0 = 8 then
    CreateResult.gzip k0.2
  else
    let r512 := k0.2.read 512
    let k1 := r512.2.seek 0
    if k1.1 = false ∨ r512.1.length ≠ 512 then CreateResult.null
    else if is_ustar r512.1 = false then CreateResult.null
    else CreateResult.archive ⟨k1.2, MojoArchive_resetEntry, freshTARinfo⟩

/-! ## The decompression adapter -/

/-- The zlib return code `Z_OK`. -/
abbrev Z_OK : Int := 0

/-- The zlib return code `Z_BUF_ERROR`. -/
abbrev Z_BUF_ERROR : Int := -5

/-- The size of the read-ahead buffer, `GZIP_READBUFSIZE`. -/
abbrev GZIP_READBUFSIZE : Nat := 128 * 1024

/-- Modelled from the spec: the inflate engine (zlib, not among the sources) as an
abstract deterministic decoder.  `init` is the engine state `inflateInit2` sets up
(`none` when it fails); `inflate` takes the state, the input bytes available and the
room in the output buffer, and gives the new state, how many input bytes it used,
the bytes it produced and its return code. -/
structure Inflater (σ : Type) where
  init : Option σ
  inflate : σ → List Nat → Nat → σ × Nat × List Nat × Int

/-- The struct `GZIPinfo`: the origin stream, the logical cursor, the engine state and
the unread part of the read-ahead buffer (`next_in`, `avail_in`). -/
structure GZIPinfo (σ : Type) where
  origio : MojoInput
  uncompressed_position : Nat
  stream : σ
  avail : List Nat
deriving DecidableEq

/-- One call `inflate(&info->stream, Z_SYNC_FLUSH)` with `room` bytes left in the
output buffer: the adapter after it, the bytes produced and the return code.  The
engine never writes more than the room it has, and reports `Z_BUF_ERROR` in place of
`Z_OK` when it made no progress. -/
def callInflate {σ : Type} (z : Inflater σ) (info : GZIPinfo σ) (room : Nat) :
    GZIPinfo σ × List Nat × Int :=
  let r := z.inflate info.stream info.avail room
  let used := min r.2.1 info.avail.length
  let produced := r.2.2.1.take room
  let rc := if used = 0 ∧ produced = [] ∧ r.2.2.2 = Z_OK then Z_BUF_ERROR else r.2.2.2
  ({ info with stream := r.1, avail := info.avail.drop used }, produced, rc)

/-- The refill at the top of the read loop, run when `avail_in == 0`: `none` when the
origin read fails (`br <= 0`) and the function returns -1. -/
def gzipRefill {σ : Type} (info : GZIPinfo σ) : Option (GZIPinfo σ) :=
  if info.avail.length = 0 then
    if info.origio.length - info.origio.tell > 0 then
      let br := min (info.origio.length - info.origio.tell) GZIP_READBUFSIZE
      let r := info.origio.read br.toNat
      if r.1.length ≤ 0 then none
      else some { info with origio := r.2, avail := r.1 }
    else some info
  else some info

/-- The loop `while (retval < bufsize)` of `MojoInput_gzip_read`; `out` holds the
bytes written to the buffer so far (`retval` is their number).  The result is the
bytes in the buffer when the loop ends, or `none` when the function returns -1; an
outer `none` means the iteration budget ran out. -/
def gzipReadLoop {σ : Type} (z : Inflater σ) (bufsize : Nat) :
    Nat → GZIPinfo σ → List Nat → Option (Option (List Nat) × GZIPinfo σ)
  | 0, _, _ => none
  | fuel + 1, info, out =>
      if out.length < bufsize then
        match gzipRefill info with
        | none => some (none, info)
        | some info1 =>
            if (callInflate z info1 (bufsize - out.length)).2.2 ≠ Z_OK then
              some (none, (callInflate z info1 (bufsize - out.length)).1)
            else
              gzipReadLoop z bufsize fuel (callInflate z info1 (bufsize - out.length)).1
                (out ++ (callInflate z info1 (bufsize - out.length)).2.1)
      else some (some out, info)

/-- The statement `info->uncompressed_position += (uint32) retval;`. -/
def gzipAdvance {σ : Type} (info : GZIPinfo σ) (retval : Nat) : GZIPinfo σ :=
  { info with
    uncompressed_position := toUInt64 (info.uncompressed_position + toUInt32 retval) }

/-- The function `MojoInput_gzip_read`: the value returned, the bytes put into the
buffer and the adapter after the call; `none` when the iteration budget ran out. -/
def MojoInput_gzip_read {σ : Type} (z : Inflater σ) (fuel : Nat) (info : GZIPinfo σ)
    (bufsize : Nat) : Option (Int × List Nat × GZIPinfo σ) :=
  if bufsize = 0 then some (0, [], info)
  else
    match gzipReadLoop z bufsize fuel info [] with
    | none => none
    | some (none, info1) => some (-1, [], info1)
    | some (some out, info1) =>
        if out.length > 0 then
          some (out.length, out, gzipAdvance info1 out.length)
        else some (out.length, out, info1)

/-- The function `MojoInput_gzip_tell`: the `uint64` cursor returned as an `int64`. -/
def MojoInput_gzip_tell {σ : Type} (info : GZIPinfo σ) : Int :=
  toInt64 info.uncompressed_position

/-- The value of `maxread` in the seek loop: `(uint32) (offset - uncompressed_position)`,
cut down to `sizeof (buf)`. -/
def seekChunk (offset position : Nat) : Nat :=
  min (toUInt32 ((offset : Int) - position)) 512

/-- The loop `while (info->uncompressed_position != offset)` of `MojoInput_gzip_seek`:
it reads from the origin stream; an outer `none` means the iteration budget ran
out. -/
def gzipSeekLoop {σ : Type} (offset : Nat) : Nat → GZIPinfo σ → Option (Bool × GZIPinfo σ)
  | 0, _ => none
  | fuel + 1, info =>
      if info.uncompressed_position ≠ offset then
        if (info.origio.read (seekChunk offset info.uncompressed_position)).1.length ≠
            seekChunk offset info.uncompressed_position then
          some (false,
            { info with
              origio := (info.origio.read (seekChunk offset info.uncompressed_position)).2 })
        else
          gzipSeekLoop offset fuel
            { info with
              origio := (info.origio.read (seekChunk offset info.uncompressed_position)).2 }
      else some (true, info)

/-- The function `MojoInput_gzip_seek`: success flag and the adapter after the call;
`none` when the iteration budget ran out. -/
def MojoInput_gzip_seek {σ : Type} (z : Inflater σ) (fuel : Nat) (info : GZIPinfo σ)
    (offset : Nat) : Option (Bool × GZIPinfo σ) :=
  if offset < info.uncompressed_position then
    match z.init with
    | none => some (false, info)
    | some str =>
        if (info.origio.seek 0).1 = false then
          some (false, { info with origio := (info.origio.seek 0).2 })
        else
          gzipSeekLoop offset fuel
            { origio := (info.origio.seek 0).2, uncompressed_position := 0, stream := str,
              avail := [] }
  else gzipSeekLoop offset fuel info

/-- The function `make_gzip_input`: the adapter over an origin stream, `none` when
`inflateInit2` fails. -/
def make_gzip_input {σ : Type} (z : Inflater σ) (origio : MojoInput) : Option (GZIPinfo σ) :=
  match z.init with
  | none => none
  | some str => some { origio := origio, uncompressed_position := 0, stream := str, avail := [] }

/-- A stand-in engine for streams stored without compression: it copies input to
output, as much as fits. -/
def storedInflater : Inflater Unit :=
  { init := some (),
    inflate := fun _ avail room => ((), (avail.take room).length, avail.take room, Z_OK) }


/-- The adapter has given out all the decompressed data: the origin stream is read to
its end, the read-ahead buffer is used up, and the engine produces nothing more. -/
def AtEndOfData {σ : Type} (z : Inflater σ) (info : GZIPinfo σ) : Prop :=
  info.avail = [] ∧ info.origio.data.length ≤ info.origio.pos ∧
    ∀ room, (z.inflate info.stream [] room).2.2.1.take room = []

/-- The adapter of C9 and C10: fresh, over the stored stream `10 20 30 40`. -/
def storedAdapter : GZIPinfo Unit :=
  { origio := ⟨[10, 20, 30, 40], 0⟩, uncompressed_position := 0, stream := (), avail := [] }

/-- A sample symlink header: the name `l`, typeflag `'2'`, link name `tgt`, ustar
magic. -/
def symlinkHeader : List Nat :=
  memcpy (tarHeader [108] [48] 50 ustarMagic []) TAR_LINKNAME [116, 103, 116]

/-- A caller that makes one `read` call after the other on the adapter, with the
buffer sizes listed: the values returned, in order, and the adapter after the last
call; `none` when the iteration budget of a call ran out. -/
def gzipReadSeq {σ : Type} (z : Inflater σ) (fuel : Nat) :
    GZIPinfo σ → List Nat → Option (List Int × GZIPinfo σ)
  | info, [] => some ([], info)
  | info, n :: ns =>
      match MojoInput_gzip_read z fuel info n with
      | none => none
      | some (rv, _, info1) =>
          match gzipReadSeq z fuel info1 ns with
          | none => none
          | some (rvs, info2) => some (rv :: rvs, info2)

/-- The sum of the non-negative values in a list of return values. -/
def sumNonNeg : List Int → Int
  | [] => 0
  | rv :: rvs => (if 0 ≤ rv then rv else 0) + sumNonNeg rvs

/-! ## Header blocks used to state the field properties -/

abbrev TAR_MODELEN : Nat := 8
abbrev TAR_SIZELEN : Nat := 12

/-- A header whose numeric fields are filled to the last byte: mode `00000644`
(8 digits) and size `000000000001` (12 digits), no terminator inside either field;
uid and mtime are NUL bytes. -/
def fullFieldHeader : List Nat :=
  memcpy (tarHeader [97] [48, 48, 48, 48, 48, 48, 48, 48, 48, 48, 48, 49] 48 ustarMagic [])
    TAR_MODE [48, 48, 48, 48, 48, 54, 52, 52]

/-- The header `fullFieldHeader` with the first byte of the uid field set to `'7'`
and the first byte of the mtime field set to `'0'`: the mode and size fields are
untouched. -/
def runOnHeader : List Nat := memcpy (memcpy fullFieldHeader 108 [55]) 136 [48]

/-- A header block whose bytes from the size field to the end of the block are all
the digit `'7'`. -/
def overrunHeader : List Nat := (tarHeader [97] [] 48 [] []).take 124 ++ List.replicate 388 55

/-- A non-zero legacy header block whose name field is empty: the assembled file name
is the empty string. -/
def emptyNameHeader : List Nat := tarHeader [] [48] 48 [] []

/-- A non-zero legacy header block whose name field is `"//"`: the assembled file
name consists only of `'/'` characters. -/
def slashNameHeader : List Nat := tarHeader [47, 47] [48] 48 [] []

/-! ## The option lists of the installer description -/

/-- Modelled from the spec: the option record `MojoGuiSetupOptions` (declared in
`gui.h`, outside the sources; `lua_glue.c` calls it `GuiOptions`), with the fields
that `cleanup_gui_option_list` reads and writes. The `next_sibling` links are the
order of a list of records. -/
structure GuiOptions where
  description : List Nat
  value : Bool
  is_group_parent : Bool
deriving DecidableEq

/-- The assignment `node->value = v` on the node at position `i` of a sibling list. -/
def setValue : List GuiOptions → Nat → Bool → List GuiOptions
  | [], _, _ => []
  | o :: rest, 0, v => { o with value := v } :: rest
  | o :: rest, i + 1, v => o :: setValue rest i v

/-- The loop `while (opts != NULL)` of `cleanup_gui_option_list`. The state is the
part of the list not yet visited (`opts`), the part already relinked (`prev`, newest
node first) and the pointer `seen_enabled`, which always points into `prev` and is
kept as the position of its node there. The warning written to the log is not part
of the state. -/
def cleanupLoop (is_group : Bool) :
    List GuiOptions → List GuiOptions → Option Nat → List GuiOptions × Option Nat
  | [], prev, seen_enabled => (prev, seen_enabled)
  | o :: tmp, prev, seen_enabled =>
      if is_group && o.value then
        match seen_enabled with
        | some i => cleanupLoop is_group tmp (o :: setValue prev i false) (some 0)
        | none => cleanupLoop is_group tmp (o :: prev) (some 0)
      else
        cleanupLoop is_group tmp (o :: prev) (seen_enabled.map (· + 1))

/-- The function `cleanup_gui_option_list`: the list it returns, for the sibling list
`opts` and the parent (`none` for `NULL`). -/
def cleanup_gui_option_list (opts : List GuiOptions) (parent : Option GuiOptions) :
    List GuiOptions :=
  let is_group := match parent with
    | some p => p.is_group_parent
    | none => false
  let r := cleanupLoop is_group opts [] none
  if !r.1.isEmpty && is_group && r.2.isNone then setValue r.1 0 true else r.1

/-- An option with its `value` cleared: two records stand for the same option when
they agree after this. -/
def clearValue (o : GuiOptions) : GuiOptions := { o with value := false }

/-- The position of the first option of a list whose `value` is true, if any. -/
def firstEnabled : List GuiOptions → Option Nat
  | [] => none
  | o :: rest => if o.value then some 0 else (firstEnabled rest).map (· + 1)

/-- A list in which only the first enabled option stays enabled. -/
def keepFirst : List GuiOptions → List GuiOptions
  | [] => []
  | o :: rest => if o.value then o :: rest.map clearValue else o :: keepFirst rest

/-- A group parent, for the examples. -/
def sampleGroup : GuiOptions := ⟨[71], true, true⟩

/-- A sibling list as `build_one_gui_option` leaves it: three options, the first and
the last enabled. -/
def sampleOptions : List GuiOptions :=
  [⟨[97], true, false⟩, ⟨[98], false, false⟩, ⟨[99], true, false⟩]

/-! ## Theorems -/

theorem toInt64_of_range (x : Int) (h0 : -9223372036854775808 ≤ x)
    (h1 : x < 9223372036854775808) : toInt64 x = x := by
  unfold toInt64
  omega

theorem toUInt64_of_range (x : Int) (h0 : 0 ≤ x) (h1 : x < 18446744073709551616) :
    ((toUInt64 x : Nat) : Int) = x := by
  unfold toUInt64
  omega

theorem isOctalDigit_iff (c : Nat) : isOctalDigit c = true ↔ 48 ≤ c ∧ c ≤ 55 := by
  simp [isOctalDigit]

theorem octalScan_append (digits rest : List Nat)
    (hd : ∀ c ∈ digits, isOctalDigit c = true)
    (hr : ∀ c, rest.head? = some c → isOctalDigit c = false) :
    octalScan (digits ++ rest) = digits := by
  induction digits with
  | nil =>
      cases rest with
      | nil => rfl
      | cons c tl => simp [octalScan, hr c]
  | cons d ds ih =>
      have hd1 : isOctalDigit d = true := hd d (by simp)
      have hds : ∀ c ∈ ds, isOctalDigit c = true := fun c hc => hd c (by simp [hc])
      simp [octalScan, hd1, ih hds]

theorem octalValue_snoc (ds : List Nat) (d : Nat) :
    octalValue (ds ++ [d]) = 8 * octalValue ds + ((d : Int) - 48) := by
  induction ds with
  | nil => simp [octalValue]
  | cons e es ih =>
      show ((e : Int) - 48) * 8 ^ (es ++ [d]).length + octalValue (es ++ [d]) =
        8 * (((e : Int) - 48) * 8 ^ es.length + octalValue es) + ((d : Int) - 48)
      rw [ih, List.length_append, List.length_singleton, pow_succ]
      ring

theorem pow8_le (j : Nat) (hj : j ≤ 20) : (8 : Int) ^ j ≤ 1152921504606846976 := by
  have h : (8 : Int) ^ j ≤ 8 ^ 20 := pow_le_pow_right₀ (by norm_num) hj
  norm_num at h
  exact h

theorem octalWalk_value (l : List Nat) :
    ∀ (r : Int) (j : Nat), (∀ c ∈ l, isOctalDigit c = true) → 0 ≤ r → r < 8 ^ j →
      j + l.length ≤ 20 → octalWalk l r (8 ^ j) = r + 8 ^ j * octalValue l.reverse := by
  induction l with
  | nil => intro r j _ _ _ _; simp [octalWalk, octalValue]
  | cons c rest ih =>
      intro r j hd h0 h1 hlen
      have hc := (isOctalDigit_iff c).1 (hd c (by simp))
      have hrest : ∀ x ∈ rest, isOctalDigit x = true := fun x hx => hd x (by simp [hx])
      simp only [List.length_cons] at hlen
      have hj : (8 : Int) ^ j ≤ 1152921504606846976 := pow8_le j (by omega)
      have hj1 : (8 : Int) ^ (j + 1) ≤ 1152921504606846976 := pow8_le (j + 1) (by omega)
      have hpos : (0 : Int) < 8 ^ j := by positivity
      have hval : ((toUInt64 ((c : Int) - 48) : Nat) : Int) = (c : Int) - 48 :=
        toUInt64_of_range _ (by omega) (by omega)
      have hpow : (8 : Int) ^ (j + 1) = 8 ^ j * 8 := pow_succ 8 j
      have hlo : 0 ≤ r + ((c : Int) - 48) * 8 ^ j := by
        have : 0 ≤ ((c : Int) - 48) * 8 ^ j := mul_nonneg (by omega) (le_of_lt hpos)
        omega
      have hhi : r + ((c : Int) - 48) * 8 ^ j < 8 ^ (j + 1) := by
        have : ((c : Int) - 48) * 8 ^ j ≤ 7 * 8 ^ j :=
          mul_le_mul_of_nonneg_right (by omega) (le_of_lt hpos)
        rw [hpow]
        omega
      have hr : toInt64 (r + ((c : Int) - 48) * 8 ^ j) = r + ((c : Int) - 48) * 8 ^ j :=
        toInt64_of_range _ (by omega) (by omega)
      have hm : toInt64 (8 ^ j * 8) = 8 ^ (j + 1) := by
        rw [← hpow]
        exact toInt64_of_range _ (by omega) (by omega)
      simp only [octalWalk, hval, hr, hm]
      rw [ih _ (j + 1) hrest hlo hhi (by omega), List.reverse_cons, octalValue_snoc, hpow]
      ring

/-- C4: `octal_convert` returns the base-8 value of the maximal leading run of
octal digits when that run has at most 20 digits, returns 0 when the first byte is
not an octal digit, and decodes `"0000644\0"` to 420. -/
theorem octal_convert_spec :
    (∀ digits rest : List Nat, (∀ c ∈ digits, isOctalDigit c = true) →
        (∀ c, rest.head? = some c → isOctalDigit c = false) → digits.length ≤ 20 →
        octal_convert (digits ++ rest) = octalValue digits) ∧
    (∀ (c : Nat) (rest : List Nat), isOctalDigit c = false → octal_convert (c :: rest) = 0) ∧
    octal_convert [48, 48, 48, 48, 54, 52, 52, 0] = 420 := by
  refine ⟨?_, ?_, by decide⟩
  · intro digits rest hd hr hk
    unfold octal_convert
    rw [octalScan_append digits rest hd hr]
    have h := octalWalk_value digits.reverse 0 0 (by simpa using hd) (le_refl 0) (by norm_num)
      (by simpa using hk)
    simpa using h
  · intro c rest hc
    simp [octal_convert, octalScan, hc, octalWalk]

/-- Witness for C4: the field `"755 "` followed by other bytes decodes to 493. -/
theorem octal_convert_spec_witness :
    octal_convert ([55, 53, 53] ++ [32, 49]) = octalValue [55, 53, 53] ∧
      octalValue [55, 53, 53] = 493 :=
  ⟨octal_convert_spec.1 [55, 53, 53] [32, 49] (by decide) (by decide) (by decide), by decide⟩

/-! ### Streams and the zero-block loop -/

theorem zeroBlock_length : zeroBlock.length = 512 := by
  unfold zeroBlock
  exact List.length_replicate 512 0

theorem read_eq (d : List Nat) (p n : Nat) :
    MojoInput.read ⟨d, p⟩ n = ((d.drop p).take n, ⟨d, p + ((d.drop p).take n).length⟩) := rfl

theorem take_block_append (block post : List Nat) (h : block.length = 512) :
    (block ++ post).take 512 = block := by
  rw [← h]; exact List.take_left _ _

theorem drop_block_append (block post : List Nat) (h : block.length = 512) :
    (block ++ post).drop 512 = post := by
  rw [← h]; exact List.drop_left _ _

theorem skipZeroBlocks_found (d block post : List Nat) (hb : block.length = 512)
    (hnz : block ≠ zeroBlock) :
    ∀ (k fuel p : Nat), k < fuel →
      d.drop p = zeroBlocks k ++ (block ++ post) →
      skipZeroBlocks fuel ⟨d, p⟩ = some (some block, ⟨d, p + 512 * k + 512⟩) := by
  intro k
  induction k with
  | zero =>
      intro fuel p hf hd
      obtain ⟨f, rfl⟩ : ∃ f, fuel = f + 1 := ⟨fuel - 1, by omega⟩
      simp only [zeroBlocks, List.nil_append] at hd
      simp only [skipZeroBlocks, read_eq, hd, take_block_append block post hb, hb]
      simp [hnz]
  | succ k ih =>
      intro fuel p hf hd
      obtain ⟨f, rfl⟩ : ∃ f, fuel = f + 1 := ⟨fuel - 1, by omega⟩
      simp only [zeroBlocks, List.append_assoc] at hd
      have hnext : d.drop (p + 512) = zeroBlocks k ++ (block ++ post) := by
        rw [← List.drop_drop, hd, drop_block_append _ _ zeroBlock_length]
      have := ih f (p + 512) (by omega) hnext
      simp only [skipZeroBlocks, read_eq, hd, take_block_append _ _ zeroBlock_length,
        zeroBlock_length]
      simp only [ne_eq, not_true_eq_false, if_false, if_true]
      rw [this]
      congr 3
      ring

theorem skipZeroBlocks_end (d tail : List Nat) (ht : tail.length < 512) :
    ∀ (k fuel p : Nat), k < fuel →
      d.drop p = zeroBlocks k ++ tail →
      skipZeroBlocks fuel ⟨d, p⟩ = some (none, ⟨d, p + 512 * k + tail.length⟩) := by
  intro k
  induction k with
  | zero =>
      intro fuel p hf hd
      obtain ⟨f, rfl⟩ : ∃ f, fuel = f + 1 := ⟨fuel - 1, by omega⟩
      simp only [zeroBlocks, List.nil_append] at hd
      have ht2 : tail.take 512 = tail := List.take_of_length_le (by omega)
      have hne : tail.length ≠ 512 := by omega
      simp only [skipZeroBlocks, read_eq, hd, ht2]
      simp [hne]
  | succ k ih =>
      intro fuel p hf hd
      obtain ⟨f, rfl⟩ : ∃ f, fuel = f + 1 := ⟨fuel - 1, by omega⟩
      simp only [zeroBlocks, List.append_assoc] at hd
      have hnext : d.drop (p + 512) = zeroBlocks k ++ tail := by
        rw [← List.drop_drop, hd, drop_block_append _ _ zeroBlock_length]
      have := ih f (p + 512) (by omega) hnext
      simp only [skipZeroBlocks, read_eq, hd, take_block_append _ _ zeroBlock_length,
        zeroBlock_length]
      simp only [ne_eq, not_true_eq_false, if_false, if_true]
      rw [this]
      congr 3
      ring

/-! ### File names -/

theorem cstr_replicate_zero (n : Nat) : cstr (List.replicate n 0) = [] := by
  cases n with
  | zero => rfl
  | succ n => simp [cstr, List.replicate_succ]

theorem cstr_append_zeros (l : List Nat) (n : Nat) :
    cstr (l ++ List.replicate n 0) = cstr l := by
  induction l with
  | nil => simp [cstr_replicate_zero n, cstr]
  | cons a l ih =>
      unfold cstr at ih ⊢
      by_cases ha : a = 0
      · simp [ha]
      · simp [List.takeWhile_cons, ha, ih]

theorem cstr_eq_self (l : List Nat) (h : ∀ ch ∈ l, ch ≠ 0) : cstr l = l := by
  unfold cstr
  rw [List.takeWhile_eq_self_iff]
  intro ch hch
  simpa using h ch hch

theorem cstr_no_zero (l : List Nat) : ∀ ch ∈ cstr l, ch ≠ 0 := by
  intro ch hch
  have h := List.mem_takeWhile_imp hch
  simp only [bne_iff_ne, ne_eq] at h
  exact h

theorem getD_length_append (l₁ : List Nat) (a d : Nat) (l₂ : List Nat) :
    (l₁ ++ a :: l₂).getD l₁.length d = a := by
  induction l₁ with
  | nil => rfl
  | cons b l ih => simpa using ih

theorem set_length_append (l₁ : List Nat) (a b : Nat) (l₂ : List Nat) :
    (l₁ ++ a :: l₂).set l₁.length b = l₁ ++ b :: l₂ := by
  induction l₁ with
  | nil => rfl
  | cons c l ih => simp [ih]

theorem stripSlashes_run (core : List Nat) (x : Nat) (hx : x ≠ 47) :
    ∀ (t : Nat) (zs : List Nat),
      stripSlashes ((core ++ [x]) ++ List.replicate t 47 ++ zs) ((core ++ [x]).length + t) =
        some ((core ++ [x]) ++ List.replicate t 0 ++ zs) := by
  intro t
  induction t with
  | zero =>
      intro zs
      have h1 : (core ++ [x]).length + 0 = core.length + 1 := by simp
      have h2 : (core ++ [x] ++ List.replicate 0 47 ++ zs) = core ++ x :: zs := by simp
      rw [h1, h2]
      simp only [stripSlashes, getD_length_append, hx, if_false, List.replicate_zero]
      simp
  | succ t ih =>
      intro zs
      have h2 : (core ++ [x]) ++ List.replicate (t + 1) 47 ++ zs =
          ((core ++ [x]) ++ List.replicate t 47) ++ 47 :: zs := by
        rw [List.replicate_succ']; simp
      have h3 : (core ++ [x]).length + t = ((core ++ [x]) ++ List.replicate t 47).length := by
        simp only [List.length_append, List.length_replicate]
      rw [h2, ← Nat.add_assoc]
      simp only [stripSlashes]
      rw [h3, getD_length_append, if_pos rfl, set_length_append, ← h3, ih (0 :: zs)]
      rw [List.replicate_succ']
      simp

theorem strlen_zeroBlock : strlen zeroBlock = 0 := by
  unfold strlen zeroBlock
  rw [cstr_replicate_zero]
  rfl

theorem slice_length (block : List Nat) (off len : Nat) (h : off + len ≤ block.length) :
    (slice block off len).length = len := by
  unfold slice
  rw [List.length_take, List.length_drop]
  omega

theorem filenameScratch_legacy (block : List Nat) (hu : is_ustar block = false) :
    filenameScratch block = slice block TAR_FNAME TAR_FNAMELEN ++
      zeroBlock.drop (slice block TAR_FNAME TAR_FNAMELEN).length := by
  unfold filenameScratch
  simp only [hu, Bool.false_eq_true, if_false, strlen_zeroBlock, memcpy, List.take_zero,
    List.nil_append, Nat.zero_add]

theorem filename_legacy (block : List Nat) (hu : is_ustar block = false) :
    cstr (filenameScratch block) = cstr (slice block TAR_FNAME TAR_FNAMELEN) := by
  rw [filenameScratch_legacy block hu]
  unfold zeroBlock
  rw [List.drop_replicate, cstr_append_zeros]

theorem filenameLen_legacy (block : List Nat) (hu : is_ustar block = false) :
    filenameLen block = (cstr (slice block TAR_FNAME TAR_FNAMELEN)).length := by
  unfold filenameLen
  simp only [hu, Bool.false_eq_true, if_false, strlen_zeroBlock, List.drop_zero, Nat.zero_add]
  unfold strlen
  rw [filename_legacy block hu]

theorem trailing_run_decomp (name : List Nat) (hnot : ∃ ch ∈ name, ch ≠ 47) :
    ∃ (core : List Nat) (x t : Nat), x ≠ 47 ∧ name = (core ++ [x]) ++ List.replicate t 47 ∧
      dropTrailingSlashes name = core ++ [x] := by
  induction name using List.reverseRecOn with
  | nil => obtain ⟨ch, hch, _⟩ := hnot; simp at hch
  | append_singleton l a ih =>
      by_cases ha : a = 47
      · subst ha
        have hl : ∃ ch ∈ l, ch ≠ 47 := by
          obtain ⟨ch, hch, hne⟩ := hnot
          simp only [List.mem_append, List.mem_singleton] at hch
          rcases hch with h | h
          · exact ⟨ch, h, hne⟩
          · exact absurd h hne
        obtain ⟨core, x, t, hx, hl2, hd⟩ := ih hl
        refine ⟨core, x, t + 1, hx, ?_, ?_⟩
        · rw [List.replicate_succ', ← List.append_assoc, ← hl2]
        · unfold dropTrailingSlashes at hd ⊢
          rw [List.rdropWhile_concat_pos _ _ _ (by simp), hd]
      · refine ⟨l, a, 0, ha, by simp, ?_⟩
        unfold dropTrailingSlashes
        rw [List.rdropWhile_concat_neg _ _ _ (by simpa using ha)]

theorem trailingSlash_strip (name : List Nat) (hz : ∀ ch ∈ name, ch ≠ 0)
    (hlast : name.getLast? = some 47) (hnot : ∃ ch ∈ name, ch ≠ 47) :
    trailingSlash name name.length = some (dropTrailingSlashes name, true) := by
  obtain ⟨core, x, t, hx, hname, hd⟩ := trailing_run_decomp name hnot
  rw [hd]
  subst hname
  cases t with
  | zero =>
      rw [List.replicate_zero, List.append_nil, List.getLast?_concat] at hlast
      exact absurd (Option.some.inj hlast) hx
  | succ t =>
      have hlen : ((core ++ [x]) ++ List.replicate (t + 1) 47).length =
          ((core ++ [x]) ++ List.replicate t 47).length + 1 := by
        simp only [List.length_append, List.length_replicate]; omega
      have hrun := stripSlashes_run core x hx (t + 1) []
      simp only [List.append_nil] at hrun
      have hsplit : (core ++ [x]) ++ List.replicate (t + 1) 47 =
          ((core ++ [x]) ++ List.replicate t 47) ++ 47 :: [] := by
        rw [List.replicate_succ']
        simp only [List.append_assoc]
      have hget : ((core ++ [x]) ++ List.replicate (t + 1) 47).getD
          ((core ++ [x]) ++ List.replicate t 47).length 0 = 47 := by
        rw [hsplit, getD_length_append]
      have hlen2 : ((core ++ [x]) ++ List.replicate t 47).length + 1 =
          (core ++ [x]).length + (t + 1) := by
        simp only [List.length_append, List.length_replicate]; omega
      have hcore : cstr (core ++ [x]) = core ++ [x] :=
        cstr_eq_self _ (fun ch hch => hz ch (by simp only [List.mem_append] at hch ⊢; exact Or.inl hch))
      rw [hlen]
      simp only [trailingSlash, hget, if_true]
      rw [hlen2, hrun, Option.map_some', cstr_append_zeros, hcore]

theorem slice_zeroBlock_name : cstr (slice zeroBlock TAR_FNAME TAR_FNAMELEN) = [] := by
  unfold slice zeroBlock
  rw [List.drop_replicate, List.take_replicate, cstr_replicate_zero]

theorem cstr_append_no_zero (a b : List Nat) (h : ∀ ch ∈ a, ch ≠ 0) :
    cstr (a ++ b) = a ++ cstr b := by
  induction a with
  | nil => rfl
  | cons x xs ih =>
      have hx : x ≠ 0 := h x (by simp)
      have hxs : ∀ ch ∈ xs, ch ≠ 0 := fun ch hch => h ch (by simp [hch])
      unfold cstr at ih ⊢
      simp [List.takeWhile_cons, hx, ih hxs]

theorem take_strlen (l : List Nat) : l.take (strlen l) = cstr l := by
  unfold strlen cstr
  induction l with
  | nil => rfl
  | cons x xs ih =>
      by_cases hx : x = 0
      · simp [List.takeWhile_cons, hx]
      · simp [List.takeWhile_cons, hx, ih]

theorem strlen_le (l : List Nat) : strlen l ≤ l.length := by
  unfold strlen cstr
  exact (List.takeWhile_sublist _).length_le

theorem drop_append_of_length (a b : List Nat) (n : Nat) (h : a.length = n) :
    (a ++ b).drop n = b := by
  subst h
  exact List.drop_left _ _

theorem filenameLen_eq (block : List Nat) :
    filenameLen block = (cstr (filenameScratch block)).length := by
  unfold filenameLen filenameScratch
  simp only
  generalize (if is_ustar block = true then
    memcpy zeroBlock 0 (slice block TAR_FNAMEPRE TAR_FNAMEPRELEN) else zeroBlock) = scratch1
  unfold memcpy
  have hlen : (scratch1.take (strlen scratch1)).length = strlen scratch1 := by
    rw [List.length_take]
    exact Nat.min_eq_left (strlen_le scratch1)
  have hdrop : (scratch1.take (strlen scratch1) ++ slice block TAR_FNAME TAR_FNAMELEN ++
      scratch1.drop (strlen scratch1 + (slice block TAR_FNAME TAR_FNAMELEN).length)).drop
        (strlen scratch1) = slice block TAR_FNAME TAR_FNAMELEN ++
      scratch1.drop (strlen scratch1 + (slice block TAR_FNAME TAR_FNAMELEN).length) := by
    rw [List.append_assoc]
    exact drop_append_of_length _ _ _ hlen
  rw [hdrop, List.append_assoc, take_strlen, cstr_append_no_zero _ _ (cstr_no_zero scratch1),
    List.length_append]
  rfl

theorem getD_last (name : List Nat) (n : Nat) (h : name.length = n + 1) :
    name.getLast? = some (name.getD n 0) := by
  rw [List.getLast?_eq_getElem?, h]
  simp only [Nat.add_sub_cancel, List.getD_eq_getElem?_getD]
  rw [List.getElem?_eq_getElem (by omega)]
  rfl

theorem trailingSlash_isSome (name : List Nat) (hz : ∀ ch ∈ name, ch ≠ 0)
    (hnot : ∃ ch ∈ name, ch ≠ 47) : (trailingSlash name name.length).isSome = true := by
  obtain ⟨n, hn⟩ : ∃ n, name.length = n + 1 := by
    obtain ⟨ch, hch, _⟩ := hnot
    have := List.length_pos_of_mem hch
    exact ⟨name.length - 1, by omega⟩
  by_cases hl : name.getD n 0 = 47
  · have hlast : name.getLast? = some 47 := by rw [getD_last name n hn, hl]
    rw [trailingSlash_strip name hz hlast hnot]
    rfl
  · rw [hn]
    simp only [trailingSlash, hl, if_false]
    rfl

theorem parseHeader_of_scan (block : List Nat) (hs : scanInBlock block = true) :
    parseHeader block = decodeHeader block := by
  unfold parseHeader
  rw [if_pos hs]

theorem parseHeader_some (block : List Nat) (e : MojoArchiveEntry)
    (h : parseHeader block = some e) :
    scanInBlock block = true ∧ decodeHeader block = some e := by
  unfold parseHeader at h
  split_ifs at h with hs
  exact ⟨hs, h⟩

theorem parseHeader_isSome (block : List Nat) (h : nameUsable block)
    (hs : scanInBlock block = true) : (parseHeader block).isSome = true := by
  have hts := trailingSlash_isSome (cstr (filenameScratch block)) (cstr_no_zero _) h
  rw [parseHeader_of_scan block hs]
  unfold decodeHeader
  simp only [filenameLen_eq]
  cases hq : trailingSlash (cstr (filenameScratch block)) (cstr (filenameScratch block)).length with
  | none => rw [hq] at hts; exact absurd hts (by simp)
  | some r =>
      obtain ⟨fname, slashed⟩ := r
      simp only
      split_ifs <;> rfl

/-! ### Enumeration -/

theorem zeroBlocks_length (k : Nat) : (zeroBlocks k).length = 512 * k := by
  induction k with
  | zero => rfl
  | succ k ih =>
      simp only [zeroBlocks, List.length_append, zeroBlock_length, ih]
      ring

theorem advanceEnumPos_eq (c : Nat) (s : Int) (h0 : 0 ≤ s)
    (hb : (c : Int) + 512 + roundUp512 s.toNat < 9223372036854775808) :
    advanceEnumPos c s = c + 512 + roundUp512 s.toNat := by
  obtain ⟨n, rfl⟩ : ∃ n : Nat, s = (n : Int) := ⟨s.toNat, by omega⟩
  simp only [Int.toNat_ofNat] at hb ⊢
  have hr : roundUp512 n = (n + 511) / 512 * 512 := rfl
  rw [hr] at hb ⊢
  have htm : (n : Int).tmod 512 = (n : Int) % 512 := Int.tmod_eq_emod (by omega) (by norm_num)
  unfold advanceEnumPos
  simp only [htm]
  have h1 : toInt64 (512 + (n : Int)) = 512 + n := toInt64_of_range _ (by omega) (by omega)
  rw [h1]
  unfold toUInt64
  split <;> omega

theorem enumNext_found (ar : MojoArchive) (c k : Nat) (block post : List Nat)
    (e : MojoArchiveEntry) (hin : ar.info.input = none) (hc : ar.info.nextEnumPos = c)
    (hd : ar.io.data.drop c = zeroBlocks k ++ (block ++ post)) (hb : block.length = 512)
    (hnz : block ≠ zeroBlock) (hp : parseHeader block = some e) :
    MojoArchive_tar_enumNext ar =
      Outcome.ok (some e,
        { io := ⟨ar.io.data, c + 512 * k + 512⟩, prevEnum := e,
          info := { input := none, nextEnumPos := advanceEnumPos c e.filesize } }) := by
  have hlen : (ar.io.data.drop c).length = 512 * k + (512 + post.length) := by
    rw [hd, List.length_append, zeroBlocks_length, List.length_append, hb]
  rw [List.length_drop] at hlen
  have hseek : ar.io.seek c = (true, ⟨ar.io.data, c⟩) := by
    unfold MojoInput.seek
    rw [if_pos (by omega)]
  have hskip := skipZeroBlocks_found ar.io.data block post hb hnz k (ar.io.data.length + 1) c
    (by omega) hd
  unfold MojoArchive_tar_enumNext
  simp only [hin, hc, hseek, hskip, hp]
  simp

theorem enumNext_end (ar : MojoArchive) (c k : Nat) (tail : List Nat)
    (hin : ar.info.input = none) (hc : ar.info.nextEnumPos = c) (hle : c ≤ ar.io.data.length)
    (hd : ar.io.data.drop c = zeroBlocks k ++ tail) (ht : tail.length < 512) :
    MojoArchive_tar_enumNext ar =
      Outcome.ok (none,
        { io := ⟨ar.io.data, c + 512 * k + tail.length⟩, prevEnum := MojoArchive_resetEntry,
          info := ar.info }) := by
  have hlen : (ar.io.data.drop c).length = 512 * k + tail.length := by
    rw [hd, List.length_append, zeroBlocks_length]
  rw [List.length_drop] at hlen
  have hseek : ar.io.seek c = (true, ⟨ar.io.data, c⟩) := by
    unfold MojoInput.seek
    rw [if_pos hle]
  have hskip := skipZeroBlocks_end ar.io.data tail ht k (ar.io.data.length + 1) c
    (by omega) hd
  unfold MojoArchive_tar_enumNext
  simp only [hin, hc, hseek, hskip]
  simp

theorem parseHeader_filesize (block : List Nat) (e : MojoArchiveEntry)
    (h : parseHeader block = some e) : e.filesize = octal_convert (block.drop TAR_SIZE) := by
  replace h := (parseHeader_some block e h).2
  unfold decodeHeader at h
  simp only at h
  split at h
  · exact absurd h (by simp)
  · split_ifs at h <;> (injection h with h; rw [← h])

theorem Member.parse_eq (m : Member) (h : m.WellFormed) :
    parseHeader m.header = some m.entry := by
  obtain ⟨_, _, _, _, hn, hs⟩ := h
  have hp := parseHeader_isSome m.header hn hs
  unfold Member.entry
  cases hq : parseHeader m.header with
  | none => rw [hq] at hp; exact absurd hp (by simp)
  | some e => rfl

theorem Member.entry_filesize (m : Member) (h : m.WellFormed) : m.entry.filesize = m.size :=
  parseHeader_filesize m.header m.entry (m.parse_eq h)

theorem enumAll_some (fuel : Nat) (ar ar1 ar2 : MojoArchive) (e : MojoArchiveEntry)
    (es : List MojoArchiveEntry) (h1 : MojoArchive_tar_enumNext ar = Outcome.ok (some e, ar1))
    (h2 : enumAll fuel ar1 = Outcome.ok (es, ar2)) :
    enumAll (fuel + 1) ar = Outcome.ok (e :: es, ar2) := by
  simp only [enumAll, h1, h2]

theorem enumAll_none (fuel : Nat) (ar ar1 : MojoArchive)
    (h1 : MojoArchive_tar_enumNext ar = Outcome.ok (none, ar1)) :
    enumAll (fuel + 1) ar = Outcome.ok ([], ar1) := by
  simp only [enumAll, h1]

theorem enumAll_members (d : List Nat) (k : Nat) (tail : List Nat) (ht : tail.length < 512)
    (hlen : d.length < 9223372036854775808) :
    ∀ (ms : List Member) (ar : MojoArchive) (c : Nat), ar.io.data = d → ar.info.input = none →
      ar.info.nextEnumPos = c → c ≤ d.length →
      d.drop c = archiveBytes ms (zeroBlocks k ++ tail) → (∀ m ∈ ms, m.WellFormed) →
      ∃ ar2, enumAll (ms.length + 1) ar = Outcome.ok (ms.map Member.entry, ar2) ∧
        ar2.info.nextEnumPos = c + spanSum ms ∧ ar2.info.input = none ∧ ar2.io.data = d ∧
        d.drop (c + spanSum ms) = zeroBlocks k ++ tail := by
  intro ms
  induction ms with
  | nil =>
      intro ar c hd hin hc hle hdrop _
      subst hd
      simp only [archiveBytes] at hdrop
      refine ⟨⟨⟨ar.io.data, c + 512 * k + tail.length⟩, MojoArchive_resetEntry, ar.info⟩, ?_, ?_⟩
      · exact enumAll_none _ _ _ (enumNext_end ar c k tail hin hc hle hdrop ht)
      · simp [spanSum, hc, hin, hdrop]
  | cons m rest ih =>
      intro ar c hd hin hc hle hdrop hwf
      subst hd
      have hm : m.WellFormed := hwf m (by simp)
      obtain ⟨hh, hnz, hs0, hpl, _⟩ := id hm
      simp only [archiveBytes] at hdrop
      have hl := congrArg List.length hdrop
      simp only [List.length_drop, List.length_append, hh, hpl] at hl
      have hadv : advanceEnumPos c m.entry.filesize = c + m.span := by
        rw [m.entry_filesize hm, advanceEnumPos_eq c m.size hs0 (by omega)]
        unfold Member.span
        omega
      have hnext := enumNext_found ar c 0 m.header _ m.entry hin hc
        (by simpa [zeroBlocks] using hdrop) hh hnz (m.parse_eq hm)
      have hdrop2 : ar.io.data.drop (c + m.span) = archiveBytes rest (zeroBlocks k ++ tail) := by
        have h1 : c + m.span = c + 512 + m.payload.length := by
          unfold Member.span; omega
        rw [h1, ← List.drop_drop, ← List.drop_drop, hdrop, drop_block_append _ _ hh,
          List.drop_left]
      obtain ⟨ar2, h2, h3, h4, h5, h6⟩ := ih
        { io := ⟨ar.io.data, c + 512 * 0 + 512⟩, prevEnum := m.entry,
          info := { input := none, nextEnumPos := advanceEnumPos c m.entry.filesize } }
        (c + m.span) rfl rfl hadv
        (by unfold Member.span; omega) hdrop2 (fun x hx => hwf x (by simp [hx]))
      refine ⟨ar2, ?_, ?_, h4, h5, ?_⟩
      · exact enumAll_some _ _ _ _ _ _ hnext h2
      · rw [h3]; simp only [spanSum]; omega
      · rw [← h6]; simp only [spanSum]; congr 1; omega

/-- C2: for a well-formed archive (members that are each a non-zero 512-byte header
declaring a size `s_i` and `roundUp(s_i, 512)` data bytes, from offset 0 on, followed
only by zero blocks and at most a partial block), `enumerate` succeeds, calling
`enumNext` until it returns `NULL` returns exactly the members' entries in stream
order with the declared sizes, and the cursor after the last one (which the final
`NULL` call leaves alone) is the sum of `512 + roundUp(s_i, 512)`, the offset from
which only the trailer remains. -/
theorem enumNext_wellformed_archive (ms : List Member) (k : Nat) (tail : List Nat)
    (ar : MojoArchive) (hwf : ∀ m ∈ ms, m.WellFormed) (ht : tail.length < 512)
    (hdata : ar.io.data = archiveBytes ms (zeroBlocks k ++ tail))
    (hlen : ar.io.data.length < 9223372036854775808) (hin : ar.info.input = none) :
    ∃ ar1 ar2, MojoArchive_tar_enumerate ar = Outcome.ok (true, ar1) ∧
      enumAll (ms.length + 1) ar1 = Outcome.ok (ms.map Member.entry, ar2) ∧
      (ms.map Member.entry).map (fun e => e.filesize) = ms.map Member.size ∧
      ar2.info.nextEnumPos = spanSum ms ∧
      ar.io.data.drop (spanSum ms) = zeroBlocks k ++ tail := by
  have henum : MojoArchive_tar_enumerate ar = Outcome.ok (true,
      { ar with prevEnum := MojoArchive_resetEntry, info := { ar.info with nextEnumPos := 0 } }) := by
    simp [MojoArchive_tar_enumerate, hin]
  obtain ⟨ar2, h2, h3, _, _, h6⟩ := enumAll_members ar.io.data k tail ht hlen ms
    { ar with prevEnum := MojoArchive_resetEntry, info := { ar.info with nextEnumPos := 0 } }
    0 rfl hin rfl (Nat.zero_le _) (by simpa using hdata) hwf
  refine ⟨_, ar2, henum, h2, ?_, by simpa using h3, by simpa using h6⟩
  rw [List.map_map]
  exact List.map_congr_left (fun m hm => m.entry_filesize (hwf m hm))

/-! ### Sample members -/

set_option maxRecDepth 100000 in
theorem memberA_parse : parseHeader memberA.header =
    some { filename := some [97], linkdest := none, type := MOJOARCHIVE_ENTRY_FILE,
           perms := 420, filesize := 1 } := by decide

set_option maxRecDepth 100000 in
theorem memberB_parse : parseHeader memberB.header =
    some { filename := some [98], linkdest := none, type := MOJOARCHIVE_ENTRY_FILE,
           perms := 420, filesize := 0 } := by decide

set_option maxRecDepth 100000 in
theorem memberA_header_length : memberA.header.length = 512 := by decide

set_option maxRecDepth 100000 in
theorem memberB_header_length : memberB.header.length = 512 := by decide

set_option maxRecDepth 100000 in
theorem memberA_header_ne : memberA.header ≠ zeroBlock := by decide

set_option maxRecDepth 100000 in
theorem memberB_header_ne : memberB.header ≠ zeroBlock := by decide

set_option maxRecDepth 100000 in
theorem memberA_wellFormed : memberA.WellFormed := by
  exact ⟨memberA_header_length, memberA_header_ne, by decide, by decide,
    ⟨97, by decide, by decide⟩, by decide⟩

set_option maxRecDepth 100000 in
theorem memberB_wellFormed : memberB.WellFormed := by
  exact ⟨memberB_header_length, memberB_header_ne, by decide, by decide,
    ⟨98, by decide, by decide⟩, by decide⟩

theorem memberA_payload_length : memberA.payload.length = 512 := by
  show (7 :: List.replicate 511 0).length = 512
  rw [List.length_cons, List.length_replicate]

theorem sample_length :
    (archiveBytes [memberA, memberB] (zeroBlocks 2 ++ [])).length = 2560 := by
  simp only [archiveBytes, List.length_append, memberA_header_length, memberB_header_length,
    zeroBlocks_length, List.length_nil, memberA_payload_length,
    show memberB.payload.length = 0 from rfl]

/-- Witness for C2: the archive of `memberA` and `memberB` followed by two zero blocks. -/
theorem enumNext_wellformed_archive_witness :
    ∃ ar1 ar2,
      MojoArchive_tar_enumerate
        ⟨⟨archiveBytes [memberA, memberB] (zeroBlocks 2 ++ []), 0⟩, MojoArchive_resetEntry,
          ⟨none, 0⟩⟩ = Outcome.ok (true, ar1) ∧
      enumAll ([memberA, memberB].length + 1) ar1 =
        Outcome.ok ([memberA, memberB].map Member.entry, ar2) ∧
      ([memberA, memberB].map Member.entry).map (fun e => e.filesize) =
        [memberA, memberB].map Member.size ∧
      ar2.info.nextEnumPos = spanSum [memberA, memberB] ∧
      (archiveBytes [memberA, memberB] (zeroBlocks 2 ++ [])).drop (spanSum [memberA, memberB]) =
        zeroBlocks 2 ++ [] :=
  enumNext_wellformed_archive [memberA, memberB] 2 []
    ⟨⟨archiveBytes [memberA, memberB] (zeroBlocks 2 ++ []), 0⟩, MojoArchive_resetEntry, ⟨none, 0⟩⟩
    (by
      intro m hm
      simp only [List.mem_cons, List.mem_singleton, List.not_mem_nil, or_false] at hm
      rcases hm with rfl | rfl
      · exact memberA_wellFormed
      · exact memberB_wellFormed)
    (by decide) rfl
    (by show (archiveBytes [memberA, memberB] (zeroBlocks 2 ++ [])).length < _
        rw [sample_length]; decide)
    rfl

/-! ### Concatenated archives -/

theorem concatStream_eq :
    concatStream = memberA.header ++ (memberA.payload ++ (zeroBlock ++ memberB.header)) := by
  simp only [concatStream, archiveBytes, zeroBlocks, List.append_nil, List.append_assoc,
    show memberB.payload = [] from rfl]

theorem drop_append_block (n : Nat) (block post : List Nat) (h : block.length = 512) :
    (block ++ post).drop (512 + n) = post.drop n := by
  rw [← List.drop_drop, drop_block_append _ _ h]

theorem memberA_entry : memberA.entry =
    { filename := some [97], linkdest := none, type := MOJOARCHIVE_ENTRY_FILE,
      perms := 420, filesize := 1 } := by
  unfold Member.entry; rw [memberA_parse]; rfl

theorem memberB_entry : memberB.entry =
    { filename := some [98], linkdest := none, type := MOJOARCHIVE_ENTRY_FILE,
      perms := 420, filesize := 0 } := by
  unfold Member.entry; rw [memberB_parse]; rfl

/-- C3, evaluated: on the archive of `a` closed by one zero block and followed by the
archive of `b`, enumeration returns `a`, then `b`, then `b` a second time, because
the cursor advances from the old cursor and not from the header found after the
zero block. -/
theorem enumNext_concatenated_repeats :
    ∃ ar2, enumAll 4 ⟨⟨concatStream, 0⟩, MojoArchive_resetEntry, ⟨none, 0⟩⟩ =
      Outcome.ok ([memberA.entry, memberB.entry, memberB.entry], ar2) := by
  have hA := memberA_header_length
  have hB := memberB_header_length
  have hP := memberA_payload_length
  have hZ := zeroBlock_length
  have d0 : concatStream.drop 0 = zeroBlocks 0 ++
      (memberA.header ++ (memberA.payload ++ (zeroBlock ++ memberB.header))) := by
    rw [concatStream_eq]; rfl
  have d1 : concatStream.drop 1024 = zeroBlocks 1 ++ (memberB.header ++ []) := by
    rw [concatStream_eq, show (1024 : Nat) = 512 + 512 from rfl, drop_append_block _ _ _ hA,
      drop_block_append _ _ hP]
    simp [zeroBlocks]
  have d2 : concatStream.drop 1536 = zeroBlocks 0 ++ (memberB.header ++ []) := by
    rw [concatStream_eq, show (1536 : Nat) = 512 + (512 + 512) from rfl,
      drop_append_block _ _ _ hA, drop_append_block _ _ _ hP, drop_block_append _ _ hZ]
    simp [zeroBlocks]
  have d3 : concatStream.drop 2048 = zeroBlocks 0 ++ [] := by
    rw [concatStream_eq, show (2048 : Nat) = 512 + (512 + (512 + 512)) from rfl,
      drop_append_block _ _ _ hA, drop_append_block _ _ _ hP, drop_append_block _ _ _ hZ,
      ← hB, List.drop_length]
    rfl
  have hlen : concatStream.length = 2048 := by
    rw [concatStream_eq]
    simp only [List.length_append, hA, hB, hP, hZ]
  have s1 := enumNext_found ⟨⟨concatStream, 0⟩, MojoArchive_resetEntry, ⟨none, 0⟩⟩ 0 0 _ _
    memberA.entry rfl rfl d0 hA memberA_header_ne (memberA.parse_eq memberA_wellFormed)
  have a1 : advanceEnumPos 0 memberA.entry.filesize = 1024 := by
    rw [memberA_entry]; decide
  rw [a1] at s1
  have s2 := enumNext_found ⟨⟨concatStream, 0 + 512 * 0 + 512⟩, memberA.entry, ⟨none, 1024⟩⟩
    1024 1 _ _ memberB.entry rfl rfl d1 hB memberB_header_ne (memberB.parse_eq memberB_wellFormed)
  have a2 : advanceEnumPos 1024 memberB.entry.filesize = 1536 := by
    rw [memberB_entry]; decide
  rw [a2] at s2
  have s3 := enumNext_found ⟨⟨concatStream, 1024 + 512 * 1 + 512⟩, memberB.entry, ⟨none, 1536⟩⟩
    1536 0 _ _ memberB.entry rfl rfl d2 hB memberB_header_ne (memberB.parse_eq memberB_wellFormed)
  have a3 : advanceEnumPos 1536 memberB.entry.filesize = 2048 := by
    rw [memberB_entry]; decide
  rw [a3] at s3
  have s4 := enumNext_end ⟨⟨concatStream, 1536 + 512 * 0 + 512⟩, memberB.entry, ⟨none, 2048⟩⟩
    2048 0 [] rfl rfl (by show 2048 ≤ concatStream.length; rw [hlen]) d3 (by decide)
  exact ⟨_, enumAll_some _ _ _ _ _ _ s1 (enumAll_some _ _ _ _ _ _ s2
    (enumAll_some _ _ _ _ _ _ s3 (enumAll_none 0 _ _ s4)))⟩

/-! ### Reading an entry back -/

theorem tar_read_eq (inp : TARinput) (d : List Nat) (p : Nat) (pe : MojoArchiveEntry)
    (info : TARinfo) (n b : Nat)
    (hb : tarReadSize (toInt64 ((p : Int) - inp.offset)) inp.fsize n = b) :
    MojoInput_tar_read inp ⟨⟨d, p⟩, pe, info⟩ n =
      ((d.drop p).take b, ⟨⟨d, p + ((d.drop p).take b).length⟩, pe, info⟩) := by
  unfold MojoInput_tar_read MojoInput_tar_tell MojoInput.tell
  simp only [hb, read_eq]

theorem take_replicate_cons (a : Nat) (n m : Nat) (h : n ≤ m) :
    (a :: List.replicate m 0).take (n + 1) = a :: List.replicate n 0 := by
  rw [List.take_succ_cons, List.take_replicate, Nat.min_eq_left h]

set_option maxRecDepth 100000 in
/-- C1, evaluated: for the one-byte file `a` (header at offset 0, payload byte 7 at
offset 512) `enumNext` returns the entry, `openCurrentEntry` makes an entry stream
of length 1 whose offset is 1022 and not 512, and reading that stream until `read`
returns 0 delivers 511 bytes, the payload byte followed by 510 bytes of padding. -/
theorem roundtrip_one_byte_fails :
    ∃ ar1 inp ar2,
      MojoArchive_tar_enumNext ⟨⟨oneByteStream, 0⟩, MojoArchive_resetEntry, ⟨none, 0⟩⟩ =
        Outcome.ok (some memberA.entry, ar1) ∧
      MojoArchive_tar_openCurrentEntry ar1 = Outcome.ok (inp, ar2) ∧
      MojoInput_tar_length inp = 1 ∧ inp.offset = 1022 ∧
      readUntilZero 2 inp ar2 512 = some (7 :: List.replicate 510 0) ∧
      memberA.payload.take 1 = [7] := by
  have hA := memberA_header_length
  have hD : oneByteStream = memberA.header ++ (memberA.payload ++ zeroBlocks 2) := rfl
  have d0 : oneByteStream.drop 0 = zeroBlocks 0 ++ (memberA.header ++
      (memberA.payload ++ zeroBlocks 2)) := rfl
  have d1 : oneByteStream.drop 512 = (7 :: List.replicate 511 0) ++ zeroBlocks 2 := by
    rw [hD, drop_block_append _ _ hA]; rfl
  have s1 := enumNext_found ⟨⟨oneByteStream, 0⟩, MojoArchive_resetEntry, ⟨none, 0⟩⟩ 0 0 _ _
    memberA.entry rfl rfl d0 hA memberA_header_ne (memberA.parse_eq memberA_wellFormed)
  have a1 : advanceEnumPos 0 memberA.entry.filesize = 1024 := by
    rw [memberA_entry]; decide
  rw [a1] at s1
  have hsz : memberA.entry.filesize = 1 := by rw [memberA_entry]
  have hoff : entryOffset 1024 1 = 1022 := by decide
  have r1 := tar_read_eq ⟨1, 1022⟩ oneByteStream (0 + 512 * 0 + 512) memberA.entry
    ⟨some ⟨1, 1022⟩, 1024⟩ 512 511 (by decide)
  have t1 : (oneByteStream.drop (0 + 512 * 0 + 512)).take 511 = 7 :: List.replicate 510 0 := by
    rw [show 0 + 512 * 0 + 512 = 512 from rfl, d1, List.cons_append,
      show (511 : Nat) = 510 + 1 from rfl, List.take_succ_cons,
      List.take_append_of_le_length (by rw [List.length_replicate]; decide),
      List.take_replicate]
    rfl
  rw [t1] at r1
  have l1 : (7 :: List.replicate 510 0).length = 511 := by
    rw [List.length_cons, List.length_replicate]
  rw [l1] at r1
  have r2 := tar_read_eq ⟨1, 1022⟩ oneByteStream (0 + 512 * 0 + 512 + 511) memberA.entry
    ⟨some ⟨1, 1022⟩, 1024⟩ 512 0 (by decide)
  rw [List.take_zero] at r2
  refine ⟨_, ⟨1, 1022⟩, ⟨⟨oneByteStream, 0 + 512 * 0 + 512⟩, memberA.entry,
    ⟨some ⟨1, 1022⟩, 1024⟩⟩, s1, ?_, rfl, rfl, ?_, rfl⟩
  · simp only [MojoArchive_tar_openCurrentEntry, hsz, hoff]
    rfl
  · simp only [readUntilZero, r1, r2, l1]
    rw [if_neg (by decide), if_pos List.length_nil]
    simp only [Option.map_some', List.append_nil]

/-! ### The legacy directory rule and the assembled name -/

/-- C5: a header block without the ustar magic whose name-field text is not empty,
ends in `'/'` and is not made only of `'/'`, with typeflag `'0'` or NUL (and whose
mode and size digits end inside the block), makes
`enumNext` return a directory entry whose file name is the name-field text without
its trailing `'/'` characters. -/
theorem legacy_directory_rule (ar : MojoArchive) (c k : Nat) (block post : List Nat)
    (hin : ar.info.input = none) (hc : ar.info.nextEnumPos = c)
    (hd : ar.io.data.drop c = zeroBlocks k ++ (block ++ post)) (hb : block.length = 512)
    (hscan : scanInBlock block = true) (hu : is_ustar block = false)
    (hlast : (cstr (slice block TAR_FNAME TAR_FNAMELEN)).getLast? = some 47)
    (hnot : ∃ ch ∈ cstr (slice block TAR_FNAME TAR_FNAMELEN), ch ≠ 47)
    (ht : block.getD TAR_TYPE 0 = 48 ∨ block.getD TAR_TYPE 0 = 0) :
    ∃ e ar1, MojoArchive_tar_enumNext ar = Outcome.ok (some e, ar1) ∧
      e.type = MOJOARCHIVE_ENTRY_DIR ∧
      e.filename = some (dropTrailingSlashes (cstr (slice block TAR_FNAME TAR_FNAMELEN))) := by
  have hnz : block ≠ zeroBlock := by
    intro h
    rw [h, slice_zeroBlock_name] at hnot
    obtain ⟨ch, hch, _⟩ := hnot
    simp at hch
  have hts := trailingSlash_strip (cstr (slice block TAR_FNAME TAR_FNAMELEN))
    (cstr_no_zero _) hlast hnot
  have hty : (if block.getD TAR_TYPE 0 = 0 then TAR_TYPE_FILE else block.getD TAR_TYPE 0) = 48 := by
    rcases ht with h | h <;> rw [h] <;> decide
  have hp : parseHeader block = some
      { filename := some (dropTrailingSlashes (cstr (slice block TAR_FNAME TAR_FNAMELEN))),
        linkdest := none, type := MOJOARCHIVE_ENTRY_DIR,
        perms := toUInt16 (octal_convert (block.drop TAR_MODE)),
        filesize := octal_convert (block.drop TAR_SIZE) } := by
    rw [parseHeader_of_scan block hscan]
    unfold decodeHeader
    simp only [filename_legacy block hu, filenameLen_legacy block hu, hts, hu, hty]
    simp
  exact ⟨_, _, enumNext_found ar c k block post _ hin hc hd hb hnz hp, rfl, rfl⟩

set_option maxRecDepth 100000 in
/-- Witness for C5: the legacy header named `dir/`. -/
theorem legacy_directory_rule_witness :
    ∃ e ar1,
      MojoArchive_tar_enumNext
        ⟨⟨zeroBlocks 0 ++ (legacyDirHeader ++ []), 0⟩, MojoArchive_resetEntry, ⟨none, 0⟩⟩ =
          Outcome.ok (some e, ar1) ∧
      e.type = MOJOARCHIVE_ENTRY_DIR ∧
      e.filename = some (dropTrailingSlashes (cstr (slice legacyDirHeader TAR_FNAME TAR_FNAMELEN))) :=
  legacy_directory_rule
    ⟨⟨zeroBlocks 0 ++ (legacyDirHeader ++ []), 0⟩, MojoArchive_resetEntry, ⟨none, 0⟩⟩ 0 0
    legacyDirHeader [] rfl rfl rfl (by decide) (by decide) (by decide) (by decide)
    ⟨100, by decide, by decide⟩ (Or.inl (by decide))

set_option maxRecDepth 100000 in
theorem garbledPrefixHeader_parse : parseHeader garbledPrefixHeader =
    some { filename := some (97 :: (List.replicate 100 98 ++ List.replicate 54 88)),
           linkdest := none, type := MOJOARCHIVE_ENTRY_FILE, perms := 420, filesize := 0 } := by
  decide

set_option maxRecDepth 100000 in
/-- C6, evaluated: for a ustar header whose name field has no NUL and whose prefix
field holds `"a"`, a NUL and then non-NUL bytes, the file name `enumNext` assembles
is the prefix text, the name field and then 54 of the bytes that follow the NUL of
the prefix field; the prefix text followed by the name text is only the first 101
bytes of it. -/
theorem filename_takes_bytes_after_prefix_nul :
    is_ustar garbledPrefixHeader = true ∧
    cstr (slice garbledPrefixHeader TAR_FNAMEPRE TAR_FNAMEPRELEN) ++
      cstr (slice garbledPrefixHeader TAR_FNAME TAR_FNAMELEN) = 97 :: List.replicate 100 98 ∧
    cstr (filenameScratch garbledPrefixHeader) =
      97 :: (List.replicate 100 98 ++ List.replicate 54 88) ∧
    ∃ e ar1,
      MojoArchive_tar_enumNext
        ⟨⟨zeroBlocks 0 ++ (garbledPrefixHeader ++ []), 0⟩, MojoArchive_resetEntry, ⟨none, 0⟩⟩ =
          Outcome.ok (some e, ar1) ∧
      e.filename = some (97 :: (List.replicate 100 98 ++ List.replicate 54 88)) := by
  refine ⟨by decide, by decide, by decide, _, _,
    enumNext_found ⟨⟨zeroBlocks 0 ++ (garbledPrefixHeader ++ []), 0⟩, MojoArchive_resetEntry,
      ⟨none, 0⟩⟩ 0 0 garbledPrefixHeader [] _ rfl rfl rfl (by decide) (by decide)
      garbledPrefixHeader_parse, rfl⟩

/-! ### The open-entry slot -/

theorem enumerate_ok_slot (ar ar1 : MojoArchive) (b : Bool)
    (h : MojoArchive_tar_enumerate ar = Outcome.ok (b, ar1)) :
    ar.info.input = none ∧ ar1.info.input = none := by
  unfold MojoArchive_tar_enumerate at h
  cases hi : ar.info.input with
  | some x => simp [hi] at h
  | none =>
      simp only [hi, Option.isSome_none, Bool.false_eq_true, if_false, Outcome.ok.injEq,
        Prod.mk.injEq] at h
      obtain ⟨_, rfl⟩ := h
      exact ⟨rfl, rfl⟩

theorem enumNext_ok_slot (ar ar1 : MojoArchive) (r : Option MojoArchiveEntry)
    (h : MojoArchive_tar_enumNext ar = Outcome.ok (r, ar1)) :
    ar.info.input = none ∧ ar1.info.input = none := by
  unfold MojoArchive_tar_enumNext at h
  cases hi : ar.info.input with
  | some x => simp [hi] at h
  | none =>
      refine ⟨rfl, ?_⟩
      simp only [hi, Option.isSome_none, Bool.false_eq_true, if_false] at h
      split_ifs at h
      · simp only [Outcome.ok.injEq, Prod.mk.injEq] at h
        obtain ⟨_, rfl⟩ := h
        exact hi
      · split at h
        · simp at h
        · simp only [Outcome.ok.injEq, Prod.mk.injEq] at h
          obtain ⟨_, rfl⟩ := h
          exact hi
        · split at h
          · simp at h
          · simp only [Outcome.ok.injEq, Prod.mk.injEq] at h
            obtain ⟨_, rfl⟩ := h
            rfl

theorem openCurrentEntry_ok_slot (ar ar1 : MojoArchive) (inp : TARinput)
    (h : MojoArchive_tar_openCurrentEntry ar = Outcome.ok (inp, ar1)) :
    ar.info.input = none ∧ ar1.info.input = some inp := by
  unfold MojoArchive_tar_openCurrentEntry at h
  cases hi : ar.info.input with
  | some x => simp [hi] at h
  | none =>
      simp only [hi, Option.isSome_none, Bool.false_eq_true, if_false, Outcome.ok.injEq,
        Prod.mk.injEq] at h
      obtain ⟨rfl, rfl⟩ := h
      exact ⟨rfl, rfl⟩

theorem step_consistent (s s1 : Session) (c : Call) (hs : s.Consistent)
    (h : s.step c = some s1) : s1.Consistent := by
  cases c with
  | enumerate =>
      simp only [Session.step] at h
      split at h
      · rename_i b ar1 heq
        obtain ⟨h0, h1⟩ := enumerate_ok_slot _ _ _ heq
        injection h with h; subst h
        rcases hs with ⟨_, hl⟩ | ⟨inp, hi, _⟩
        · exact Or.inl ⟨h1, hl⟩
        · rw [h0] at hi; exact absurd hi (by simp)
      · exact absurd h (by simp)
  | enumNext =>
      simp only [Session.step] at h
      split at h
      · rename_i r ar1 heq
        obtain ⟨h0, h1⟩ := enumNext_ok_slot _ _ _ heq
        injection h with h; subst h
        rcases hs with ⟨_, hl⟩ | ⟨inp, hi, _⟩
        · exact Or.inl ⟨h1, hl⟩
        · rw [h0] at hi; exact absurd hi (by simp)
      · exact absurd h (by simp)
  | openCurrentEntry =>
      simp only [Session.step] at h
      split at h
      · rename_i inp ar1 heq
        obtain ⟨h0, h1⟩ := openCurrentEntry_ok_slot _ _ _ heq
        injection h with h; subst h
        rcases hs with ⟨_, hl⟩ | ⟨inp2, hi, _⟩
        · exact Or.inr ⟨inp, h1, by simp [hl]⟩
        · rw [h0] at hi; exact absurd hi (by simp)
      · exact absurd h (by simp)
  | close i =>
      simp only [Session.step] at h
      split_ifs at h with hlt
      injection h with h; subst h
      rcases hs with ⟨_, hl⟩ | ⟨inp, _, hl⟩
      · rw [hl] at hlt; exact absurd hlt (by simp)
      · rw [hl] at hlt
        have hi0 : i = 0 := by simpa using hlt
        subst hi0
        exact Or.inl ⟨rfl, by simp [hl]⟩

theorem run_consistent (calls : List Call) :
    ∀ (s s1 : Session), s.Consistent → s.run calls = some s1 → s1.Consistent := by
  induction calls with
  | nil =>
      intro s s1 hs h
      simp only [Session.run, Option.some.injEq] at h
      subst h; exact hs
  | cons c cs ih =>
      intro s s1 hs h
      simp only [Session.run] at h
      split at h
      · rename_i s2 heq
        exact ih s2 s1 (step_consistent s s2 c hs heq) h
      · exact absurd h (by simp)

/-- C7: `openCurrentEntry` called while the open-entry slot is occupied ends in the
fatal error, and in every state reached from a fresh archive through returning calls
of `enumerate`, `enumNext`, `openCurrentEntry` and entry-stream `close`, at most one
entry stream is open. -/
theorem single_open_entry :
    (∀ ar : MojoArchive, ar.info.input.isSome = true →
      MojoArchive_tar_openCurrentEntry ar = Outcome.fatal) ∧
    (∀ (ar0 : MojoArchive) (calls : List Call) (s : Session), ar0.info.input = none →
      Session.run ⟨ar0, []⟩ calls = some s → s.live.length ≤ 1) := by
  constructor
  · intro ar h
    simp [MojoArchive_tar_openCurrentEntry, h]
  · intro ar0 calls s h0 hrun
    have hc := run_consistent calls ⟨ar0, []⟩ s (Or.inl ⟨h0, rfl⟩) hrun
    rcases hc with ⟨_, hl⟩ | ⟨inp, _, hl⟩ <;> simp [hl]

/-- Witness for C7: on an empty stream, enumerate, enumNext, open, close, open leaves
one entry stream open, and a further open ends in the fatal error. -/
theorem single_open_entry_witness :
    (MojoArchive_tar_openCurrentEntry ⟨⟨[], 0⟩, MojoArchive_resetEntry, ⟨some ⟨0, 0⟩, 0⟩⟩ =
      Outcome.fatal) ∧
    (∃ s, Session.run ⟨⟨⟨[], 0⟩, MojoArchive_resetEntry, ⟨none, 0⟩⟩, []⟩
        [Call.enumerate, Call.enumNext, Call.openCurrentEntry, Call.close 0,
          Call.openCurrentEntry] = some s ∧ s.live.length ≤ 1 ∧
      s.step Call.openCurrentEntry = none) :=
  ⟨single_open_entry.1 _ rfl,
    ⟨⟨⟨[], 0⟩, MojoArchive_resetEntry, ⟨some ⟨0, 0⟩, 0⟩⟩, [⟨0, 0⟩]⟩, by decide,
      single_open_entry.2 ⟨⟨[], 0⟩, MojoArchive_resetEntry, ⟨none, 0⟩⟩
        [Call.enumerate, Call.enumNext, Call.openCurrentEntry, Call.close 0,
          Call.openCurrentEntry] _ rfl (by decide), by decide⟩

/-! ### The factory -/

theorem seek_zero (d : List Nat) (p : Nat) : MojoInput.seek ⟨d, p⟩ 0 = (true, ⟨d, 0⟩) := by
  simp [MojoInput.seek]

theorem slice_take (d : List Nat) (off len n : Nat) (h : off + len ≤ n) :
    slice (d.take n) off len = slice d off len := by
  unfold slice
  rw [List.drop_take, List.take_take, Nat.min_eq_left (by omega)]

theorem is_ustar_take (d : List Nat) : is_ustar (d.take 512) = is_ustar d := by
  unfold is_ustar
  rw [slice_take d TAR_MAGIC TAR_MAGICLEN 512 (by decide)]

/-- C8: for a stream at its start whose first three bytes are not `1F 8B 08`,
`MojoArchive_createTAR` returns an archive (over the stream, rewound) exactly when the
stream holds at least 512 bytes and bytes 257..262 are `"ustar "` or `"ustar\0"`, and
returns `NULL` in every other case. -/
theorem createTAR_acceptance (gz : Bool) (d : List Nat)
    (hmagic : ¬(d.getD 0 0 = 31 ∧ d.getD 1 0 = 139 ∧ d.getD 2 0 = 8)) :
    (512 ≤ d.length ∧ (slice d 257 6 = [117, 115, 116, 97, 114, 32] ∨
        slice d 257 6 = [117, 115, 116, 97, 114, 0]) →
      MojoArchive_createTAR gz ⟨d, 0⟩ =
        CreateResult.archive ⟨⟨d, 0⟩, MojoArchive_resetEntry, freshTARinfo⟩) ∧
    (¬(512 ≤ d.length ∧ (slice d 257 6 = [117, 115, 116, 97, 114, 32] ∨
        slice d 257 6 = [117, 115, 116, 97, 114, 0])) →
      MojoArchive_createTAR gz ⟨d, 0⟩ = CreateResult.null) := by
  have hr4 : MojoInput.read ⟨d, 0⟩ 4 = (d.take 4, ⟨d, 0 + (d.take 4).length⟩) := read_eq d 0 4
  have hr512 : MojoInput.read ⟨d, 0⟩ 512 = (d.take 512, ⟨d, 0 + (d.take 512).length⟩) :=
    read_eq d 0 512
  have hg : ∀ i, i < 4 → (d.take 4).getD i 0 = d.getD i 0 := by
    intro i hi
    simp [List.getD, List.getElem?_take, hi]
  have hu : is_ustar (d.take 512) = true ↔ (slice d 257 6 = [117, 115, 116, 97, 114, 32] ∨
      slice d 257 6 = [117, 115, 116, 97, 114, 0]) := by
    rw [is_ustar_take]
    simp [is_ustar]
  unfold MojoArchive_createTAR
  simp only [hr4, seek_zero, hr512, hg 0 (by decide), hg 1 (by decide), hg 2 (by decide),
    List.length_take]
  constructor
  · rintro ⟨hlen, hm⟩
    have hu1 := hu.2 hm
    rw [if_neg (by simp; omega), if_neg (fun h => hmagic h.2), if_neg (by simp; omega),
      if_neg (by simp [hu1])]
  · intro hno
    by_cases h4 : d.length < 4
    · rw [if_pos (by simp; omega)]
    · rw [if_neg (by simp; omega), if_neg (fun h => hmagic h.2)]
      by_cases h512 : d.length < 512
      · rw [if_pos (by simp; omega)]
      · rw [if_neg (by simp; omega)]
        have hnu : is_ustar (List.take 512 d) = false := by
          cases hq : is_ustar (List.take 512 d) with
          | false => rfl
          | true => exact absurd ⟨by omega, hu.1 hq⟩ hno
        rw [if_pos hnu]

set_option maxRecDepth 100000 in
/-- Witness for C8: a ustar header block alone is accepted, a legacy header block
alone is rejected. -/
theorem createTAR_acceptance_witness :
    MojoArchive_createTAR true ⟨memberA.header, 0⟩ =
        CreateResult.archive ⟨⟨memberA.header, 0⟩, MojoArchive_resetEntry, freshTARinfo⟩ ∧
      MojoArchive_createTAR true ⟨legacyDirHeader, 0⟩ = CreateResult.null :=
  ⟨(createTAR_acceptance true memberA.header (by decide)).1
      ⟨by rw [memberA_header_length], Or.inr (by decide)⟩,
    (createTAR_acceptance true legacyDirHeader (by decide)).2 (by decide)⟩

/-! ### The decompression adapter -/

theorem gzipReadLoop_full {σ : Type} (z : Inflater σ) (bufsize : Nat) :
    ∀ (fuel : Nat) (info info1 : GZIPinfo σ) (out r : List Nat),
      gzipReadLoop z bufsize fuel info out = some (some r, info1) → bufsize ≤ r.length := by
  intro fuel
  induction fuel with
  | zero => intro info info1 out r h; simp [gzipReadLoop] at h
  | succ fuel ih =>
      intro info info1 out r h
      simp only [gzipReadLoop] at h
      split_ifs at h with hlt
      · split at h
        · simp at h
        · split_ifs at h with hrc
          · simp at h
          · exact ih _ _ _ _ h
      · simp only [Option.some.injEq, Prod.mk.injEq] at h
        obtain ⟨h1, _⟩ := h
        subst h1
        omega

theorem gzip_read_never_zero {σ : Type} (z : Inflater σ) (fuel bufsize : Nat)
    (info info1 : GZIPinfo σ) (rv : Int) (out : List Nat) (hb : 0 < bufsize)
    (h : MojoInput_gzip_read z fuel info bufsize = some (rv, out, info1)) : rv ≠ 0 := by
  unfold MojoInput_gzip_read at h
  rw [if_neg (by omega)] at h
  split at h
  · simp at h
  · simp only [Option.some.injEq, Prod.mk.injEq] at h
    obtain ⟨h1, _⟩ := h
    omega
  · rename_i r info2 heq
    have hfull := gzipReadLoop_full z bufsize fuel info info2 [] r heq
    split_ifs at h <;>
      (simp only [Option.some.injEq, Prod.mk.injEq] at h
       obtain ⟨h1, _⟩ := h
       omega)

theorem gzip_read_at_end {σ : Type} (z : Inflater σ) (fuel bufsize : Nat) (info : GZIPinfo σ)
    (hb : 0 < bufsize) (hend : AtEndOfData z info) :
    ∃ info1, MojoInput_gzip_read z (fuel + 1) info bufsize = some (-1, [], info1) := by
  obtain ⟨hav, hpos, hnone⟩ := hend
  have hrefill : gzipRefill info = some info := by
    unfold gzipRefill
    rw [if_pos (by rw [hav]; rfl), if_neg]
    unfold MojoInput.length MojoInput.tell
    omega
  have hrc : (callInflate z info (bufsize - 0)).2.2 ≠ Z_OK := by
    unfold callInflate
    simp only [hav, List.length_nil, Nat.min_zero, hnone, true_and]
    split_ifs <;> simp_all
  unfold MojoInput_gzip_read
  rw [if_neg (by omega)]
  simp only [gzipReadLoop, List.length_nil, hb, if_true, hrefill, hrc, ne_eq, not_false_eq_true]
  exact ⟨_, rfl⟩

/-- C10, as the code behaves: a read of `bufsize > 0` bytes on the decompression
adapter never returns 0, whatever the engine and the state; and once the adapter has
given out all the decompressed data such a read returns the error value -1. -/
theorem gzip_read_end_of_data {σ : Type} (z : Inflater σ) (bufsize : Nat) (hb : 0 < bufsize) :
    (∀ (fuel : Nat) (info info1 : GZIPinfo σ) (rv : Int) (out : List Nat),
      MojoInput_gzip_read z fuel info bufsize = some (rv, out, info1) → rv ≠ 0) ∧
    (∀ (fuel : Nat) (info : GZIPinfo σ), AtEndOfData z info →
      ∃ info1, MojoInput_gzip_read z (fuel + 1) info bufsize = some (-1, [], info1)) :=
  ⟨fun fuel info info1 rv out h => gzip_read_never_zero z fuel bufsize info info1 rv out hb h,
    fun fuel info hend => gzip_read_at_end z fuel bufsize info hb hend⟩

/-- Witness for C10: the stored stream `1 2 3`, read to its end, then a read of one
byte. -/
theorem gzip_read_end_of_data_witness :
    ∃ info1, MojoInput_gzip_read storedInflater (0 + 1)
      { origio := ⟨[1, 2, 3], 3⟩, uncompressed_position := 3, stream := (), avail := [] } 1 =
        some (-1, [], info1) :=
  (gzip_read_end_of_data storedInflater 1 (by decide)).2 0
    { origio := ⟨[1, 2, 3], 3⟩, uncompressed_position := 3, stream := (), avail := [] }
    ⟨rfl, by decide, fun room => by simp [storedInflater]⟩

theorem read_length (s : MojoInput) (n : Nat) :
    (s.read n).1.length = min n (s.data.length - s.pos) := by
  simp [MojoInput.read]

theorem read_pos (s : MojoInput) (n : Nat) :
    (s.read n).2.pos = s.pos + min n (s.data.length - s.pos) := by
  simp [MojoInput.read]

theorem read_data (s : MojoInput) (n : Nat) : (s.read n).2.data = s.data := rfl

theorem gzipSeekLoop_fails {σ : Type} (offset : Nat) :
    ∀ (fuel : Nat) (info : GZIPinfo σ), info.uncompressed_position ≠ offset →
      1 ≤ seekChunk offset info.uncompressed_position →
      info.origio.data.length - info.origio.pos < fuel →
      ∃ info1, gzipSeekLoop offset fuel info = some (false, info1) := by
  intro fuel
  induction fuel with
  | zero => intro info _ _ h; omega
  | succ fuel ih =>
      intro info hne hm hfuel
      simp only [gzipSeekLoop, hne, ne_eq, not_false_eq_true, if_true]
      by_cases hshort : (info.origio.read (seekChunk offset info.uncompressed_position)).1.length =
          seekChunk offset info.uncompressed_position
      · rw [if_neg (by simpa using hshort)]
        apply ih
        · exact hne
        · exact hm
        · rw [read_length] at hshort
          show (info.origio.read _).2.data.length - (info.origio.read _).2.pos < fuel
          rw [read_data, read_pos]
          omega
      · rw [if_pos hshort]
        exact ⟨_, rfl⟩

theorem seek_zero_eq (s : MojoInput) : s.seek 0 = (true, ⟨s.data, 0⟩) := by
  simp [MojoInput.seek]

theorem gzipSeek_backward_false {σ : Type} (z : Inflater σ) (fuel : Nat) (info : GZIPinfo σ)
    (offset : Nat) (h0 : 0 < offset) (hlt : offset < info.uncompressed_position)
    (h32 : offset < 4294967296) (hfuel : info.origio.data.length < fuel) :
    ∃ info1, MojoInput_gzip_seek z fuel info offset = some (false, info1) := by
  unfold MojoInput_gzip_seek
  rw [if_pos hlt]
  cases hi : z.init with
  | none => exact ⟨_, rfl⟩
  | some str =>
      simp only [seek_zero_eq, Bool.true_eq_false, if_false]
      apply gzipSeekLoop_fails
      · show 0 ≠ offset
        omega
      · show 1 ≤ seekChunk offset 0
        unfold seekChunk toUInt32
        omega
      · show info.origio.data.length - 0 < fuel
        omega

/-- C9, as the code behaves: a backward seek to an offset `P1 > 0` (below `2^32`)
returns failure for every engine and every adapter over a finite origin stream,
because the seek loop reads the origin stream and never moves the cursor.  On the
stored stream `10 20 30 40`: after a read of 3 bytes the cursor is 3, `seek(1)`
fails, and the read of 2 bytes that follows returns -1, while a fresh decode up to
offset 3 ends in the bytes `20 30`. -/
theorem gzip_backward_seek_fails :
    (∀ (σ : Type) (z : Inflater σ) (fuel : Nat) (info : GZIPinfo σ) (offset : Nat),
      0 < offset → offset < info.uncompressed_position → offset < 4294967296 →
      info.origio.data.length < fuel →
      ∃ info1, MojoInput_gzip_seek z fuel info offset = some (false, info1)) ∧
    (∃ a1 a2 a3,
      MojoInput_gzip_read storedInflater 5 storedAdapter 3 = some (3, [10, 20, 30], a1) ∧
      MojoInput_gzip_tell a1 = 3 ∧
      MojoInput_gzip_seek storedInflater 10 a1 1 = some (false, a2) ∧
      MojoInput_gzip_read storedInflater 5 a2 2 = some (-1, [], a3) ∧
      ([10, 20, 30] : List Nat).drop 1 = [20, 30]) := by
  refine ⟨fun σ z fuel info offset h0 hlt h32 hf =>
    gzipSeek_backward_false z fuel info offset h0 hlt h32 hf, ?_⟩
  refine ⟨{ origio := ⟨[10, 20, 30, 40], 4⟩, uncompressed_position := 3, stream := (),
            avail := [40] },
    { origio := ⟨[10, 20, 30, 40], 4⟩, uncompressed_position := 0, stream := (), avail := [] },
    { origio := ⟨[10, 20, 30, 40], 4⟩, uncompressed_position := 0, stream := (), avail := [] },
    by decide, by decide, by decide, by decide, by decide⟩

/-- Witness for C9: the adapter over `10 20 30 40` with its cursor at 3, `seek(1)`. -/
theorem gzip_backward_seek_fails_witness :
    ∃ info1, MojoInput_gzip_seek storedInflater 10
      { origio := ⟨[10, 20, 30, 40], 4⟩, uncompressed_position := 3, stream := (),
        avail := [40] } 1 = some (false, info1) :=
  gzip_backward_seek_fails.1 Unit storedInflater 10
    { origio := ⟨[10, 20, 30, 40], 4⟩, uncompressed_position := 3, stream := (), avail := [40] }
    1 (by decide) (by decide) (by decide) (by decide)

/-! ### Seeking and reading in an entry stream -/

/-- C11: on an entry stream of size `s ≥ 0` whose range `[offset, offset + s)` lies in
the underlying stream (so that the underlying stream can reposition there), `seek(p)`
succeeds exactly when `p < s`; after a successful `seek(p)` the underlying stream is
at `offset + p` and `tell()` returns `p`; `seek(p)` with `p ≥ s` (so `seek(s)`, and
every seek on an entry of size 0) returns failure and leaves the archive and its
stream as they were. -/
theorem tar_seek_spec (input : TARinput) (ar : MojoArchive) (p : Nat)
    (hs : 0 ≤ input.fsize) (ho : 0 ≤ input.offset)
    (hr : input.offset + input.fsize ≤ ar.io.data.length)
    (hl : ar.io.data.length < 9223372036854775808) :
    ((MojoInput_tar_seek input ar p).1 = true ↔ (p : Int) < input.fsize) ∧
    ((p : Int) < input.fsize →
      ((MojoInput_tar_seek input ar p).2.io.pos : Int) = input.offset + p ∧
      MojoInput_tar_tell input (MojoInput_tar_seek input ar p).2 = p ∧
      (MojoInput_tar_seek input ar p).2.io.data = ar.io.data ∧
      (MojoInput_tar_seek input ar p).2.info = ar.info) ∧
    (input.fsize ≤ (p : Int) → MojoInput_tar_seek input ar p = (false, ar)) := by
  obtain ⟨fs, hfs⟩ : ∃ n : Nat, input.fsize = (n : Int) := ⟨input.fsize.toNat, by omega⟩
  obtain ⟨off, hoff⟩ : ∃ n : Nat, input.offset = (n : Int) := ⟨input.offset.toNat, by omega⟩
  have hfsU : toUInt64 input.fsize = fs := by
    rw [hfs]; unfold toUInt64; omega
  have hge : input.fsize ≤ (p : Int) → MojoInput_tar_seek input ar p = (false, ar) := by
    intro h
    unfold MojoInput_tar_seek
    rw [if_neg (by rw [hfsU]; omega)]
  have hlt : (p : Int) < input.fsize →
      MojoInput_tar_seek input ar p = (true, { ar with io := ⟨ar.io.data, off + p⟩ }) := by
    intro h
    have htgt : toUInt64 (input.offset + p) = off + p := by
      rw [hoff]; unfold toUInt64; omega
    unfold MojoInput_tar_seek
    rw [if_pos (by rw [hfsU]; omega), htgt]
    have hseek : ar.io.seek (off + p) = (true, ⟨ar.io.data, off + p⟩) := by
      unfold MojoInput.seek
      rw [if_pos (by omega)]
    rw [hseek]
  refine ⟨?_, ?_, hge⟩
  · constructor
    · intro h
      by_contra hn
      rw [hge (by omega)] at h
      exact absurd h (by simp)
    · intro h
      rw [hlt h]
  · intro h
    rw [hlt h]
    refine ⟨?_, ?_, rfl, rfl⟩
    · show ((off + p : Nat) : Int) = input.offset + p
      rw [hoff]; push_cast; rfl
    · show toInt64 (((off + p : Nat) : Int) - input.offset) = p
      rw [hoff]
      unfold toInt64
      omega

/-- Witness for C11: an entry stream of size 3 at offset 2 of an 8-byte stream. -/
theorem tar_seek_spec_witness :
    ((MojoInput_tar_seek ⟨3, 2⟩ ⟨⟨[1, 2, 3, 4, 5, 6, 7, 8], 0⟩, MojoArchive_resetEntry,
        ⟨some ⟨3, 2⟩, 0⟩⟩ 1).1 = true ↔ ((1 : Nat) : Int) < (⟨3, 2⟩ : TARinput).fsize) ∧
    MojoInput_tar_seek ⟨3, 2⟩ ⟨⟨[1, 2, 3, 4, 5, 6, 7, 8], 0⟩, MojoArchive_resetEntry,
        ⟨some ⟨3, 2⟩, 0⟩⟩ 3 =
      (false, ⟨⟨[1, 2, 3, 4, 5, 6, 7, 8], 0⟩, MojoArchive_resetEntry, ⟨some ⟨3, 2⟩, 0⟩⟩) :=
  ⟨(tar_seek_spec ⟨3, 2⟩ ⟨⟨[1, 2, 3, 4, 5, 6, 7, 8], 0⟩, MojoArchive_resetEntry,
      ⟨some ⟨3, 2⟩, 0⟩⟩ 1 (by decide) (by decide) (by decide) (by decide)).1,
   (tar_seek_spec ⟨3, 2⟩ ⟨⟨[1, 2, 3, 4, 5, 6, 7, 8], 0⟩, MojoArchive_resetEntry,
      ⟨some ⟨3, 2⟩, 0⟩⟩ 3 (by decide) (by decide) (by decide) (by decide)).2.2 (by decide)⟩

theorem tarReadSize_clamp (t fsize : Int) (n : Nat) (ht : t ≤ fsize)
    (hlo : -4611686018427387904 < t) (hhi : fsize < 4611686018427387904)
    (hn : n < 4294967296) :
    tarReadSize t fsize n = if t + n > fsize then min n (fsize - t).toNat else n := by
  unfold tarReadSize
  have h1 : toInt64 (t + n) = t + n := toInt64_of_range _ (by omega) (by omega)
  rw [h1]
  split_ifs with h
  · unfold toUInt32
    omega
  · rfl

/-- C12: on an entry stream whose `tell()` is `t ≤ size`, a read of `n` bytes asks the
underlying stream for `min(n, size - t)` bytes when `t + n > size` and for `n` bytes
otherwise; the bytes delivered are those the underlying stream gives from its
position on, they end at or before underlying offset `offset + size`, and `tell()`
is still at most `size` after the read. -/
theorem tar_read_clamp (input : TARinput) (ar : MojoArchive) (n : Nat)
    (ht : MojoInput_tar_tell input ar ≤ input.fsize)
    (hpos : ar.io.pos < 4611686018427387904)
    (hoff0 : -4611686018427387904 < input.offset) (hoff1 : input.offset < 4611686018427387904)
    (hfs : input.fsize < 4611686018427387904) (hn : n < 4294967296) :
    tarReadSize (MojoInput_tar_tell input ar) input.fsize n =
      (if MojoInput_tar_tell input ar + n > input.fsize then
        min n (input.fsize - MojoInput_tar_tell input ar).toNat else n) ∧
    (MojoInput_tar_read input ar n).1 =
      (ar.io.read (tarReadSize (MojoInput_tar_tell input ar) input.fsize n)).1 ∧
    (MojoInput_tar_read input ar n).2.io.pos =
      ar.io.pos + (MojoInput_tar_read input ar n).1.length ∧
    ((MojoInput_tar_read input ar n).2.io.pos : Int) ≤ input.offset + input.fsize ∧
    MojoInput_tar_tell input (MojoInput_tar_read input ar n).2 ≤ input.fsize := by
  have htell : MojoInput_tar_tell input ar = (ar.io.pos : Int) - input.offset := by
    unfold MojoInput_tar_tell MojoInput.tell
    exact toInt64_of_range _ (by omega) (by omega)
  have hreq := tarReadSize_clamp (MojoInput_tar_tell input ar) input.fsize n ht
    (by rw [htell]; omega) hfs hn
  have hle : ((tarReadSize (MojoInput_tar_tell input ar) input.fsize n : Nat) : Int) ≤
      input.fsize - MojoInput_tar_tell input ar := by
    rw [hreq]
    split_ifs with h <;> omega
  have hlen : (MojoInput_tar_read input ar n).1.length ≤
      tarReadSize (MojoInput_tar_tell input ar) input.fsize n := by
    show (ar.io.read _).1.length ≤ _
    rw [read_length]
    exact Nat.min_le_left _ _
  have hp : (MojoInput_tar_read input ar n).2.io.pos =
      ar.io.pos + (MojoInput_tar_read input ar n).1.length := rfl
  have key : ((ar.io.pos + (MojoInput_tar_read input ar n).1.length : Nat) : Int) ≤
      input.offset + input.fsize := by
    generalize (MojoInput_tar_read input ar n).1.length = len at hlen
    generalize tarReadSize (MojoInput_tar_tell input ar) input.fsize n = req at hle hlen
    generalize MojoInput_tar_tell input ar = tl at htell hle
    push_cast
    omega
  refine ⟨hreq, rfl, hp, ?_, ?_⟩
  · rw [hp]
    exact key
  · show toInt64 (((MojoInput_tar_read input ar n).2.io.pos : Int) - input.offset) ≤ input.fsize
    rw [hp]
    generalize ar.io.pos + (MojoInput_tar_read input ar n).1.length = q at key
    unfold toInt64
    omega

/-- Witness for C12: an entry stream of size 3 at offset 2 of an 8-byte stream, with
the underlying stream at 4 (`tell()` is 2), read of 5 bytes. -/
theorem tar_read_clamp_witness :
    tarReadSize (MojoInput_tar_tell ⟨3, 2⟩ ⟨⟨[1, 2, 3, 4, 5, 6, 7, 8], 4⟩,
        MojoArchive_resetEntry, ⟨some ⟨3, 2⟩, 0⟩⟩) 3 5 = 1 ∧
      (MojoInput_tar_read ⟨3, 2⟩ ⟨⟨[1, 2, 3, 4, 5, 6, 7, 8], 4⟩, MojoArchive_resetEntry,
        ⟨some ⟨3, 2⟩, 0⟩⟩ 5).1 = [5] :=
  ⟨(tar_read_clamp ⟨3, 2⟩ ⟨⟨[1, 2, 3, 4, 5, 6, 7, 8], 4⟩, MojoArchive_resetEntry,
      ⟨some ⟨3, 2⟩, 0⟩⟩ 5 (by decide) (by decide) (by decide) (by decide) (by decide)
      (by decide)).1.trans (by decide),
    by decide⟩

/-! ### Forward seek on the decompression adapter -/

theorem gzipSeekLoop_never_true {σ : Type} (offset : Nat) :
    ∀ (fuel : Nat) (info info1 : GZIPinfo σ), info.uncompressed_position ≠ offset →
      gzipSeekLoop offset fuel info ≠ some (true, info1) := by
  intro fuel
  induction fuel with
  | zero => intro info info1 _ h; simp [gzipSeekLoop] at h
  | succ fuel ih =>
      intro info info1 hne h
      simp only [gzipSeekLoop, hne, ne_eq, not_false_eq_true, if_true] at h
      split_ifs at h
      · refine ih _ info1 ?_ h
        exact hne
      · simp at h

theorem gzipSeekLoop_false_keeps_cursor {σ : Type} (offset : Nat) :
    ∀ (fuel : Nat) (info : GZIPinfo σ), info.uncompressed_position ≠ offset →
      1 ≤ seekChunk offset info.uncompressed_position →
      info.origio.data.length - info.origio.pos < fuel →
      ∃ info1, gzipSeekLoop offset fuel info = some (false, info1) ∧
        info1.uncompressed_position = info.uncompressed_position := by
  intro fuel
  induction fuel with
  | zero => intro info _ _ h; omega
  | succ fuel ih =>
      intro info hne hm hfuel
      simp only [gzipSeekLoop, hne, ne_eq, not_false_eq_true, if_true]
      by_cases hshort : (info.origio.read (seekChunk offset info.uncompressed_position)).1.length =
          seekChunk offset info.uncompressed_position
      · rw [if_neg (by simpa using hshort)]
        apply ih
        · exact hne
        · exact hm
        · rw [read_length] at hshort
          show (info.origio.read _).2.data.length - (info.origio.read _).2.pos < fuel
          rw [read_data, read_pos]
          omega
      · rw [if_pos hshort]
        exact ⟨_, rfl, rfl⟩

/-- C13, as the code behaves: a forward seek on the decompression adapter (target
above the cursor) never returns success, whatever the engine; when the distance is
below `2^32` and the origin stream is finite it returns failure and leaves `tell()`
at the old cursor, because the loop reads the origin stream and never moves the
cursor.  On the stored stream `10 20 30 40`, `seek(2)` from cursor 0 returns failure
with the cursor still 0. -/
theorem gzip_forward_seek_fails :
    (∀ (σ : Type) (z : Inflater σ) (fuel : Nat) (info info1 : GZIPinfo σ) (offset : Nat),
      info.uncompressed_position < offset →
      MojoInput_gzip_seek z fuel info offset ≠ some (true, info1)) ∧
    (∀ (σ : Type) (z : Inflater σ) (fuel : Nat) (info : GZIPinfo σ) (offset : Nat),
      info.uncompressed_position < offset →
      offset - info.uncompressed_position < 4294967296 →
      info.origio.data.length - info.origio.pos < fuel →
      ∃ info1, MojoInput_gzip_seek z fuel info offset = some (false, info1) ∧
        MojoInput_gzip_tell info1 = MojoInput_gzip_tell info) ∧
    (∃ a1, MojoInput_gzip_seek storedInflater 10 storedAdapter 2 = some (false, a1) ∧
      MojoInput_gzip_tell a1 = 0) := by
  refine ⟨?_, ?_, ?_⟩
  · intro σ z fuel info info1 offset hlt
    unfold MojoInput_gzip_seek
    rw [if_neg (by omega)]
    exact gzipSeekLoop_never_true offset fuel info info1 (by omega)
  · intro σ z fuel info offset hlt h32 hfuel
    unfold MojoInput_gzip_seek
    rw [if_neg (by omega)]
    obtain ⟨info1, h1, h2⟩ := gzipSeekLoop_false_keeps_cursor offset fuel info (by omega)
      (by unfold seekChunk toUInt32; omega) hfuel
    exact ⟨info1, h1, by unfold MojoInput_gzip_tell; rw [h2]⟩
  · exact ⟨{ origio := ⟨[10, 20, 30, 40], 4⟩, uncompressed_position := 0, stream := (),
             avail := [] }, by decide, by decide⟩

/-- Witness for C13: the fresh adapter over `10 20 30 40`, `seek(2)`. -/
theorem gzip_forward_seek_fails_witness :
    ∃ info1, MojoInput_gzip_seek storedInflater 10 storedAdapter 2 = some (false, info1) ∧
      MojoInput_gzip_tell info1 = MojoInput_gzip_tell storedAdapter :=
  gzip_forward_seek_fails.2.1 Unit storedInflater 10 storedAdapter 2 (by decide) (by decide)
    (by decide)

/-! ### Entry types and link targets -/

theorem trailingSlash_noslash (name : List Nat) (hne : name ≠ [])
    (hlast : name.getLast? ≠ some 47) :
    trailingSlash name name.length = some (name, false) := by
  obtain ⟨n, hn⟩ : ∃ n, name.length = n + 1 :=
    ⟨name.length - 1, by have := List.length_pos.2 hne; omega⟩
  have hg : name.getD n 0 ≠ 47 := by
    intro h
    apply hlast
    rw [getD_last name n hn, h]
  rw [hn]
  simp only [trailingSlash, hg, if_false]

/-- C14: for a non-zero header block whose assembled file name is not empty and does
not end in `'/'` (and whose mode and size digits end inside the block), `enumNext`
returns an entry whose type is file exactly when the
typeflag byte is `'0'` or NUL, directory exactly when it is `'5'`, symlink exactly
when it is `'2'`, and unknown for every other byte. -/
theorem entry_type_classification (ar : MojoArchive) (c k : Nat) (block post : List Nat)
    (hin : ar.info.input = none) (hc : ar.info.nextEnumPos = c)
    (hd : ar.io.data.drop c = zeroBlocks k ++ (block ++ post)) (hb : block.length = 512)
    (hnz : block ≠ zeroBlock) (hscan : scanInBlock block = true)
    (hne : cstr (filenameScratch block) ≠ [])
    (hlast : (cstr (filenameScratch block)).getLast? ≠ some 47) :
    ∃ e ar1, MojoArchive_tar_enumNext ar = Outcome.ok (some e, ar1) ∧
      (e.type = MOJOARCHIVE_ENTRY_FILE ↔
        (block.getD TAR_TYPE 0 = 48 ∨ block.getD TAR_TYPE 0 = 0)) ∧
      (e.type = MOJOARCHIVE_ENTRY_DIR ↔ block.getD TAR_TYPE 0 = 53) ∧
      (e.type = MOJOARCHIVE_ENTRY_SYMLINK ↔ block.getD TAR_TYPE 0 = 50) ∧
      (e.type = MOJOARCHIVE_ENTRY_UNKNOWN ↔
        (block.getD TAR_TYPE 0 ≠ 48 ∧ block.getD TAR_TYPE 0 ≠ 0 ∧
          block.getD TAR_TYPE 0 ≠ 53 ∧ block.getD TAR_TYPE 0 ≠ 50)) := by
  have hts := trailingSlash_noslash _ hne hlast
  obtain ⟨e, hp, ht⟩ : ∃ e, parseHeader block = some e ∧
      e.type = (if block.getD TAR_TYPE 0 = 0 ∨ block.getD TAR_TYPE 0 = 48 then
          MOJOARCHIVE_ENTRY_FILE
        else if block.getD TAR_TYPE 0 = 53 then MOJOARCHIVE_ENTRY_DIR
        else if block.getD TAR_TYPE 0 = 50 then MOJOARCHIVE_ENTRY_SYMLINK
        else MOJOARCHIVE_ENTRY_UNKNOWN) := by
    rw [parseHeader_of_scan block hscan]
    unfold decodeHeader
    simp only [filenameLen_eq, hts, Bool.false_and, Bool.false_eq_true, if_false]
    generalize block.getD TAR_TYPE 0 = tf
    by_cases h0 : tf = 0
    · subst h0
      exact ⟨_, rfl, by simp⟩
    · by_cases h48 : tf = 48
      · subst h48
        exact ⟨_, rfl, by simp⟩
      · by_cases h53 : tf = 53
        · subst h53
          exact ⟨_, rfl, by simp⟩
        · by_cases h50 : tf = 50
          · subst h50
            exact ⟨_, rfl, by simp⟩
          · simp only [h0, h48, h53, h50, if_false, or_self]
            exact ⟨_, rfl, rfl⟩
  refine ⟨e, _, enumNext_found ar c k block post e hin hc hd hb hnz hp, ?_⟩
  rw [ht]
  generalize block.getD TAR_TYPE 0 = tf
  by_cases h0 : tf = 0
  · subst h0; simp
  · by_cases h48 : tf = 48
    · subst h48; simp
    · by_cases h53 : tf = 53
      · subst h53; simp
      · by_cases h50 : tf = 50
        · subst h50; simp
        · simp [h0, h48, h53, h50]

set_option maxRecDepth 100000 in
/-- Witness for C14: the ustar header of the file `a` (typeflag `'0'`). -/
theorem entry_type_classification_witness :
    ∃ e ar1,
      MojoArchive_tar_enumNext
        ⟨⟨zeroBlocks 0 ++ (memberA.header ++ []), 0⟩, MojoArchive_resetEntry, ⟨none, 0⟩⟩ =
          Outcome.ok (some e, ar1) ∧
      (e.type = MOJOARCHIVE_ENTRY_FILE ↔
        (memberA.header.getD TAR_TYPE 0 = 48 ∨ memberA.header.getD TAR_TYPE 0 = 0)) ∧
      (e.type = MOJOARCHIVE_ENTRY_DIR ↔ memberA.header.getD TAR_TYPE 0 = 53) ∧
      (e.type = MOJOARCHIVE_ENTRY_SYMLINK ↔ memberA.header.getD TAR_TYPE 0 = 50) ∧
      (e.type = MOJOARCHIVE_ENTRY_UNKNOWN ↔
        (memberA.header.getD TAR_TYPE 0 ≠ 48 ∧ memberA.header.getD TAR_TYPE 0 ≠ 0 ∧
          memberA.header.getD TAR_TYPE 0 ≠ 53 ∧ memberA.header.getD TAR_TYPE 0 ≠ 50)) :=
  entry_type_classification
    ⟨⟨zeroBlocks 0 ++ (memberA.header ++ []), 0⟩, MojoArchive_resetEntry, ⟨none, 0⟩⟩ 0 0
    memberA.header [] rfl rfl rfl memberA_header_length memberA_header_ne (by decide)
    (by decide) (by decide)

theorem cstr_append_nul (l rest : List Nat) : cstr (l ++ 0 :: rest) = cstr l := by
  induction l with
  | nil => simp [cstr]
  | cons a l ih =>
      unfold cstr at ih ⊢
      by_cases ha : a = 0
      · simp [ha]
      · simp [List.takeWhile_cons, ha, ih]

theorem memcpy_length_ge (buf src : List Nat) (off : Nat) (h : off ≤ buf.length) :
    off + src.length ≤ (memcpy buf off src).length := by
  unfold memcpy
  simp only [List.length_append, List.length_take, List.length_drop]
  omega

theorem filenameScratch_length (block : List Nat) (hb : block.length = 512) :
    100 < (filenameScratch block).length := by
  have hname : (slice block TAR_FNAME TAR_FNAMELEN).length = 100 :=
    slice_length block TAR_FNAME TAR_FNAMELEN (by rw [hb]; decide)
  have hpre : (slice block TAR_FNAMEPRE TAR_FNAMEPRELEN).length = 155 :=
    slice_length block TAR_FNAMEPRE TAR_FNAMEPRELEN (by rw [hb]; decide)
  have hs1 : (if is_ustar block = true then
      memcpy zeroBlock 0 (slice block TAR_FNAMEPRE TAR_FNAMEPRELEN) else zeroBlock).length =
      512 := by
    split_ifs
    · unfold memcpy
      simp only [List.length_append, List.length_take, List.length_drop, zeroBlock_length, hpre]
      rfl
    · exact zeroBlock_length
  unfold filenameScratch
  simp only
  generalize (if is_ustar block = true then
    memcpy zeroBlock 0 (slice block TAR_FNAMEPRE TAR_FNAMEPRELEN) else zeroBlock) = scratch1
    at hs1
  unfold memcpy
  simp only [List.length_append, List.length_take, List.length_drop, hname, hs1]
  omega

theorem linkdest_eq (scratch link : List Nat) (hs : 100 < scratch.length)
    (hl : link.length = 100) :
    cstr ((memcpy scratch 0 link).set TAR_LINKNAMELEN 0) = cstr link := by
  unfold memcpy
  rw [List.take_zero, List.nil_append, Nat.zero_add, hl]
  cases hq : scratch.drop 100 with
  | nil =>
      have := congrArg List.length hq
      rw [List.length_drop] at this
      simp at this
      omega
  | cons a rest =>
      have h100 : TAR_LINKNAMELEN = link.length := by rw [hl]
      rw [h100, set_length_append, cstr_append_nul]

theorem parseHeader_linkdest (block : List Nat) (e : MojoArchiveEntry)
    (hb : block.length = 512) (h : parseHeader block = some e) :
    (e.type = MOJOARCHIVE_ENTRY_SYMLINK →
      e.linkdest = some (cstr (slice block TAR_LINKNAME TAR_LINKNAMELEN))) ∧
    (e.type ≠ MOJOARCHIVE_ENTRY_SYMLINK → e.linkdest = none) := by
  have hlink : (slice block TAR_LINKNAME TAR_LINKNAMELEN).length = 100 :=
    slice_length block TAR_LINKNAME TAR_LINKNAMELEN (by rw [hb]; decide)
  have hld := linkdest_eq (filenameScratch block) (slice block TAR_LINKNAME TAR_LINKNAMELEN)
    (filenameScratch_length block hb) hlink
  replace h := (parseHeader_some block e h).2
  unfold decodeHeader at h
  simp only at h
  split at h
  · exact absurd h (by simp)
  · split_ifs at h <;> (injection h with h; subst h; simp [hld])

theorem parseHeader_symlink_iff (block : List Nat) (e : MojoArchiveEntry)
    (h : parseHeader block = some e) :
    e.type = MOJOARCHIVE_ENTRY_SYMLINK ↔ block.getD TAR_TYPE 0 = 50 := by
  replace h := (parseHeader_some block e h).2
  unfold decodeHeader at h
  simp only at h
  generalize block.getD TAR_TYPE 0 = tf at h
  split at h
  · exact absurd h (by simp)
  · rename_i fname slashed _
    generalize (slashed && !is_ustar block) = b at h
    by_cases h0 : tf = 0
    · subst h0
      cases b <;> simp at h <;> subst h <;> simp
    · by_cases h48 : tf = 48
      · subst h48
        cases b <;> simp at h <;> subst h <;> simp
      · by_cases h53 : tf = 53
        · subst h53
          cases b <;> simp at h <;> subst h <;> simp
        · by_cases h50 : tf = 50
          · subst h50
            cases b <;> simp at h <;> subst h <;> simp
          · cases b <;> simp [h0, h48, h53, h50] at h <;> subst h <;> simp [h50]

/-- C15: for a header block whose file name the decoder can take (and whose mode and
size digits end inside the block), `enumNext` returns
an entry whose link target, when the entry is a symlink, is the linkname field (bytes
157..256) cut at its first NUL, or all 100 bytes when the field holds no NUL,
whatever the file name left in the scratch buffer; an entry of any other type has no
link target. -/
theorem symlink_target (ar : MojoArchive) (c k : Nat) (block post : List Nat)
    (hin : ar.info.input = none) (hc : ar.info.nextEnumPos = c)
    (hd : ar.io.data.drop c = zeroBlocks k ++ (block ++ post)) (hb : block.length = 512)
    (hnz : block ≠ zeroBlock) (hname : nameUsable block)
    (hscan : scanInBlock block = true) :
    ∃ e ar1, MojoArchive_tar_enumNext ar = Outcome.ok (some e, ar1) ∧
      (e.type = MOJOARCHIVE_ENTRY_SYMLINK →
        e.linkdest = some (cstr (slice block TAR_LINKNAME TAR_LINKNAMELEN))) ∧
      (e.type = MOJOARCHIVE_ENTRY_SYMLINK ↔
        (block.getD TAR_TYPE 0 = 50)) ∧
      (e.type ≠ MOJOARCHIVE_ENTRY_SYMLINK → e.linkdest = none) := by
  have hsome := parseHeader_isSome block hname hscan
  cases hp : parseHeader block with
  | none => rw [hp] at hsome; exact absurd hsome (by simp)
  | some e =>
      obtain ⟨h1, h2⟩ := parseHeader_linkdest block e hb hp
      exact ⟨e, _, enumNext_found ar c k block post e hin hc hd hb hnz hp, h1,
        parseHeader_symlink_iff block e hp, h2⟩

set_option maxRecDepth 100000 in
/-- Witness for C15: the symlink header `l` with link name `tgt`. -/
theorem symlink_target_witness :
    (∃ e ar1,
      MojoArchive_tar_enumNext
        ⟨⟨zeroBlocks 0 ++ (symlinkHeader ++ []), 0⟩, MojoArchive_resetEntry, ⟨none, 0⟩⟩ =
          Outcome.ok (some e, ar1) ∧
      (e.type = MOJOARCHIVE_ENTRY_SYMLINK →
        e.linkdest = some (cstr (slice symlinkHeader TAR_LINKNAME TAR_LINKNAMELEN))) ∧
      (e.type = MOJOARCHIVE_ENTRY_SYMLINK ↔ (symlinkHeader.getD TAR_TYPE 0 = 50)) ∧
      (e.type ≠ MOJOARCHIVE_ENTRY_SYMLINK → e.linkdest = none)) ∧
    cstr (slice symlinkHeader TAR_LINKNAME TAR_LINKNAMELEN) = [116, 103, 116] :=
  ⟨symlink_target
      ⟨⟨zeroBlocks 0 ++ (symlinkHeader ++ []), 0⟩, MojoArchive_resetEntry, ⟨none, 0⟩⟩ 0 0
      symlinkHeader [] rfl rfl rfl (by decide) (by decide) ⟨108, by decide, by decide⟩
      (by decide),
    by decide⟩

/-! ### The offset of an entry stream -/

theorem entryOffset_eq (H : Nat) (s : Int) (hH : H % 512 = 0) (hs : 0 ≤ s)
    (hb : (H : Int) + 512 + roundUp512 s.toNat < 9223372036854775808) :
    entryOffset (H + 512 + roundUp512 s.toNat) s =
      if s % 512 = 0 then (H : Int) + 512 else (H : Int) + 1024 - 2 * (s % 512) := by
  obtain ⟨n, rfl⟩ : ∃ n : Nat, s = (n : Int) := ⟨s.toNat, by omega⟩
  simp only [Int.toNat_ofNat] at hb ⊢
  have hr : roundUp512 n = (n + 511) / 512 * 512 := rfl
  rw [hr] at hb ⊢
  unfold entryOffset
  have h0 : toInt64 (toUInt64 (((H + 512 + (n + 511) / 512 * 512 : Nat) : Int) - (n : Int))) =
      (H : Int) + 512 + ((n + 511) / 512 * 512 : Nat) - n := by
    unfold toInt64 toUInt64
    omega
  simp only [h0]
  have hnn : (0 : Int) ≤ (H : Int) + 512 + ((n + 511) / 512 * 512 : Nat) - n := by omega
  have htm : ((H : Int) + 512 + ((n + 511) / 512 * 512 : Nat) - n).tmod 512 =
      ((H : Int) + 512 + ((n + 511) / 512 * 512 : Nat) - n) % 512 :=
    Int.tmod_eq_emod hnn (by norm_num)
  simp only [htm]
  unfold toInt64
  split_ifs <;> omega

theorem openCurrentEntry_eq (s : MojoInput) (e : MojoArchiveEntry) (c : Nat) :
    MojoArchive_tar_openCurrentEntry ⟨s, e, ⟨none, c⟩⟩ =
      Outcome.ok (⟨e.filesize, entryOffset c e.filesize⟩,
        ⟨s, e, ⟨some ⟨e.filesize, entryOffset c e.filesize⟩, c⟩⟩) := by
  simp only [MojoArchive_tar_openCurrentEntry, Option.isSome_none, Bool.false_eq_true, if_false]

/-- C16, as the code behaves: for an entry returned from a header at a 512-aligned
offset `H` with size `s ≥ 0`, `openCurrentEntry` builds an entry stream of length `s`
whose offset is `H + 512` when `s` is a multiple of 512 and `H + 1024 - 2 * (s % 512)`
otherwise (it subtracts `512 - offset % 512` from `cursor - s` where `offset % 512` is
meant); so the offset is the first payload byte `H + 512` only when `s % 512` is 0 or
256. -/
theorem openCurrentEntry_offset (ar : MojoArchive) (H : Nat) (block post : List Nat)
    (e : MojoArchiveEntry) (hin : ar.info.input = none) (hc : ar.info.nextEnumPos = H)
    (hd : ar.io.data.drop H = zeroBlocks 0 ++ (block ++ post)) (hb : block.length = 512)
    (hnz : block ≠ zeroBlock) (hp : parseHeader block = some e) (hH : H % 512 = 0)
    (hs : 0 ≤ e.filesize)
    (hlen : (H : Int) + 512 + roundUp512 e.filesize.toNat < 9223372036854775808) :
    ∃ ar1 inp ar2, MojoArchive_tar_enumNext ar = Outcome.ok (some e, ar1) ∧
      MojoArchive_tar_openCurrentEntry ar1 = Outcome.ok (inp, ar2) ∧
      inp.fsize = e.filesize ∧
      inp.offset = (if e.filesize % 512 = 0 then (H : Int) + 512
        else (H : Int) + 1024 - 2 * (e.filesize % 512)) ∧
      (inp.offset = (H : Int) + 512 ↔ (e.filesize % 512 = 0 ∨ e.filesize % 512 = 256)) := by
  have hnext := enumNext_found ar H 0 block post e hin hc hd hb hnz hp
  have hadv : advanceEnumPos H e.filesize = H + 512 + roundUp512 e.filesize.toNat :=
    advanceEnumPos_eq H e.filesize hs hlen
  have hoff := entryOffset_eq H e.filesize hH hs hlen
  rw [hadv] at hnext
  have hiff : entryOffset (H + 512 + roundUp512 e.filesize.toNat) e.filesize = (H : Int) + 512 ↔
      (e.filesize % 512 = 0 ∨ e.filesize % 512 = 256) := by
    rw [hoff]
    split_ifs with h0
    · simp [h0]
    · constructor
      · intro h; right; omega
      · intro h; omega
  refine ⟨_, _, _, hnext, openCurrentEntry_eq _ _ _, ?_, ?_, ?_⟩
  · rfl
  · dsimp only
    exact hoff
  · dsimp only
    exact hiff

/-- Witness for C16: the one-byte file `a` with its header at offset 0: the entry
stream gets offset 1022 although the payload byte lies at 512. -/
theorem openCurrentEntry_offset_witness :
    ∃ ar1 inp ar2,
      MojoArchive_tar_enumNext ⟨⟨oneByteStream, 0⟩, MojoArchive_resetEntry, ⟨none, 0⟩⟩ =
        Outcome.ok (some memberA.entry, ar1) ∧
      MojoArchive_tar_openCurrentEntry ar1 = Outcome.ok (inp, ar2) ∧
      inp.fsize = 1 ∧ inp.offset = 1022 ∧ (oneByteStream.drop 512).take 1 = [7] := by
  obtain ⟨ar1, inp, ar2, h1, h2, h3, h4, _⟩ :=
    openCurrentEntry_offset ⟨⟨oneByteStream, 0⟩, MojoArchive_resetEntry, ⟨none, 0⟩⟩ 0
      memberA.header (memberA.payload ++ zeroBlocks 2) memberA.entry rfl rfl rfl
      memberA_header_length memberA_header_ne (memberA.parse_eq memberA_wellFormed)
      (by decide) (by rw [memberA_entry]; decide) (by rw [memberA_entry]; decide)
  refine ⟨ar1, inp, ar2, h1, h2, ?_, ?_, ?_⟩
  · rw [h3, memberA_entry]
  · rw [h4, memberA_entry]; decide
  · have d1 : oneByteStream.drop 512 = (7 :: List.replicate 511 0) ++ zeroBlocks 2 := by
      show (memberA.header ++ (memberA.payload ++ zeroBlocks 2)).drop 512 = _
      rw [drop_block_append _ _ memberA_header_length]; rfl
    rw [d1]
    rfl

/-! ### The cursor step -/

theorem toInt64_range (x : Int) :
    -9223372036854775808 ≤ toInt64 x ∧ toInt64 x < 9223372036854775808 := by
  unfold toInt64
  omega

theorem octalWalk_range (l : List Nat) :
    ∀ (r m : Int), -9223372036854775808 ≤ r → r < 9223372036854775808 →
      -9223372036854775808 ≤ octalWalk l r m ∧ octalWalk l r m < 9223372036854775808 := by
  induction l with
  | nil => intro r m h0 h1; exact ⟨h0, h1⟩
  | cons c rest ih =>
      intro r m _ _
      simp only [octalWalk]
      exact ih _ _ (toInt64_range _).1 (toInt64_range _).2

theorem octal_convert_range (str : List Nat) :
    -9223372036854775808 ≤ octal_convert str ∧ octal_convert str < 9223372036854775808 :=
  octalWalk_range _ 0 1 (by norm_num) (by norm_num)

theorem toUInt64_add_toInt64 (c x : Int) : toUInt64 (c + toInt64 x) = toUInt64 (c + x) := by
  unfold toUInt64 toInt64
  have h : (c + ((x + 9223372036854775808) % 18446744073709551616 - 9223372036854775808)) %
      18446744073709551616 = (c + x) % 18446744073709551616 := by
    have e1 : c + ((x + 9223372036854775808) % 18446744073709551616 - 9223372036854775808) =
        (c + x) + 18446744073709551616 *
          (-((x + 9223372036854775808) / 18446744073709551616)) := by
      have := Int.emod_add_ediv (x + 9223372036854775808) 18446744073709551616
      omega
    rw [e1, Int.add_mul_emod_self_left]
  rw [h]

theorem advanceEnumPos_eq_wide (c : Nat) (s : Int) (h0 : 0 ≤ s)
    (hb : (c : Int) + 512 + roundUp512 s.toNat < 18446744073709551616) :
    advanceEnumPos c s = c + 512 + roundUp512 s.toNat := by
  obtain ⟨n, rfl⟩ : ∃ n : Nat, s = (n : Int) := ⟨s.toNat, by omega⟩
  simp only [Int.toNat_ofNat] at hb ⊢
  have hr : roundUp512 n = (n + 511) / 512 * 512 := rfl
  rw [hr] at hb ⊢
  have htm : (n : Int).tmod 512 = (n : Int) % 512 := Int.tmod_eq_emod (by omega) (by norm_num)
  unfold advanceEnumPos
  simp only [htm, toUInt64_add_toInt64]
  have h1 : toUInt64 ((c : Int) + (512 + (n : Int))) = c + 512 + n := by
    unfold toUInt64
    omega
  rw [h1]
  split
  · unfold toUInt64
    omega
  · omega

theorem skipZeroBlocks_some_room (fuel : Nat) (s s1 : MojoInput) (block : List Nat)
    (h : skipZeroBlocks fuel s = some (some block, s1)) : s.pos + 512 ≤ s.data.length := by
  cases fuel with
  | zero => simp [skipZeroBlocks] at h
  | succ f =>
      simp only [skipZeroBlocks] at h
      have hl := read_length s 512
      by_cases h1 : (s.read 512).1.length = 512
      · omega
      · rw [if_pos h1] at h
        simp at h

theorem enumNext_some_inv (ar ar1 : MojoArchive) (e : MojoArchiveEntry)
    (h : MojoArchive_tar_enumNext ar = Outcome.ok (some e, ar1)) :
    ar.info.nextEnumPos + 512 ≤ ar.io.data.length ∧
      ar1.info.nextEnumPos = advanceEnumPos ar.info.nextEnumPos e.filesize ∧
      ∃ block, parseHeader block = some e := by
  unfold MojoArchive_tar_enumNext at h
  split_ifs at h with h1 h2
  · simp at h
  · have hseek : ar.io.seek ar.info.nextEnumPos = (true, ⟨ar.io.data, ar.info.nextEnumPos⟩) := by
      unfold MojoInput.seek at h2 ⊢
      split_ifs at h2 ⊢ with h3
      · rfl
      · simp at h2
    rw [hseek] at h
    split at h
    · simp at h
    · simp at h
    · rename_i block s heq
      have hroom := skipZeroBlocks_some_room _ _ _ _ heq
      split at h
      · simp at h
      · rename_i e1 hp
        simp only [Outcome.ok.injEq, Prod.mk.injEq, Option.some.injEq] at h
        obtain ⟨rfl, rfl⟩ := h
        exact ⟨hroom, rfl, block, hp⟩

/-- C17: whenever `enumNext`, called with cursor `c` on a stream shorter than `2^63`
bytes, returns an entry of decoded size `s ≥ 0`, the new cursor is
`c + 512 + 512 * ceil(s / 512)`; so the cursor grows by at least 512 and stays a
multiple of 512 when `c` is one. -/
theorem enumNext_cursor_step (ar ar1 : MojoArchive) (e : MojoArchiveEntry)
    (h : MojoArchive_tar_enumNext ar = Outcome.ok (some e, ar1)) (hs : 0 ≤ e.filesize)
    (hlen : ar.io.data.length < 9223372036854775808) :
    ar1.info.nextEnumPos =
        ar.info.nextEnumPos + 512 + 512 * ((e.filesize.toNat + 511) / 512) ∧
      ar.info.nextEnumPos + 512 ≤ ar1.info.nextEnumPos ∧
      (ar.info.nextEnumPos % 512 = 0 → ar1.info.nextEnumPos % 512 = 0) := by
  obtain ⟨hroom, hadv, block, hp⟩ := enumNext_some_inv ar ar1 e h
  have hsz := parseHeader_filesize block e hp
  have hrange := octal_convert_range (block.drop TAR_SIZE)
  rw [← hsz] at hrange
  have hround : roundUp512 e.filesize.toNat = 512 * ((e.filesize.toNat + 511) / 512) := by
    unfold roundUp512; ring
  have hstep := advanceEnumPos_eq_wide ar.info.nextEnumPos e.filesize hs (by
    rw [hround]; omega)
  rw [hadv, hstep, hround]
  refine ⟨rfl, by omega, by omega⟩

set_option maxRecDepth 100000 in
/-- Witness for C17: the first `enumNext` on the archive of the one-byte file `a`
moves the cursor from 0 to 1024. -/
theorem enumNext_cursor_step_witness :
    ∃ ar1, MojoArchive_tar_enumNext ⟨⟨oneByteStream, 0⟩, MojoArchive_resetEntry, ⟨none, 0⟩⟩ =
        Outcome.ok (some memberA.entry, ar1) ∧
      ar1.info.nextEnumPos = 0 + 512 + 512 * ((memberA.entry.filesize.toNat + 511) / 512) ∧
      ar1.info.nextEnumPos = 1024 := by
  have hnext := enumNext_found ⟨⟨oneByteStream, 0⟩, MojoArchive_resetEntry, ⟨none, 0⟩⟩ 0 0
    memberA.header (memberA.payload ++ zeroBlocks 2) memberA.entry rfl rfl rfl
    memberA_header_length memberA_header_ne (memberA.parse_eq memberA_wellFormed)
  have hlen : oneByteStream.length = 2048 := by
    show (memberA.header ++ (memberA.payload ++ zeroBlocks 2)).length = 2048
    simp only [List.length_append, memberA_header_length, memberA_payload_length,
      zeroBlocks_length]
  have hstep := enumNext_cursor_step _ _ _ hnext (by rw [memberA_entry]; decide)
    (by show oneByteStream.length < _; rw [hlen]; decide)
  refine ⟨_, hnext, hstep.1, ?_⟩
  rw [hstep.1, memberA_entry]
  decide

/-! ### The end of enumeration -/

theorem read_fst (d : List Nat) (p n : Nat) : (MojoInput.read ⟨d, p⟩ n).1 = slice d p n := rfl

theorem read_snd (d : List Nat) (p : Nat) (h : p + 512 ≤ d.length) :
    (MojoInput.read ⟨d, p⟩ 512).2 = ⟨d, p + 512⟩ := by
  have hl := read_length ⟨d, p⟩ 512
  show (⟨d, p + (MojoInput.read ⟨d, p⟩ 512).1.length⟩ : MojoInput) = _
  rw [hl]
  show (⟨d, p + min 512 (d.length - p)⟩ : MojoInput) = _
  rw [Nat.min_eq_left (by omega)]

theorem slice_length_full (d : List Nat) (p : Nat) :
    (slice d p 512).length = 512 ↔ p + 512 ≤ d.length := by
  unfold slice
  rw [List.length_take, List.length_drop]
  omega

theorem skipZeroBlocks_total (d : List Nat) :
    ∀ (fuel p : Nat), (d.length - p) / 512 < fuel → skipZeroBlocks fuel ⟨d, p⟩ ≠ none := by
  intro fuel
  induction fuel with
  | zero => intro p h; omega
  | succ fuel ih =>
      intro p h
      simp only [skipZeroBlocks, read_fst]
      by_cases hfull : (slice d p 512).length = 512
      · have hroom := (slice_length_full d p).1 hfull
        rw [if_neg (by simpa using hfull), read_snd d p hroom]
        split_ifs
        · exact ih (p + 512) (by omega)
        · simp
      · rw [if_pos hfull]
        simp

theorem skipZeroBlocks_none_iff (d : List Nat) :
    ∀ (fuel p : Nat), (d.length - p) / 512 < fuel →
      ((∃ s1, skipZeroBlocks fuel ⟨d, p⟩ = some (none, s1)) ↔
        ∀ k, p + 512 * k + 512 ≤ d.length → slice d (p + 512 * k) 512 = zeroBlock) := by
  intro fuel
  induction fuel with
  | zero => intro p h; omega
  | succ fuel ih =>
      intro p h
      simp only [skipZeroBlocks, read_fst]
      by_cases hfull : (slice d p 512).length = 512
      · have hroom := (slice_length_full d p).1 hfull
        rw [if_neg (by simpa using hfull), read_snd d p hroom]
        by_cases hz : slice d p 512 = zeroBlock
        · rw [if_pos hz, ih (p + 512) (by omega)]
          constructor
          · intro hall k hk
            cases k with
            | zero => simpa using hz
            | succ k =>
                have := hall k (by omega)
                rw [show p + 512 * (k + 1) = p + 512 + 512 * k by ring]
                exact this
          · intro hall k hk
            have := hall (k + 1) (by omega)
            rw [show p + 512 * (k + 1) = p + 512 + 512 * k by ring] at this
            exact this
        · rw [if_neg hz]
          constructor
          · rintro ⟨s1, hs1⟩
            simp at hs1
          · intro hall
            exact absurd (by simpa using hall 0 (by omega)) hz
      · rw [if_pos hfull]
        have hroom : ¬ p + 512 ≤ d.length := fun hc => hfull ((slice_length_full d p).2 hc)
        constructor
        · intro _ k hk
          omega
        · intro _
          exact ⟨_, rfl⟩

theorem skipZeroBlocks_some_spec (d : List Nat) :
    ∀ (fuel p : Nat) (block : List Nat) (s1 : MojoInput),
      skipZeroBlocks fuel ⟨d, p⟩ = some (some block, s1) →
      ∃ k, p + 512 * k + 512 ≤ d.length ∧ block = slice d (p + 512 * k) 512 ∧
        block ≠ zeroBlock := by
  intro fuel
  induction fuel with
  | zero => intro p block s1 h; simp [skipZeroBlocks] at h
  | succ fuel ih =>
      intro p block s1 h
      simp only [skipZeroBlocks, read_fst] at h
      by_cases hfull : (slice d p 512).length = 512
      · have hroom := (slice_length_full d p).1 hfull
        rw [if_neg (by simpa using hfull), read_snd d p hroom] at h
        by_cases hz : slice d p 512 = zeroBlock
        · rw [if_pos hz] at h
          obtain ⟨k, hk, hb, hnz⟩ := ih (p + 512) block s1 h
          refine ⟨k + 1, by omega, ?_, hnz⟩
          rw [hb, show p + 512 * (k + 1) = p + 512 + 512 * k by ring]
        · rw [if_neg hz] at h
          simp only [Option.some.injEq, Prod.mk.injEq] at h
          obtain ⟨rfl, _⟩ := h
          exact ⟨0, by omega, by simp, hz⟩
      · rw [if_pos hfull] at h
        simp at h

theorem seek_cases (s : MojoInput) (c : Nat) :
    (c ≤ s.data.length ∧ s.seek c = (true, ⟨s.data, c⟩)) ∨
      (s.data.length < c ∧ s.seek c = (false, s)) := by
  unfold MojoInput.seek
  by_cases h : c ≤ s.data.length
  · left; exact ⟨h, by rw [if_pos h]⟩
  · right; exact ⟨by omega, by rw [if_neg h]⟩

/-- C18: on every (finite) stream `enumNext` comes to an end; with no entry stream
open it returns `NULL` exactly when the seek to the cursor fails or every complete
512-byte block at `cursor + 512 * k` inside the stream is all zero; and an entry it
returns was parsed from a complete, non-zero block at `cursor + 512 * k`, never from
a trailing partial block. -/
theorem enumNext_end_of_enumeration :
    (∀ ar : MojoArchive, MojoArchive_tar_enumNext ar ≠ Outcome.diverges) ∧
    (∀ ar : MojoArchive, ar.info.input = none →
      ((∃ ar1, MojoArchive_tar_enumNext ar = Outcome.ok (none, ar1)) ↔
        ((ar.io.seek ar.info.nextEnumPos).1 = false ∨
          ∀ k, ar.info.nextEnumPos + 512 * k + 512 ≤ ar.io.data.length →
            slice ar.io.data (ar.info.nextEnumPos + 512 * k) 512 = zeroBlock))) ∧
    (∀ (ar ar1 : MojoArchive) (e : MojoArchiveEntry),
      MojoArchive_tar_enumNext ar = Outcome.ok (some e, ar1) →
      ∃ k, ar.info.nextEnumPos + 512 * k + 512 ≤ ar.io.data.length ∧
        slice ar.io.data (ar.info.nextEnumPos + 512 * k) 512 ≠ zeroBlock ∧
        parseHeader (slice ar.io.data (ar.info.nextEnumPos + 512 * k) 512) = some e) := by
  refine ⟨?_, ?_, ?_⟩
  · intro ar
    unfold MojoArchive_tar_enumNext
    split_ifs with h1 h2
    · simp
    · simp
    · rcases seek_cases ar.io ar.info.nextEnumPos with ⟨hle, hs⟩ | ⟨_, hs⟩
      · rw [hs]
        have ht := skipZeroBlocks_total ar.io.data (ar.io.data.length + 1) ar.info.nextEnumPos
          (by have := Nat.div_le_self (ar.io.data.length - ar.info.nextEnumPos) 512; omega)
        split
        · rename_i heq; exact absurd heq ht
        · simp
        · split <;> simp
      · rw [hs] at h2; simp at h2
  · intro ar hin
    unfold MojoArchive_tar_enumNext
    rw [if_neg (by simp [hin])]
    rcases seek_cases ar.io ar.info.nextEnumPos with ⟨hle, hs⟩ | ⟨hgt, hs⟩
    · rw [hs]
      simp only [Bool.true_eq_false, if_false, false_or]
      rw [← skipZeroBlocks_none_iff ar.io.data (ar.io.data.length + 1) ar.info.nextEnumPos
        (by have := Nat.div_le_self (ar.io.data.length - ar.info.nextEnumPos) 512; omega)]
      constructor
      · rintro ⟨ar1, h⟩
        split at h
        · simp at h
        · rename_i s heq; exact ⟨s, heq⟩
        · split at h <;> simp at h
      · rintro ⟨s1, hs1⟩
        rw [hs1]
        exact ⟨_, rfl⟩
    · rw [hs]
      simp only [if_true, true_or, iff_true]
      exact ⟨_, rfl⟩
  · intro ar ar1 e h
    unfold MojoArchive_tar_enumNext at h
    split_ifs at h with h1 h2
    · simp at h
    · rcases seek_cases ar.io ar.info.nextEnumPos with ⟨hle, hs⟩ | ⟨_, hs⟩
      · rw [hs] at h
        split at h
        · simp at h
        · simp at h
        · rename_i block s heq
          obtain ⟨k, hk, hb, hnz⟩ := skipZeroBlocks_some_spec ar.io.data _ _ block s heq
          split at h
          · simp at h
          · rename_i e1 hp
            simp only [Outcome.ok.injEq, Prod.mk.injEq, Option.some.injEq] at h
            obtain ⟨rfl, _⟩ := h
            exact ⟨k, hk, hb ▸ hnz, hb ▸ hp⟩
      · rw [hs] at h2; simp at h2

/-- Witness for C18: a stream that is only a partial block of three non-zero bytes
yields no entry. -/
theorem enumNext_end_of_enumeration_witness :
    ∃ ar1, MojoArchive_tar_enumNext ⟨⟨[1, 2, 3], 0⟩, MojoArchive_resetEntry, ⟨none, 0⟩⟩ =
      Outcome.ok (none, ar1) :=
  (enumNext_end_of_enumeration.2.1 ⟨⟨[1, 2, 3], 0⟩, MojoArchive_resetEntry, ⟨none, 0⟩⟩ rfl).2
    (Or.inr (fun k hk => by
      have h3 : ([1, 2, 3] : List Nat).length = 3 := rfl
      simp only [h3] at hk
      omega))

/-! ### Restarting enumeration and closing an entry stream -/

theorem enumNext_from_zero (d : List Nat) (p : Nat) (pe : MojoArchiveEntry) :
    MojoArchive_tar_enumNext ⟨⟨d, p⟩, pe, ⟨none, 0⟩⟩ =
      MojoArchive_tar_enumNext ⟨⟨d, 0⟩, MojoArchive_resetEntry, freshTARinfo⟩ := by
  unfold MojoArchive_tar_enumNext freshTARinfo
  simp only [seek_zero_eq]

/-- C19: with no entry stream open, `enumerate` returns success, sets the cursor to 0,
clears the current entry and leaves the stream alone, and the `enumNext` that follows
does exactly what the first `enumNext` on a freshly created archive over the same
stream does; with an entry stream open, `enumerate` and `enumNext` end in the fatal
error. -/
theorem enumerate_restarts :
    (∀ ar : MojoArchive, ar.info.input = none →
      ∃ ar1, MojoArchive_tar_enumerate ar = Outcome.ok (true, ar1) ∧
        ar1.info.nextEnumPos = 0 ∧ ar1.prevEnum = MojoArchive_resetEntry ∧ ar1.io = ar.io ∧
        MojoArchive_tar_enumNext ar1 =
          MojoArchive_tar_enumNext ⟨⟨ar.io.data, 0⟩, MojoArchive_resetEntry, freshTARinfo⟩) ∧
    (∀ ar : MojoArchive, ar.info.input.isSome = true →
      MojoArchive_tar_enumerate ar = Outcome.fatal ∧
        MojoArchive_tar_enumNext ar = Outcome.fatal) := by
  constructor
  · intro ar hin
    refine ⟨⟨ar.io, MojoArchive_resetEntry, ⟨none, 0⟩⟩, ?_, rfl, rfl, rfl, ?_⟩
    · simp [MojoArchive_tar_enumerate, hin]
    · exact enumNext_from_zero ar.io.data ar.io.pos MojoArchive_resetEntry
  · intro ar h
    constructor
    · unfold MojoArchive_tar_enumerate
      rw [if_pos h]
    · unfold MojoArchive_tar_enumNext
      rw [if_pos h]

/-- Witness for C19: an archive over the one-byte file `a` that has enumerated past it
(cursor 1024, stream at 512) is restarted; and with an entry stream open both calls
are fatal. -/
theorem enumerate_restarts_witness :
    (∃ ar1, MojoArchive_tar_enumerate ⟨⟨oneByteStream, 512⟩, memberA.entry, ⟨none, 1024⟩⟩ =
        Outcome.ok (true, ar1) ∧
      ar1.info.nextEnumPos = 0 ∧ ar1.prevEnum = MojoArchive_resetEntry ∧
      ar1.io = ⟨oneByteStream, 512⟩ ∧
      MojoArchive_tar_enumNext ar1 =
        MojoArchive_tar_enumNext ⟨⟨oneByteStream, 0⟩, MojoArchive_resetEntry, freshTARinfo⟩) ∧
    (MojoArchive_tar_enumerate ⟨⟨[], 0⟩, MojoArchive_resetEntry, ⟨some ⟨0, 0⟩, 0⟩⟩ =
        Outcome.fatal ∧
      MojoArchive_tar_enumNext ⟨⟨[], 0⟩, MojoArchive_resetEntry, ⟨some ⟨0, 0⟩, 0⟩⟩ =
        Outcome.fatal) :=
  ⟨enumerate_restarts.1 ⟨⟨oneByteStream, 512⟩, memberA.entry, ⟨none, 1024⟩⟩ rfl,
    enumerate_restarts.2 ⟨⟨[], 0⟩, MojoArchive_resetEntry, ⟨some ⟨0, 0⟩, 0⟩⟩ rfl⟩

/-- C20: `close` of an entry stream empties the open-entry slot and changes nothing
else: the cursor, the current entry and the underlying stream (its data and its
position) stay as they were, and `enumNext` and `openCurrentEntry` called next do not
end in the fatal error; `openCurrentEntry` followed at once by `close` gives back the
archive as it was. -/
theorem close_frees_only_slot :
    (∀ ar1 : MojoArchive,
      (MojoInput_tar_close ar1).info.input = none ∧
      (MojoInput_tar_close ar1).info.nextEnumPos = ar1.info.nextEnumPos ∧
      (MojoInput_tar_close ar1).prevEnum = ar1.prevEnum ∧
      (MojoInput_tar_close ar1).io = ar1.io ∧
      MojoArchive_tar_enumNext (MojoInput_tar_close ar1) ≠ Outcome.fatal ∧
      MojoArchive_tar_openCurrentEntry (MojoInput_tar_close ar1) ≠ Outcome.fatal) ∧
    (∀ ar : MojoArchive, ar.info.input = none →
      ∃ inp ar1, MojoArchive_tar_openCurrentEntry ar = Outcome.ok (inp, ar1) ∧
        ar1.info.input = some inp ∧ MojoInput_tar_close ar1 = ar) := by
  constructor
  · intro ar1
    refine ⟨rfl, rfl, rfl, rfl, ?_, ?_⟩
    · unfold MojoArchive_tar_enumNext
      rw [if_neg (by simp [MojoInput_tar_close])]
      split_ifs
      · simp
      · split
        · simp
        · simp
        · split <;> simp
    · unfold MojoArchive_tar_openCurrentEntry
      rw [if_neg (by simp [MojoInput_tar_close])]
      simp
  · intro ar hin
    cases ar with
    | mk io pe info =>
        cases info with
        | mk input c =>
            simp only at hin
            subst hin
            exact ⟨_, _, openCurrentEntry_eq io pe c, rfl, rfl⟩

/-- Witness for C20: open then close on an archive positioned after the one-byte
file `a`. -/
theorem close_frees_only_slot_witness :
    ∃ inp ar1,
      MojoArchive_tar_openCurrentEntry ⟨⟨oneByteStream, 512⟩, memberA.entry, ⟨none, 1024⟩⟩ =
        Outcome.ok (inp, ar1) ∧
      ar1.info.input = some inp ∧
      MojoInput_tar_close ar1 = ⟨⟨oneByteStream, 512⟩, memberA.entry, ⟨none, 1024⟩⟩ :=
  close_frees_only_slot.2 ⟨⟨oneByteStream, 512⟩, memberA.entry, ⟨none, 1024⟩⟩ rfl

/-! ### The cursor of the decompression adapter -/

theorem gzipRefill_spec {σ : Type} (info info1 : GZIPinfo σ) (h : gzipRefill info = some info1) :
    info1.uncompressed_position = info.uncompressed_position ∧
      info1.origio.data = info.origio.data ∧
      (info1.origio.data.length - info1.origio.pos) + info1.avail.length =
        (info.origio.data.length - info.origio.pos) + info.avail.length := by
  unfold gzipRefill at h
  by_cases h1 : info.avail.length = 0
  · rw [if_pos h1] at h
    by_cases h2 : info.origio.length - info.origio.tell > 0
    · rw [if_pos h2] at h
      dsimp only at h
      split_ifs at h with h3
      simp only [Option.some.injEq] at h
      subst h
      refine ⟨rfl, rfl, ?_⟩
      show (info.origio.read _).2.data.length - (info.origio.read _).2.pos +
        (info.origio.read _).1.length = _
      rw [read_data, read_pos, read_length, h1]
      omega
    · rw [if_neg h2] at h
      simp only [Option.some.injEq] at h
      subst h
      exact ⟨rfl, rfl, rfl⟩
  · rw [if_neg h1] at h
    simp only [Option.some.injEq] at h
    subst h
    exact ⟨rfl, rfl, rfl⟩

theorem callInflate_spec {σ : Type} (z : Inflater σ) (info : GZIPinfo σ) (room : Nat) :
    (callInflate z info room).1.uncompressed_position = info.uncompressed_position ∧
      (callInflate z info room).1.origio = info.origio ∧
      (callInflate z info room).2.1.length ≤ room ∧
      (callInflate z info room).1.avail.length ≤ info.avail.length ∧
      ((callInflate z info room).2.2 = Z_OK →
        (callInflate z info room).1.avail.length + (callInflate z info room).2.1.length <
          info.avail.length + (callInflate z info room).2.1.length ∨
        0 < (callInflate z info room).2.1.length) := by
  unfold callInflate
  dsimp only
  refine ⟨rfl, rfl, ?_, ?_, ?_⟩
  · rw [List.length_take]; exact Nat.min_le_left _ _
  · rw [List.length_drop]; omega
  · intro hrc
    split_ifs at hrc with hc
    · exact absurd hrc (by decide)
    · rw [List.length_drop]
      by_cases hu : min (z.inflate info.stream info.avail room).2.1 info.avail.length = 0
      · right
        have hp : List.take room (z.inflate info.stream info.avail room).2.2.1 ≠ [] := by
          intro hp
          exact hc ⟨hu, hp, hrc⟩
        exact List.length_pos.2 hp
      · left
        omega

theorem gzipReadLoop_cursor {σ : Type} (z : Inflater σ) (bufsize : Nat) :
    ∀ (fuel : Nat) (info info1 : GZIPinfo σ) (out : List Nat) (r : Option (List Nat)),
      gzipReadLoop z bufsize fuel info out = some (r, info1) →
      info1.uncompressed_position = info.uncompressed_position ∧
        (out.length ≤ bufsize → ∀ res, r = some res → res.length ≤ bufsize) := by
  intro fuel
  induction fuel with
  | zero => intro info info1 out r h; simp [gzipReadLoop] at h
  | succ fuel ih =>
      intro info info1 out r h
      simp only [gzipReadLoop] at h
      split_ifs at h with hlt
      · split at h
        · simp only [Option.some.injEq, Prod.mk.injEq] at h
          obtain ⟨rfl, rfl⟩ := h
          exact ⟨rfl, fun _ res hres => by simp at hres⟩
        · rename_i info2 hrefill
          have hr := gzipRefill_spec info info2 hrefill
          have hc := callInflate_spec z info2 (bufsize - out.length)
          split_ifs at h with hrc
          · simp only [Option.some.injEq, Prod.mk.injEq] at h
            obtain ⟨rfl, rfl⟩ := h
            exact ⟨by rw [hc.1, hr.1], fun _ res hres => by simp at hres⟩
          · obtain ⟨h1, h2⟩ := ih _ _ _ _ h
            refine ⟨by rw [h1, hc.1, hr.1], fun _ res hres => ?_⟩
            refine h2 ?_ res hres
            rw [List.length_append]
            have := hc.2.2.1
            omega
      · simp only [Option.some.injEq, Prod.mk.injEq] at h
        obtain ⟨rfl, rfl⟩ := h
        refine ⟨rfl, fun hle res hres => ?_⟩
        simp only [Option.some.injEq] at hres
        subst hres
        exact hle

theorem gzipReadLoop_returns {σ : Type} (z : Inflater σ) (bufsize : Nat) :
    ∀ (fuel : Nat) (info : GZIPinfo σ) (out : List Nat), out.length ≤ bufsize →
      (info.origio.data.length - info.origio.pos) + info.avail.length +
        (bufsize - out.length) < fuel →
      ∃ r, gzipReadLoop z bufsize fuel info out = some r := by
  intro fuel
  induction fuel with
  | zero => intro info out _ h; omega
  | succ fuel ih =>
      intro info out hle hfuel
      simp only [gzipReadLoop]
      by_cases hlt : out.length < bufsize
      · rw [if_pos hlt]
        cases hrefill : gzipRefill info with
        | none => exact ⟨_, rfl⟩
        | some info2 =>
            have hr := gzipRefill_spec info info2 hrefill
            have hc := callInflate_spec z info2 (bufsize - out.length)
            dsimp only
            by_cases hrc : (callInflate z info2 (bufsize - out.length)).2.2 = Z_OK
            · rw [if_neg (by simpa using hrc)]
              apply ih
              · rw [List.length_append]
                have := hc.2.2.1
                omega
              · rw [List.length_append, hc.2.1]
                have h3 := hc.2.2.1
                have h4 := hc.2.2.2.1
                have h5 := hc.2.2.2.2 hrc
                have h6 := hr.2.2
                omega
            · rw [if_pos hrc]
              exact ⟨_, rfl⟩
      · rw [if_neg hlt]
        exact ⟨_, rfl⟩

theorem gzipReadLoop_measure {σ : Type} (z : Inflater σ) (bufsize : Nat) :
    ∀ (fuel : Nat) (info info1 : GZIPinfo σ) (out : List Nat) (r : Option (List Nat)),
      gzipReadLoop z bufsize fuel info out = some (r, info1) →
      (info1.origio.data.length - info1.origio.pos) + info1.avail.length ≤
        (info.origio.data.length - info.origio.pos) + info.avail.length := by
  intro fuel
  induction fuel with
  | zero => intro info info1 out r h; simp [gzipReadLoop] at h
  | succ fuel ih =>
      intro info info1 out r h
      simp only [gzipReadLoop] at h
      split_ifs at h with hlt
      · split at h
        · simp only [Option.some.injEq, Prod.mk.injEq] at h
          obtain ⟨_, rfl⟩ := h
          exact Nat.le_refl _
        · rename_i info2 hrefill
          have hr := gzipRefill_spec info info2 hrefill
          have hc := callInflate_spec z info2 (bufsize - out.length)
          split_ifs at h with hrc
          · simp only [Option.some.injEq, Prod.mk.injEq] at h
            obtain ⟨_, rfl⟩ := h
            rw [hc.2.1]
            have := hc.2.2.2.1
            have := hr.2.2
            omega
          · have h1 := ih _ _ _ _ h
            rw [hc.2.1] at h1
            have := hc.2.2.2.1
            have := hr.2.2
            omega
      · simp only [Option.some.injEq, Prod.mk.injEq] at h
        obtain ⟨_, rfl⟩ := h
        exact Nat.le_refl _

theorem gzip_read_cursor {σ : Type} (z : Inflater σ) (fuel n : Nat) (info info1 : GZIPinfo σ)
    (rv : Int) (out : List Nat) (hn : n < 4294967296)
    (hpos : info.uncompressed_position + n < 9223372036854775808)
    (h : MojoInput_gzip_read z fuel info n = some (rv, out, info1)) :
    (rv = -1 ∨ rv = n) ∧
      ((info1.uncompressed_position : Int) =
        info.uncompressed_position + (if 0 ≤ rv then rv else 0)) ∧
      (info1.origio.data.length - info1.origio.pos) + info1.avail.length ≤
        (info.origio.data.length - info.origio.pos) + info.avail.length := by
  unfold MojoInput_gzip_read at h
  by_cases h0 : n = 0
  · rw [if_pos h0] at h
    simp only [Option.some.injEq, Prod.mk.injEq] at h
    obtain ⟨rfl, _, rfl⟩ := h
    subst h0
    exact ⟨Or.inr rfl, by simp, Nat.le_refl _⟩
  · rw [if_neg h0] at h
    split at h
    · simp at h
    · rename_i info2 heq
      simp only [Option.some.injEq, Prod.mk.injEq] at h
      obtain ⟨rfl, _, rfl⟩ := h
      have hc := gzipReadLoop_cursor z n fuel info _ [] none heq
      have hm := gzipReadLoop_measure z n fuel info _ [] none heq
      refine ⟨Or.inl rfl, ?_, hm⟩
      rw [hc.1]
      simp
    · rename_i res info2 heq
      have hc := gzipReadLoop_cursor z n fuel info info2 [] (some res) heq
      have hm := gzipReadLoop_measure z n fuel info info2 [] (some res) heq
      have hfull := gzipReadLoop_full z n fuel info info2 [] res heq
      have hle := hc.2 (Nat.zero_le _) res rfl
      have hlen : res.length = n := Nat.le_antisymm hle hfull
      rw [if_pos (by omega)] at h
      simp only [Option.some.injEq, Prod.mk.injEq] at h
      obtain ⟨rfl, _, rfl⟩ := h
      refine ⟨Or.inr (by rw [hlen]), ?_, hm⟩
      show ((toUInt64 ((info2.uncompressed_position : Int) + (toUInt32 (res.length : Int) : Nat)) :
        Nat) : Int) = _
      rw [hc.1, hlen]
      have h32 : ((toUInt32 (n : Int) : Nat) : Int) = n := by
        unfold toUInt32; omega
      rw [h32, if_pos (by omega)]
      unfold toUInt64
      omega

theorem gzip_read_returns {σ : Type} (z : Inflater σ) (fuel n : Nat) (info : GZIPinfo σ)
    (hfuel : (info.origio.data.length - info.origio.pos) + info.avail.length + n < fuel) :
    ∃ r, MojoInput_gzip_read z fuel info n = some r := by
  unfold MojoInput_gzip_read
  by_cases h0 : n = 0
  · rw [if_pos h0]
    exact ⟨_, rfl⟩
  · rw [if_neg h0]
    obtain ⟨r, hr⟩ := gzipReadLoop_returns z n fuel info [] (Nat.zero_le _) (by simpa using hfuel)
    rw [hr]
    obtain ⟨ro, info2⟩ := r
    cases ro with
    | none => exact ⟨_, rfl⟩
    | some res =>
        dsimp only
        split_ifs <;> exact ⟨_, rfl⟩

theorem gzip_read_measure {σ : Type} (z : Inflater σ) (fuel n : Nat) (info info1 : GZIPinfo σ)
    (rv : Int) (out : List Nat)
    (h : MojoInput_gzip_read z fuel info n = some (rv, out, info1)) :
    (info1.origio.data.length - info1.origio.pos) + info1.avail.length ≤
      (info.origio.data.length - info.origio.pos) + info.avail.length := by
  unfold MojoInput_gzip_read at h
  split_ifs at h with h0
  · simp only [Option.some.injEq, Prod.mk.injEq] at h
    obtain ⟨_, _, rfl⟩ := h
    exact Nat.le_refl _
  · split at h
    · simp at h
    · rename_i info2 heq
      simp only [Option.some.injEq, Prod.mk.injEq] at h
      obtain ⟨_, _, rfl⟩ := h
      exact gzipReadLoop_measure z n fuel info _ [] none heq
    · rename_i res info2 heq
      have hm := gzipReadLoop_measure z n fuel info info2 [] (some res) heq
      split_ifs at h <;>
        (simp only [Option.some.injEq, Prod.mk.injEq] at h
         obtain ⟨_, _, rfl⟩ := h
         exact hm)

theorem gzipReadSeq_cursor {σ : Type} (z : Inflater σ) (fuel : Nat) :
    ∀ (ns : List Nat) (info info1 : GZIPinfo σ) (rvs : List Int),
      (∀ n ∈ ns, n < 4294967296) →
      info.uncompressed_position + ns.sum < 9223372036854775808 →
      gzipReadSeq z fuel info ns = some (rvs, info1) →
      (info1.uncompressed_position : Int) = info.uncompressed_position + sumNonNeg rvs ∧
        sumNonNeg rvs ≤ ns.sum := by
  intro ns
  induction ns with
  | nil =>
      intro info info1 rvs _ _ h
      simp only [gzipReadSeq, Option.some.injEq, Prod.mk.injEq] at h
      obtain ⟨rfl, rfl⟩ := h
      simp [sumNonNeg]
  | cons n ns ih =>
      intro info info1 rvs hn hsum h
      simp only [List.sum_cons] at hsum
      simp only [gzipReadSeq] at h
      split at h
      · simp at h
      · rename_i rv out infoA hread
        obtain ⟨hrv, hpos, _⟩ := gzip_read_cursor z fuel n info infoA rv out
          (hn n (by simp)) (by omega) hread
        split at h
        · simp at h
        · rename_i rvs1 info2 hseq
          simp only [Option.some.injEq, Prod.mk.injEq] at h
          obtain ⟨rfl, rfl⟩ := h
          have hstep : ((if 0 ≤ rv then rv else 0) : Int) ≤ n := by
            rcases hrv with h1 | h1 <;> rw [h1] <;> simp
          have hnn : (0 : Int) ≤ (if 0 ≤ rv then rv else 0) := by
            split_ifs with hc
            · exact hc
            · exact le_refl 0
          obtain ⟨h1, h2⟩ := ih infoA info2 rvs1 (fun m hm => hn m (by simp [hm]))
            (by omega) hseq
          simp only [sumNonNeg, List.sum_cons, Nat.cast_add]
          refine ⟨by rw [h1, hpos]; ring, ?_⟩
          omega

theorem gzipReadSeq_returns {σ : Type} (z : Inflater σ) (fuel : Nat) :
    ∀ (ns : List Nat) (info : GZIPinfo σ),
      (∀ n ∈ ns, (info.origio.data.length - info.origio.pos) + info.avail.length + n < fuel) →
      ∃ r, gzipReadSeq z fuel info ns = some r := by
  intro ns
  induction ns with
  | nil => intro info _; exact ⟨_, rfl⟩
  | cons n ns ih =>
      intro info hf
      obtain ⟨⟨rv, out, infoA⟩, hread⟩ := gzip_read_returns z fuel n info (hf n (by simp))
      have hm := gzip_read_measure z fuel n info infoA rv out hread
      obtain ⟨⟨rvs, info2⟩, hseq⟩ := ih infoA (fun m hmem => by
        have := hf m (by simp [hmem])
        omega)
      refine ⟨(rv :: rvs, info2), ?_⟩
      simp only [gzipReadSeq, hread, hseq]

/-- C21: on the decompression adapter a read that returns `n > 0` moves the cursor
forward by exactly `n`, a read that returns the error value -1 leaves it where it
was, and no other value than -1 or the buffer size is returned; so after any
sequence of reads on a fresh adapter `tell()` is the sum of the non-negative return
values; and every such sequence of reads returns (given iterations enough for the
origin stream and the buffer sizes).  Buffer sizes are below `2^32` and the cursor
stays below `2^63`. -/
theorem gzip_cursor_invariant {σ : Type} (z : Inflater σ) (fuel : Nat) :
    (∀ (info info1 : GZIPinfo σ) (n : Nat) (rv : Int) (out : List Nat), n < 4294967296 →
      info.uncompressed_position + n < 9223372036854775808 →
      MojoInput_gzip_read z fuel info n = some (rv, out, info1) →
      (rv = -1 ∨ rv = n) ∧
        (0 < rv → MojoInput_gzip_tell info1 = MojoInput_gzip_tell info + rv) ∧
        (rv = -1 → MojoInput_gzip_tell info1 = MojoInput_gzip_tell info)) ∧
    (∀ (origio : MojoInput) (info0 info1 : GZIPinfo σ) (ns : List Nat) (rvs : List Int),
      make_gzip_input z origio = some info0 → (∀ n ∈ ns, n < 4294967296) →
      ns.sum < 9223372036854775808 →
      gzipReadSeq z fuel info0 ns = some (rvs, info1) →
      MojoInput_gzip_tell info1 = sumNonNeg rvs) ∧
    (∀ (origio : MojoInput) (info0 : GZIPinfo σ) (ns : List Nat),
      make_gzip_input z origio = some info0 →
      (∀ n ∈ ns, (origio.data.length - origio.pos) + n < fuel) →
      ∃ r, gzipReadSeq z fuel info0 ns = some r) := by
  refine ⟨?_, ?_, ?_⟩
  · intro info info1 n rv out hn hpos h
    obtain ⟨hrv, hcur, _⟩ := gzip_read_cursor z fuel n info info1 rv out hn hpos h
    have hb : (info1.uncompressed_position : Int) < 9223372036854775808 := by
      rw [hcur]
      rcases hrv with h1 | h1 <;> rw [h1] <;> simp <;> omega
    have ht1 : MojoInput_gzip_tell info1 = info1.uncompressed_position :=
      toInt64_of_range _ (by omega) hb
    have ht0 : MojoInput_gzip_tell info = info.uncompressed_position :=
      toInt64_of_range _ (by omega) (by omega)
    refine ⟨hrv, ?_, ?_⟩
    · intro hp
      rw [ht1, ht0, hcur, if_pos (by omega)]
    · intro hm
      rw [ht1, ht0, hcur, hm]
      simp
  · intro origio info0 info1 ns rvs hmake hn hsum hseq
    have h0 : info0.uncompressed_position = 0 := by
      unfold make_gzip_input at hmake
      split at hmake
      · simp at hmake
      · simp only [Option.some.injEq] at hmake
        subst hmake
        rfl
    obtain ⟨h1, h2⟩ := gzipReadSeq_cursor z fuel ns info0 info1 rvs hn (by rw [h0]; omega) hseq
    rw [h0] at h1
    have hb : (info1.uncompressed_position : Int) < 9223372036854775808 := by
      rw [h1]; push_cast; omega
    show toInt64 (info1.uncompressed_position : Int) = _
    rw [toInt64_of_range _ (by omega) hb, h1]
    simp
  · intro origio info0 ns hmake hf
    have h0 : info0.origio = origio ∧ info0.avail = [] := by
      unfold make_gzip_input at hmake
      split at hmake
      · simp at hmake
      · simp only [Option.some.injEq] at hmake
        subst hmake
        exact ⟨rfl, rfl⟩
    apply gzipReadSeq_returns
    intro n hmem
    rw [h0.1, h0.2]
    have := hf n hmem
    simpa using this

/-- Witness for C21: on the stored stream `10 20 30 40` a read of 3 bytes returns 3,
the next read of 2 bytes returns -1, and `tell()` is 3. -/
theorem gzip_cursor_invariant_witness :
    (∃ info1, gzipReadSeq storedInflater 10 storedAdapter [3, 2] = some ([3, -1], info1) ∧
      MojoInput_gzip_tell info1 = sumNonNeg [3, -1]) ∧ sumNonNeg [3, -1] = 3 :=
  ⟨⟨{ origio := ⟨[10, 20, 30, 40], 4⟩, uncompressed_position := 3, stream := (), avail := [] },
      by decide,
      (gzip_cursor_invariant storedInflater 10).2.1 ⟨[10, 20, 30, 40], 0⟩ storedAdapter
        { origio := ⟨[10, 20, 30, 40], 4⟩, uncompressed_position := 3, stream := (), avail := [] }
        [3, 2] [3, -1] (by decide) (by decide) (by decide) (by decide)⟩,
    by decide⟩

/-! ### Numeric fields run past their field -/

theorem octalScan_of_terminated (a b : List Nat) (h : ∃ c ∈ a, isOctalDigit c = false) :
    octalScan (a ++ b) = octalScan a := by
  induction a with
  | nil => obtain ⟨c, hc, _⟩ := h; simp at hc
  | cons x xs ih =>
      by_cases hx : isOctalDigit x = true
      · have hxs : ∃ c ∈ xs, isOctalDigit c = false := by
          obtain ⟨c, hc, hd⟩ := h
          simp only [List.mem_cons] at hc
          rcases hc with rfl | hc
          · rw [hx] at hd; exact absurd hd (by simp)
          · exact ⟨c, hc, hd⟩
        have hrec := ih hxs
        simp only [List.cons_append, octalScan, hx, if_true, List.append_eq, hrec]
      · simp only [List.cons_append, octalScan, hx, if_false]
        rfl

theorem octal_convert_terminated_field (b1 b2 : List Nat) (off len : Nat)
    (hagree : slice b1 off len = slice b2 off len)
    (hterm : ∃ c ∈ slice b1 off len, isOctalDigit c = false) :
    octal_convert (b1.drop off) = octal_convert (b2.drop off) := by
  have e1 : b1.drop off = slice b1 off len ++ (b1.drop off).drop len :=
    (List.take_append_drop len (b1.drop off)).symm
  have e2 : b2.drop off = slice b2 off len ++ (b2.drop off).drop len :=
    (List.take_append_drop len (b2.drop off)).symm
  unfold octal_convert
  rw [e1, e2, octalScan_of_terminated _ _ hterm,
    octalScan_of_terminated _ _ (hagree ▸ hterm), hagree]

theorem parseHeader_perms (block : List Nat) (e : MojoArchiveEntry)
    (h : parseHeader block = some e) :
    e.perms = toUInt16 (octal_convert (block.drop TAR_MODE)) := by
  replace h := (parseHeader_some block e h).2
  unfold decodeHeader at h
  simp only at h
  split at h
  · exact absurd h (by simp)
  · split_ifs at h <;> (injection h with h; rw [← h])

theorem decode_of_terminated_fields (b1 b2 : List Nat) (e1 e2 : MojoArchiveEntry)
    (hmode : slice b1 TAR_MODE TAR_MODELEN = slice b2 TAR_MODE TAR_MODELEN)
    (hsize : slice b1 TAR_SIZE TAR_SIZELEN = slice b2 TAR_SIZE TAR_SIZELEN)
    (tmode : ∃ c ∈ slice b1 TAR_MODE TAR_MODELEN, isOctalDigit c = false)
    (tsize : ∃ c ∈ slice b1 TAR_SIZE TAR_SIZELEN, isOctalDigit c = false)
    (h1 : parseHeader b1 = some e1) (h2 : parseHeader b2 = some e2) :
    e1.perms = e2.perms ∧ e1.filesize = e2.filesize := by
  rw [parseHeader_perms b1 e1 h1, parseHeader_perms b2 e2 h2, parseHeader_filesize b1 e1 h1,
    parseHeader_filesize b2 e2 h2,
    octal_convert_terminated_field b1 b2 TAR_MODE TAR_MODELEN hmode tmode,
    octal_convert_terminated_field b1 b2 TAR_SIZE TAR_SIZELEN hsize tsize]
  exact ⟨rfl, rfl⟩

set_option maxRecDepth 100000 in
theorem fullFieldHeader_parse : parseHeader fullFieldHeader =
    some { filename := some [97], linkdest := none, type := MOJOARCHIVE_ENTRY_FILE,
           perms := 420, filesize := 1 } := by decide

set_option maxRecDepth 100000 in
theorem runOnHeader_parse : parseHeader runOnHeader =
    some { filename := some [97], linkdest := none, type := MOJOARCHIVE_ENTRY_FILE,
           perms := 3367, filesize := 8 } := by decide

set_option maxRecDepth 100000 in
theorem overrunHeader_parse : parseHeader overrunHeader = none := by decide

theorem enumNext_undefined (ar : MojoArchive) (c k : Nat) (block post : List Nat)
    (hin : ar.info.input = none) (hc : ar.info.nextEnumPos = c)
    (hd : ar.io.data.drop c = zeroBlocks k ++ (block ++ post)) (hb : block.length = 512)
    (hnz : block ≠ zeroBlock) (hp : parseHeader block = none) :
    MojoArchive_tar_enumNext ar = Outcome.undefined := by
  have hlen : (ar.io.data.drop c).length = 512 * k + (512 + post.length) := by
    rw [hd, List.length_append, zeroBlocks_length, List.length_append, hb]
  rw [List.length_drop] at hlen
  have hseek : ar.io.seek c = (true, ⟨ar.io.data, c⟩) := by
    unfold MojoInput.seek
    rw [if_pos (by omega)]
  have hskip := skipZeroBlocks_found ar.io.data block post hb hnz k (ar.io.data.length + 1) c
    (by omega) hd
  unfold MojoArchive_tar_enumNext
  simp only [hin, hc, hseek, hskip, hp]
  simp

set_option maxRecDepth 100000 in
/-- C22, evaluated: two header blocks that agree on the 8 bytes of the mode field and
on the 12 bytes of the size field, both fields filled with digits to their last byte,
decode to different permissions (420 and 3367) and different sizes (1 and 8) because
the digit scan runs on into the uid and mtime fields; and on a block whose bytes from
offset 124 to 511 are all digits the scan of the size field passes the last byte of
the block and stops only at index 512, so that `enumNext` reads outside the block. -/
theorem octal_scan_runs_past_field :
    fullFieldHeader.length = 512 ∧ runOnHeader.length = 512 ∧
    slice fullFieldHeader TAR_MODE TAR_MODELEN = slice runOnHeader TAR_MODE TAR_MODELEN ∧
    slice fullFieldHeader TAR_SIZE TAR_SIZELEN = slice runOnHeader TAR_SIZE TAR_SIZELEN ∧
    (∃ e1 ar1,
      MojoArchive_tar_enumNext
        ⟨⟨zeroBlocks 0 ++ (fullFieldHeader ++ []), 0⟩, MojoArchive_resetEntry, ⟨none, 0⟩⟩ =
          Outcome.ok (some e1, ar1) ∧ e1.perms = 420 ∧ e1.filesize = 1) ∧
    (∃ e2 ar2,
      MojoArchive_tar_enumNext
        ⟨⟨zeroBlocks 0 ++ (runOnHeader ++ []), 0⟩, MojoArchive_resetEntry, ⟨none, 0⟩⟩ =
          Outcome.ok (some e2, ar2) ∧ e2.perms = 3367 ∧ e2.filesize = 8) ∧
    octalScanEnd runOnHeader TAR_MODE = 109 ∧ octalScanEnd runOnHeader TAR_SIZE = 137 ∧
    overrunHeader.length = 512 ∧ overrunHeader ≠ zeroBlock ∧
    octalScanEnd overrunHeader TAR_SIZE = 512 ∧
    MojoArchive_tar_enumNext
      ⟨⟨zeroBlocks 0 ++ (overrunHeader ++ []), 0⟩, MojoArchive_resetEntry, ⟨none, 0⟩⟩ =
        Outcome.undefined := by
  refine ⟨by decide, by decide, by decide, by decide, ?_, ?_, by decide, by decide,
    by decide, by decide, by decide, ?_⟩
  · exact ⟨_, _, enumNext_found
      ⟨⟨zeroBlocks 0 ++ (fullFieldHeader ++ []), 0⟩, MojoArchive_resetEntry, ⟨none, 0⟩⟩ 0 0
      fullFieldHeader [] _ rfl rfl rfl (by decide) (by decide) fullFieldHeader_parse, rfl, rfl⟩
  · exact ⟨_, _, enumNext_found
      ⟨⟨zeroBlocks 0 ++ (runOnHeader ++ []), 0⟩, MojoArchive_resetEntry, ⟨none, 0⟩⟩ 0 0
      runOnHeader [] _ rfl rfl rfl (by decide) (by decide) runOnHeader_parse, rfl, rfl⟩
  · exact enumNext_undefined
      ⟨⟨zeroBlocks 0 ++ (overrunHeader ++ []), 0⟩, MojoArchive_resetEntry, ⟨none, 0⟩⟩ 0 0
      overrunHeader [] rfl rfl rfl (by decide) (by decide) overrunHeader_parse

/-! ### The index of the last file name character -/

theorem stripSlashes_all_slash :
    ∀ (n : Nat) (l : List Nat), (∀ i, i < n → l.getD i 0 = 47) → stripSlashes l n = none := by
  intro n
  induction n with
  | zero => intro l _; rfl
  | succ n ih =>
      intro l h
      unfold stripSlashes
      rw [if_pos (h n (Nat.lt_succ_self n))]
      apply ih
      intro i hi
      have hne : n ≠ i := by omega
      rw [List.getD_eq_getElem?_getD, List.getElem?_set_ne hne, ← List.getD_eq_getElem?_getD]
      exact h i (by omega)

theorem getD_mem_of_lt (l : List Nat) (i : Nat) (h : i < l.length) : l.getD i 0 ∈ l := by
  rw [List.getD_eq_getElem?_getD, List.getElem?_eq_getElem h]
  exact List.getElem_mem h

theorem trailingSlash_all_slash (name : List Nat) (h : ∀ ch ∈ name, ch = 47) :
    trailingSlash name name.length = none := by
  cases hn : name.length with
  | zero => rfl
  | succ n =>
      have hall : ∀ i, i < n + 1 → name.getD i 0 = 47 := fun i hi =>
        h _ (getD_mem_of_lt name i (by omega))
      unfold trailingSlash
      simp only [hall n (Nat.lt_succ_self n), if_true, stripSlashes_all_slash (n + 1) name hall,
        Option.map_none']

theorem parseHeader_none_of_unusable (block : List Nat) (h : ¬ nameUsable block) :
    parseHeader block = none := by
  have hall : ∀ ch ∈ cstr (filenameScratch block), ch = 47 := by
    intro ch hch
    by_contra hne
    exact h ⟨ch, hch, hne⟩
  have hts := trailingSlash_all_slash (cstr (filenameScratch block)) hall
  unfold parseHeader
  split_ifs
  · unfold decodeHeader
    simp only [filenameLen_eq, hts]
  · rfl

theorem parseHeader_none_iff (block : List Nat) :
    parseHeader block = none ↔
      (scanInBlock block = false ∨ ∀ ch ∈ cstr (filenameScratch block), ch = 47) := by
  constructor
  · intro hnone
    by_cases hs : scanInBlock block = true
    · right
      intro ch hch
      by_contra hne
      have hsome := parseHeader_isSome block ⟨ch, hch, hne⟩ hs
      rw [hnone] at hsome
      exact absurd hsome (by simp)
    · left
      simpa using hs
  · rintro (hs | hall)
    · unfold parseHeader
      rw [if_neg (by rw [hs]; decide)]
    · apply parseHeader_none_of_unusable
      rintro ⟨ch, hch, hne⟩
      exact hne (hall ch hch)

theorem cstr_length_le_of_zero_tail (y : List Nat) (m : Nat) :
    (cstr (y ++ List.replicate m 0)).length ≤ y.length := by
  rw [cstr_append_zeros]
  exact strlen_le y

theorem scratch_zero_tail (x name : List Nat) (p z : Nat) (hx : x.length = 155)
    (hname : name.length = 100) (hp : p ≤ 155) :
    ∃ (y : List Nat) (m : Nat), y.length ≤ 255 ∧
      memcpy (x ++ List.replicate z 0) p name = y ++ List.replicate m 0 := by
  unfold memcpy
  rw [hname]
  by_cases hq : p + 100 ≤ 155
  · refine ⟨(x ++ List.replicate z 0).take p ++ name ++ x.drop (p + 100), z, ?_, ?_⟩
    · simp only [List.length_append, List.length_take, List.length_drop, List.length_replicate,
        hx, hname]
      omega
    · rw [List.drop_append_of_le_length (by omega), List.append_assoc, List.append_assoc,
        List.append_assoc]
  · refine ⟨(x ++ List.replicate z 0).take p ++ name, z - (p + 100 - 155), ?_, ?_⟩
    · simp only [List.length_append, List.length_take, List.length_replicate, hx, hname]
      omega
    · rw [List.drop_append_eq_append_drop, List.drop_of_length_le (by omega), List.nil_append,
        List.drop_replicate, hx]

theorem filenameLen_le (block : List Nat) (hb : block.length = 512) :
    filenameLen block ≤ 255 ∧ (cstr (filenameScratch block)).length ≤ 255 := by
  have hname : (slice block TAR_FNAME TAR_FNAMELEN).length = 100 :=
    slice_length block TAR_FNAME TAR_FNAMELEN (by rw [hb]; decide)
  have hpre : (slice block TAR_FNAMEPRE TAR_FNAMEPRELEN).length = 155 :=
    slice_length block TAR_FNAMEPRE TAR_FNAMEPRELEN (by rw [hb]; decide)
  have key : (cstr (filenameScratch block)).length ≤ 255 := by
    unfold filenameScratch
    simp only
    by_cases hu : is_ustar block = true
    · have hs1 : memcpy zeroBlock 0 (slice block TAR_FNAMEPRE TAR_FNAMEPRELEN) =
          slice block TAR_FNAMEPRE TAR_FNAMEPRELEN ++ List.replicate 357 0 := by
        unfold memcpy zeroBlock
        rw [List.take_zero, List.nil_append, Nat.zero_add, hpre, List.drop_replicate]
      rw [if_pos hu, hs1]
      have hp : strlen (slice block TAR_FNAMEPRE TAR_FNAMEPRELEN ++ List.replicate 357 0) ≤
          155 := by
        unfold strlen
        rw [cstr_append_zeros, ← hpre]
        exact strlen_le _
      obtain ⟨y, m, hy, heq⟩ := scratch_zero_tail _ _ _ 357 hpre hname hp
      rw [heq]
      exact le_trans (cstr_length_le_of_zero_tail y m) hy
    · have hs0 : zeroBlock = List.replicate 155 0 ++ List.replicate 357 0 := by
        unfold zeroBlock
        rw [← List.replicate_add]
      rw [if_neg hu, strlen_zeroBlock, hs0]
      obtain ⟨y, m, hy, heq⟩ := scratch_zero_tail (List.replicate 155 0) _ 0 357
        (List.length_replicate 155 0) hname (by omega)
      rw [heq]
      exact le_trans (cstr_length_le_of_zero_tail y m) hy
  exact ⟨by rw [filenameLen_eq]; exact key, key⟩

set_option maxRecDepth 100000 in
theorem emptyNameHeader_parse : parseHeader emptyNameHeader = none := by decide

set_option maxRecDepth 100000 in
theorem slashNameHeader_parse : parseHeader slashNameHeader = none := by decide

set_option maxRecDepth 100000 in
/-- C23, evaluated: on a non-zero header block whose assembled file name is empty the
trailing-slash check of `enumNext` runs with `fnamelen = 0` and reads
`filename[fnamelen-1]` before the start of the string, and on a non-zero header block
whose file name is `"//"` the stripping loop walks down to `fnamelen = 0` and reads
the same index: both calls end in undefined behaviour instead of an entry. -/
theorem filename_index_before_start :
    emptyNameHeader.length = 512 ∧ emptyNameHeader ≠ zeroBlock ∧
    scanInBlock emptyNameHeader = true ∧
    cstr (filenameScratch emptyNameHeader) = [] ∧ filenameLen emptyNameHeader = 0 ∧
    trailingSlash (cstr (filenameScratch emptyNameHeader)) (filenameLen emptyNameHeader) =
      none ∧
    MojoArchive_tar_enumNext
      ⟨⟨zeroBlocks 0 ++ (emptyNameHeader ++ []), 0⟩, MojoArchive_resetEntry, ⟨none, 0⟩⟩ =
        Outcome.undefined ∧
    slashNameHeader.length = 512 ∧ slashNameHeader ≠ zeroBlock ∧
    scanInBlock slashNameHeader = true ∧
    cstr (filenameScratch slashNameHeader) = [47, 47] ∧ filenameLen slashNameHeader = 2 ∧
    stripSlashes (cstr (filenameScratch slashNameHeader)) (filenameLen slashNameHeader) =
      none ∧
    MojoArchive_tar_enumNext
      ⟨⟨zeroBlocks 0 ++ (slashNameHeader ++ []), 0⟩, MojoArchive_resetEntry, ⟨none, 0⟩⟩ =
        Outcome.undefined := by
  refine ⟨by decide, by decide, by decide, by decide, by decide, by decide, ?_,
    by decide, by decide, by decide, by decide, by decide, by decide, ?_⟩
  · exact enumNext_undefined
      ⟨⟨zeroBlocks 0 ++ (emptyNameHeader ++ []), 0⟩, MojoArchive_resetEntry, ⟨none, 0⟩⟩ 0 0
      emptyNameHeader [] rfl rfl rfl (by decide) (by decide) emptyNameHeader_parse
  · exact enumNext_undefined
      ⟨⟨zeroBlocks 0 ++ (slashNameHeader ++ []), 0⟩, MojoArchive_resetEntry, ⟨none, 0⟩⟩ 0 0
      slashNameHeader [] rfl rfl rfl (by decide) (by decide) slashNameHeader_parse

/-! ### The option lists -/

theorem clearValue_of_false (o : GuiOptions) (h : o.value = false) : clearValue o = o := by
  cases o
  simp only [clearValue] at h ⊢
  simp only [h]

theorem clearValue_idem (o : GuiOptions) : clearValue (clearValue o) = clearValue o := rfl

theorem cleanupLoop_plain :
    ∀ (opts prev : List GuiOptions) (seen : Option Nat),
      (cleanupLoop false opts prev seen).1 = opts.reverse ++ prev := by
  intro opts
  induction opts with
  | nil => intro prev seen; rfl
  | cons o rest ih =>
      intro prev seen
      simp only [cleanupLoop, Bool.false_and, Bool.false_eq_true, if_false, ih,
        List.reverse_cons, List.append_assoc, List.singleton_append]

theorem clear_seen (qr : List GuiOptions) :
    (∀ i, firstEnabled qr = some i → setValue (keepFirst qr) i false = qr.map clearValue) ∧
    (firstEnabled qr = none → keepFirst qr = qr.map clearValue) := by
  induction qr with
  | nil => exact ⟨fun i h => by simp [firstEnabled] at h, fun _ => rfl⟩
  | cons a r ih =>
      by_cases ha : a.value = true
      · constructor
        · intro i h
          simp only [firstEnabled, ha, if_true, Option.some.injEq] at h
          subst h
          simp only [keepFirst, ha, if_true, setValue, List.map_cons]
          rfl
        · intro h
          simp [firstEnabled, ha] at h
      · have hf : a.value = false := by simpa using ha
        constructor
        · intro i h
          simp only [firstEnabled, hf, Bool.false_eq_true, if_false, Option.map_eq_some'] at h
          obtain ⟨j, hj, rfl⟩ := h
          simp only [keepFirst, hf, Bool.false_eq_true, if_false, setValue, List.map_cons,
            ih.1 j hj, clearValue_of_false a hf]
        · intro h
          simp only [firstEnabled, hf, Bool.false_eq_true, if_false, Option.map_eq_none'] at h
          simp only [keepFirst, hf, Bool.false_eq_true, if_false, List.map_cons, ih.2 h,
            clearValue_of_false a hf]

theorem cleanupLoop_group :
    ∀ (opts qr : List GuiOptions),
      cleanupLoop true opts (keepFirst qr) (firstEnabled qr) =
        (keepFirst (opts.reverse ++ qr), firstEnabled (opts.reverse ++ qr)) := by
  intro opts
  induction opts with
  | nil => intro qr; rfl
  | cons o rest ih =>
      intro qr
      have hrev : (o :: rest).reverse ++ qr = rest.reverse ++ o :: qr := by
        simp only [List.reverse_cons, List.append_assoc, List.singleton_append]
      rw [hrev, ← ih (o :: qr)]
      by_cases ho : o.value = true
      · have hk : keepFirst (o :: qr) = o :: qr.map clearValue := by
          simp only [keepFirst, ho, if_true]
        have hfe : firstEnabled (o :: qr) = some 0 := by
          simp only [firstEnabled, ho, if_true]
        rw [hk, hfe]
        cases hs : firstEnabled qr with
        | none =>
            simp only [cleanupLoop, Bool.true_and, ho, if_true, (clear_seen qr).2 hs]
        | some i =>
            simp only [cleanupLoop, Bool.true_and, ho, if_true, (clear_seen qr).1 i hs]
      · have hf : o.value = false := by simpa using ho
        have hk : keepFirst (o :: qr) = o :: keepFirst qr := by
          simp only [keepFirst, hf, Bool.false_eq_true, if_false]
        have hfe : firstEnabled (o :: qr) = (firstEnabled qr).map (· + 1) := by
          simp only [firstEnabled, hf, Bool.false_eq_true, if_false]
        rw [hk, hfe]
        simp only [cleanupLoop, Bool.true_and, hf, Bool.false_eq_true, if_false]

theorem keepFirst_isEmpty (l : List GuiOptions) : (keepFirst l).isEmpty = l.isEmpty := by
  cases l with
  | nil => rfl
  | cons a r =>
      unfold keepFirst
      split_ifs <;> rfl

theorem cleanup_plain (opts : List GuiOptions) (parent : Option GuiOptions)
    (h : parent = none ∨ ∃ p, parent = some p ∧ p.is_group_parent = false) :
    cleanup_gui_option_list opts parent = opts.reverse := by
  rcases h with rfl | ⟨p, rfl, hp⟩
  · unfold cleanup_gui_option_list
    simp only [cleanupLoop_plain, Bool.and_false, Bool.false_and, Bool.false_eq_true,
      if_false, List.append_nil]
  · unfold cleanup_gui_option_list
    simp only [hp, cleanupLoop_plain, Bool.and_false, Bool.false_and, Bool.false_eq_true,
      if_false, List.append_nil]

theorem cleanup_group (opts : List GuiOptions) (p : GuiOptions)
    (hp : p.is_group_parent = true) :
    cleanup_gui_option_list opts (some p) =
      if !opts.reverse.isEmpty && (firstEnabled opts.reverse).isNone then
        setValue (keepFirst opts.reverse) 0 true
      else keepFirst opts.reverse := by
  have hl := cleanupLoop_group opts []
  simp only [keepFirst, firstEnabled, List.append_nil] at hl
  unfold cleanup_gui_option_list
  simp only [hp, hl, Bool.and_true, keepFirst_isEmpty]
theorem keepFirst_same (l : List GuiOptions) :
    (keepFirst l).map clearValue = l.map clearValue := by
  induction l with
  | nil => rfl
  | cons a r ih =>
      unfold keepFirst
      split_ifs
      · simp only [List.map_cons, List.map_map]
        congr 1
      · simp only [List.map_cons, ih]

theorem setValue_same (l : List GuiOptions) (i : Nat) (v : Bool) :
    (setValue l i v).map clearValue = l.map clearValue := by
  induction l generalizing i with
  | nil => rfl
  | cons a r ih =>
      cases i with
      | zero => rfl
      | succ j => simp only [setValue, List.map_cons, ih]

theorem firstEnabled_none (l : List GuiOptions) (h : firstEnabled l = none) :
    ∀ o ∈ l, o.value = false := by
  induction l with
  | nil => intro o ho; simp at ho
  | cons a r ih =>
      by_cases ha : a.value = true
      · simp [firstEnabled, ha] at h
      · have hf : a.value = false := by simpa using ha
        simp only [firstEnabled, hf, Bool.false_eq_true, if_false, Option.map_eq_none'] at h
        intro o ho
        rcases List.mem_cons.1 ho with rfl | ho
        · exact hf
        · exact ih h o ho

theorem keepFirst_of_none (l : List GuiOptions) (h : firstEnabled l = none) :
    keepFirst l = l := by
  induction l with
  | nil => rfl
  | cons a r ih =>
      by_cases ha : a.value = true
      · simp [firstEnabled, ha] at h
      · have hf : a.value = false := by simpa using ha
        simp only [firstEnabled, hf, Bool.false_eq_true, if_false, Option.map_eq_none'] at h
        simp only [keepFirst, hf, Bool.false_eq_true, if_false, ih h]

theorem getElem?_value_of_all_false (l : List GuiOptions) (h : ∀ o ∈ l, o.value = false)
    (i : Nat) (o : GuiOptions) (ho : l[i]? = some o) : o.value = false :=
  h o (List.mem_iff_getElem?.2 ⟨i, ho⟩)

theorem keepFirst_only (l : List GuiOptions) :
    ∀ (k : Nat), firstEnabled l = some k →
      k < l.length ∧
      ∀ (i : Nat) (o : GuiOptions), (keepFirst l)[i]? = some o → (o.value = true ↔ i = k) := by
  induction l with
  | nil => intro k h; simp [firstEnabled] at h
  | cons a r ih =>
      intro k h
      by_cases ha : a.value = true
      · simp only [firstEnabled, ha, if_true, Option.some.injEq] at h
        subst h
        refine ⟨by simp, ?_⟩
        intro i o hio
        simp only [keepFirst, ha, if_true] at hio
        cases i with
        | zero =>
            simp only [List.getElem?_cons_zero, Option.some.injEq] at hio
            subst hio
            simp [ha]
        | succ j =>
            simp only [List.getElem?_cons_succ, List.getElem?_map, Option.map_eq_some'] at hio
            obtain ⟨o1, _, rfl⟩ := hio
            simp [clearValue]
      · have hf : a.value = false := by simpa using ha
        simp only [firstEnabled, hf, Bool.false_eq_true, if_false, Option.map_eq_some'] at h
        obtain ⟨j, hj, rfl⟩ := h
        obtain ⟨hlt, hall⟩ := ih j hj
        refine ⟨by simp only [List.length_cons]; omega, ?_⟩
        intro i o hio
        simp only [keepFirst, hf, Bool.false_eq_true, if_false] at hio
        cases i with
        | zero =>
            simp only [List.getElem?_cons_zero, Option.some.injEq] at hio
            subst hio
            simp [hf]
        | succ i1 =>
            simp only [List.getElem?_cons_succ] at hio
            rw [hall i1 o hio]
            omega

theorem setValue_head_only (l : List GuiOptions) (h : ∀ o ∈ l, o.value = false)
    (i : Nat) (o : GuiOptions) (hio : (setValue l 0 true)[i]? = some o) :
    (o.value = true ↔ i = 0) := by
  cases l with
  | nil => simp [setValue] at hio
  | cons a r =>
      simp only [setValue] at hio
      cases i with
      | zero =>
          simp only [List.getElem?_cons_zero, Option.some.injEq] at hio
          subst hio
          simp
      | succ j =>
          simp only [List.getElem?_cons_succ] at hio
          have hv := h o (List.mem_cons_of_mem a (List.mem_iff_getElem?.2 ⟨j, hio⟩))
          simp [hv]

theorem countP_value_one :
    ∀ (l : List GuiOptions) (k : Nat), k < l.length →
      (∀ (i : Nat) (o : GuiOptions), l[i]? = some o → (o.value = true ↔ i = k)) →
      l.countP (fun o => o.value) = 1 := by
  intro l
  induction l with
  | nil => intro k hk; simp at hk
  | cons a t ih =>
      intro k hk h
      cases k with
      | zero =>
          have ha : a.value = true := (h 0 a (by simp)).2 rfl
          have ht : t.countP (fun o => o.value) = 0 := by
            rw [List.countP_eq_zero]
            intro o ho
            obtain ⟨n, hn⟩ := List.getElem?_of_mem ho
            have hno := (h (n + 1) o (by simpa using hn)).1
            intro hv
            exact absurd (hno hv) (by omega)
          rw [List.countP_cons_of_pos _ _ ha, ht]
      | succ j =>
          have ha : ¬ a.value = true := fun hv => absurd ((h 0 a (by simp)).1 hv) (by omega)
          rw [List.countP_cons_of_neg _ _ ha]
          apply ih j (by simpa using hk)
          intro i o hio
          have hi := h (i + 1) o (by simpa using hio)
          rw [hi]
          omega

/-- C24: `cleanup_gui_option_list` on a sibling list. When the parent is absent or
is not a group parent, the list returned is the input list reversed, every record
unchanged. When the parent is a group parent and the list is not empty, the list
returned holds the same options as the input in reversed order (the records agree
once `value` is left out), exactly one of them has `value` true, and it is the one
at the position of the first enabled option of the reversed input, or at position 0
when no option was enabled. -/
theorem cleanup_gui_option_list_spec (opts : List GuiOptions) (parent : Option GuiOptions) :
    ((parent = none ∨ ∃ p, parent = some p ∧ p.is_group_parent = false) →
      cleanup_gui_option_list opts parent = opts.reverse) ∧
    ((∃ p, parent = some p ∧ p.is_group_parent = true) → opts ≠ [] →
      (cleanup_gui_option_list opts parent).map clearValue = opts.reverse.map clearValue ∧
      (cleanup_gui_option_list opts parent).countP (fun o => o.value) = 1 ∧
      (firstEnabled opts.reverse).getD 0 < (cleanup_gui_option_list opts parent).length ∧
      ∀ (i : Nat) (o : GuiOptions), (cleanup_gui_option_list opts parent)[i]? = some o →
        (o.value = true ↔ i = (firstEnabled opts.reverse).getD 0)) := by
  refine ⟨cleanup_plain opts parent, ?_⟩
  rintro ⟨p, rfl, hp⟩ hne
  have hrne : opts.reverse.isEmpty = false := by
    cases hq : opts.reverse with
    | nil => exact absurd (List.reverse_eq_nil_iff.1 hq) hne
    | cons a r => rfl
  have hsame : (cleanup_gui_option_list opts (some p)).map clearValue =
      opts.reverse.map clearValue := by
    rw [cleanup_group opts p hp]
    split_ifs
    · rw [setValue_same, keepFirst_same]
    · exact keepFirst_same _
  have hlen : (cleanup_gui_option_list opts (some p)).length = opts.reverse.length := by
    have h := congrArg List.length hsame
    simpa only [List.length_map] using h
  have hpos : 0 < opts.reverse.length := by
    cases hq : opts.reverse with
    | nil => rw [hq] at hrne; exact absurd hrne (by decide)
    | cons a r => simp
  have honly : (firstEnabled opts.reverse).getD 0 < opts.reverse.length ∧
      ∀ (i : Nat) (o : GuiOptions), (cleanup_gui_option_list opts (some p))[i]? = some o →
        (o.value = true ↔ i = (firstEnabled opts.reverse).getD 0) := by
    rw [cleanup_group opts p hp]
    cases hfe : firstEnabled opts.reverse with
    | none =>
        simp only [hrne, Bool.not_false, Option.isNone_none, Bool.and_self, if_true,
          Option.getD_none, keepFirst_of_none _ hfe]
        exact ⟨hpos, setValue_head_only _ (firstEnabled_none _ hfe)⟩
    | some k =>
        simp only [Option.isNone_some, Bool.and_false, Bool.false_eq_true, if_false,
          Option.getD_some]
        exact keepFirst_only _ k hfe
  refine ⟨hsame, countP_value_one _ _ (hlen ▸ honly.1) honly.2, hlen ▸ honly.1, honly.2⟩

/-- C24 at a concrete list: three options of a group, the first and the last enabled
on input; the list returned is reversed and only its first option (the last of the
input) stays enabled. With no parent the same list is only reversed. -/
theorem cleanup_gui_option_list_spec_witness :
    sampleGroup.is_group_parent = true ∧ sampleOptions ≠ [] ∧
    cleanup_gui_option_list sampleOptions (some sampleGroup) =
      [⟨[99], true, false⟩, ⟨[98], false, false⟩, ⟨[97], false, false⟩] ∧
    (cleanup_gui_option_list sampleOptions (some sampleGroup)).countP (fun o => o.value) = 1 ∧
    cleanup_gui_option_list sampleOptions none = sampleOptions.reverse :=
  ⟨rfl, by decide, by decide,
    ((cleanup_gui_option_list_spec sampleOptions (some sampleGroup)).2
      ⟨sampleGroup, rfl, rfl⟩ (by decide)).2.1,
    (cleanup_gui_option_list_spec sampleOptions none).1 (Or.inl rfl)⟩

end MojoSetup
